import Mathlib

/-!
# Strassen multiplication, selection, matrix chain order and knapsack

A shallow embedding of the matrix engine of `strassen.cpp`, of
`deterministicOrderSelection.cpp`, of `matrixChainOrder` of `mcm.cpp` and of
`knapsack` of `knapsack.cpp`, and proofs of the properties their specification
states.

Modelling conventions.

* `Matrix = vector<vector<int>>` is a list of rows, each a list of integers.
* Element arithmetic is machine arithmetic: every `int` result is reduced to
  the signed 32-bit range by `toInt`, every `long long` result to the signed
  64-bit range by `toLongLong` (two's complement wrap-around).
* Sizes and loop counters of the matrix programs are natural numbers.  A
  square matrix that fits in memory has far fewer than `2^30` rows, so no size
  computation of the program leaves the `int` range on it.
* A `for` loop running a counter from `0` to `n - 1` is `forLoop n body`; an
  assignment `M[i][j] = v` is `setEntry M i j v`; a read `M[i][j]` is
  `getEntry M i j` (reads outside the matrix, undefined in C++, give `0`).
* `split` throws on an odd size: functions that can throw return `Option`,
  with `none` for the thrown `runtime_error`.
-/

namespace Strassen

/-- The type `Matrix` of the program: `vector<vector<int>>`. -/
abbrev Matrix := List (List Int)

/-- Value of an `int` computation: reduction to the signed 32-bit range. -/
def toInt (x : Int) : Int := (x + 2147483648) % 4294967296 - 2147483648

/-- Value of a `long long` computation: reduction to the signed 64-bit range. -/
def toLongLong (x : Int) : Int :=
  (x + 9223372036854775808) % 18446744073709551616 - 9223372036854775808

/-- The loop `for (int i = 0; i < n; ++i) body(i)` acting on a state:
iteration `0` runs first, iteration `n - 1` last. -/
def forLoop {σ : Type} : Nat → (Nat → σ → σ) → σ → σ
  | 0, _, s => s
  | k + 1, body, s => body k (forLoop k body s)

/-- The read `M[i][j]`. -/
def getEntry (M : Matrix) (i j : Nat) : Int := (M.getD i []).getD j 0

/-- The assignment `M[i][j] = v`. -/
def setEntry (M : Matrix) (i j : Nat) (v : Int) : Matrix :=
  M.set i ((M.getD i []).set j v)

/-- The constructor call `Matrix(n, vector<int>(n, v))`. -/
def newMatrix (n : Nat) (v : Int) : Matrix := List.replicate n (List.replicate n v)

/-- A square matrix of size `n`: `n` rows of `n` entries each. -/
def IsSquare (n : Nat) (M : Matrix) : Prop := M.length = n ∧ ∀ row ∈ M, row.length = n

instance (n : Nat) (M : Matrix) : Decidable (IsSquare n M) := by
  unfold IsSquare; infer_instance

/-- The loop `while (power < n) power *= 2;` of `nextPowerOf2`, started with a
positive `power`. The variable `power` is a natural number: on the sizes of
matrices (below `2^30`) it stays in the `int` range. -/
def nextPowerOf2Loop (power : Nat) (n : Int) (hp : 0 < power) : Nat :=
  if h : (power : Int) < n then nextPowerOf2Loop (power * 2) n (by omega) else power
termination_by (n - power).toNat
decreasing_by omega

/-- The function `nextPowerOf2` as the driver uses it, on matrix sizes, with
`power` unbounded. Its run on the type `int` is `nextPowerOf2Int`; the two
agree for every `n ≤ 2^30` (`nextPowerOf2LoopInt_eq`). -/
def nextPowerOf2 (n : Int) : Int :=
  if n ≤ 0 then 1
  else if Int.land n (n - 1) = 0 then n
  else (nextPowerOf2Loop 1 n (by decide) : Nat)

/-- The function `padMatrix`. -/
def padMatrix (M : Matrix) (new_size : Nat) : Matrix :=
  let old_size := M.length
  if old_size = new_size then M
  else
    forLoop old_size (fun i padded_M =>
      forLoop old_size (fun j padded_M => setEntry padded_M i j (getEntry M i j)) padded_M)
      (newMatrix new_size 0)

/-- The function `unpadMatrix`. -/
def unpadMatrix (M : Matrix) (original_size : Nat) : Matrix :=
  forLoop original_size (fun i unpadded_M =>
    forLoop original_size (fun j unpadded_M => setEntry unpadded_M i j (getEntry M i j))
      unpadded_M)
    (newMatrix original_size 0)

/-- The function `bruteForce`: each dot product is accumulated in a `long long`
and narrowed to `int` when stored. -/
def bruteForce (matrixA matrixB : Matrix) : Matrix :=
  let n := matrixA.length
  forLoop n (fun i matrixC =>
    forLoop n (fun j matrixC =>
      let sum := forLoop n (fun k sum =>
        toLongLong (sum + toLongLong (getEntry matrixA i k * getEntry matrixB k j))) 0
      setEntry matrixC i j (toInt sum)) matrixC)
    (newMatrix n 0)

/-- The function `matrixAdd`. -/
def matrixAdd (matrixA matrixB : Matrix) : Matrix :=
  let size := matrixA.length
  forLoop size (fun i matrixC =>
    forLoop size (fun j matrixC =>
      setEntry matrixC i j (toInt (getEntry matrixA i j + getEntry matrixB i j))) matrixC)
    (newMatrix size 0)

/-- The function `matrixSubtract`. -/
def matrixSubtract (matrixA matrixB : Matrix) : Matrix :=
  let size := matrixA.length
  forLoop size (fun i matrixC =>
    forLoop size (fun j matrixC =>
      setEntry matrixC i j (toInt (getEntry matrixA i j - getEntry matrixB i j))) matrixC)
    (newMatrix size 0)

/-- The four quadrants `result[0..3]` that `split` fills. -/
abbrev Quadrants := Matrix × Matrix × Matrix × Matrix

/-- The function `split`: `none` is the `runtime_error` thrown on an odd size;
otherwise the quadrants `(A11, A12, A21, A22)` written into `result`. -/
def split (matrixM : Matrix) : Option Quadrants :=
  let size := matrixM.length
  if size % 2 ≠ 0 then none
  else
    let halfSize := size / 2
    some (forLoop halfSize (fun i result =>
      forLoop halfSize (fun j result =>
        (setEntry result.1 i j (getEntry matrixM i j),
         setEntry result.2.1 i j (getEntry matrixM i (j + halfSize)),
         setEntry result.2.2.1 i j (getEntry matrixM (i + halfSize) j),
         setEntry result.2.2.2 i j (getEntry matrixM (i + halfSize) (j + halfSize))))
        result)
      (newMatrix halfSize 0, newMatrix halfSize 0, newMatrix halfSize 0, newMatrix halfSize 0))

/-- The function `join`. -/
def join (C11 C12 C21 C22 : Matrix) : Matrix :=
  let halfSize := C11.length
  let size := halfSize * 2
  forLoop halfSize (fun i matrixC =>
    forLoop halfSize (fun j matrixC =>
      let m1 := setEntry matrixC i j (getEntry C11 i j)
      let m2 := setEntry m1 i (j + halfSize) (getEntry C12 i j)
      let m3 := setEntry m2 (i + halfSize) j (getEntry C21 i j)
      setEntry m3 (i + halfSize) (j + halfSize) (getEntry C22 i j)) matrixC)
    (newMatrix size 0)

/-- The function `sumOfMatrixEntries`. -/
def sumOfMatrixEntries (m : Matrix) : Int :=
  forLoop m.length (fun i sum =>
    forLoop (m.getD i []).length (fun j sum => toLongLong (sum + getEntry m i j)) sum) 0

/-- The exact integer entry `(i, j)` of the product of two matrices of size `n`:
the sum over `k < n` of `A[i][k] * B[k][j]`. -/
def exactEntry (n : Nat) (A B : Matrix) (i j : Nat) : Int :=
  ∑ k in Finset.range n, getEntry A i k * getEntry B k j

/-- The identity matrix of size `n`. -/
def identityMatrix (n : Nat) : Matrix :=
  (List.range n).map fun i => (List.range n).map fun j => if i = j then 1 else 0

/-- The all-zero matrix of size `n`. -/
def zeroMatrix (n : Nat) : Matrix := List.replicate n (List.replicate n 0)

/-- Every entry of the matrix is a value of type `int`. -/
def IntEntries (M : Matrix) : Prop := ∀ row ∈ M, ∀ x ∈ row, toInt x = x

instance (M : Matrix) : Decidable (IntEntries M) := by
  unfold IntEntries; infer_instance

/-- The sizes on which the recursive core never splits an odd-sized matrix:
halving while the size exceeds 32 only meets even sizes. -/
inductive HalvesEvenly : Nat → Prop
  | small {n : Nat} : n ≤ 32 → HalvesEvenly n
  | half {n : Nat} : 32 < n → n % 2 = 0 → HalvesEvenly (n / 2) → HalvesEvenly n

/-- An entry read modulo `2^32`. -/
def modEntry (M : Matrix) (i j : Nat) : ZMod 4294967296 :=
  ((getEntry M i j : Int) : ZMod 4294967296)

/-- The `long long` variable `sum` of `bruteForce` when the loop over `k` for
entry `(i, j)` has run `n` iterations. -/
def wideSum (n : Nat) (A B : Matrix) (i j : Nat) : Int :=
  forLoop n (fun k sum => toLongLong (sum + toLongLong (getEntry A i k * getEntry B k j))) 0

/-- The value fits the element type `int`. -/
def FitsInt (x : Int) : Prop := -2147483648 ≤ x ∧ x < 2147483648

/-- The value fits the accumulator type `long long`. -/
def FitsLongLong (x : Int) : Prop := -9223372036854775808 ≤ x ∧ x < 9223372036854775808

/-- A 64 × 64 matrix with entry `(i, j)` equal to `i * 64 + j`. -/
def sample64 : Matrix :=
  (List.range 64).map fun (i : Nat) =>
    (List.range 64).map fun (j : Nat) => ((i * 64 + j : Nat) : Int)

/-- The cell `(r, c)` of the matrix assembled from four quadrants of size `h`. -/
def joinCell (h : Nat) (C11 C12 C21 C22 : Matrix) (r c : Nat) : Int :=
  if r < h then
    if c < h then getEntry C11 r c else getEntry C12 r (c - h)
  else
    if c < h then getEntry C21 (r - h) c else getEntry C22 (r - h) (c - h)

/-- The operation `f` on square matrices of size `N` overwrites the cells
selected by `W` with the values `val` and leaves every other cell as it was. -/
def Writes (N : Nat) (W : Nat → Nat → Prop) (val : Nat → Nat → Int)
    (f : Matrix → Matrix) : Prop :=
  ∀ M, IsSquare N M → IsSquare N (f M) ∧
    ∀ r c, (W r c → getEntry (f M) r c = val r c) ∧
      (¬ W r c → getEntry (f M) r c = getEntry M r c)

/-- The loop `while (power < n) power *= 2;` of `nextPowerOf2` run on the type
`int` for at most `fuel` iterations: every doubling is reduced to the `int`
range. `none` when the loop has not ended after `fuel` iterations. -/
def nextPowerOf2LoopInt : Nat → Int → Int → Option Int
  | 0, _, _ => none
  | fuel + 1, power, n =>
    if power < n then nextPowerOf2LoopInt fuel (toInt (power * 2)) n else some power

/-- The function `nextPowerOf2` run on the type `int`, its loop for at most
`fuel` iterations. -/
def nextPowerOf2Int (fuel : Nat) (n : Int) : Option Int :=
  if n ≤ 0 then some 1
  else if Int.land n (n - 1) = 0 then some n
  else nextPowerOf2LoopInt fuel 1 n

/-- The exact sum of all entries of a matrix. -/
def matrixSum (M : Matrix) : Int := (M.map List.sum).sum

/-- The number of entries of a matrix. -/
def entryCount (M : Matrix) : Nat := (M.map List.length).sum

/-- The square matrix of size 65537 with every entry `INT_MAX`. -/
def largeMatrix : Matrix := List.replicate 65537 (List.replicate 65537 2147483647)

/-! ## Sizes along the recursion

The recursive core recurses on the matrix size. The facts below, on the sizes
of the matrices it passes on, are what the termination of that recursion needs.
-/

theorem forLoop_succ {σ : Type} (k : Nat) (body : Nat → σ → σ) (s : σ) :
    forLoop (k + 1) body s = body k (forLoop k body s) := rfl

theorem forLoop_zero {σ : Type} (body : Nat → σ → σ) (s : σ) :
    forLoop 0 body s = s := rfl

/-- A property kept by every iteration is kept by the loop. -/
theorem forLoop_invariant {σ : Type} (P : σ → Prop) (body : Nat → σ → σ)
    (hstep : ∀ k t, P t → P (body k t)) :
    ∀ (n : Nat) (s : σ), P s → P (forLoop n body s) := by
  intro n
  induction n with
  | zero => exact fun s hs => hs
  | succ m ih => exact fun s hs => hstep m _ (ih s hs)

theorem setEntry_length (M : Matrix) (i j : Nat) (v : Int) :
    (setEntry M i j v).length = M.length := by
  simp [setEntry]

theorem matrixAdd_length (A B : Matrix) : (matrixAdd A B).length = A.length := by
  unfold matrixAdd
  refine forLoop_invariant (fun M : Matrix => M.length = A.length) _ ?_ _ _ (by simp [newMatrix])
  intro i M hM
  exact forLoop_invariant (fun M : Matrix => M.length = A.length) _
    (fun j M hM => by show (setEntry M i j _).length = _; rw [setEntry_length]; exact hM)
    _ _ hM

theorem matrixSubtract_length (A B : Matrix) : (matrixSubtract A B).length = A.length := by
  unfold matrixSubtract
  refine forLoop_invariant (fun M : Matrix => M.length = A.length) _ ?_ _ _ (by simp [newMatrix])
  intro i M hM
  exact forLoop_invariant (fun M : Matrix => M.length = A.length) _
    (fun j M hM => by show (setEntry M i j _).length = _; rw [setEntry_length]; exact hM)
    _ _ hM

/-- The loop nest of `split` keeps the sizes of the four quadrants. -/
theorem split_loop_lengths (M : Matrix) (h n m : Nat) (q : Quadrants)
    (hq : q.1.length = h ∧ q.2.1.length = h ∧ q.2.2.1.length = h ∧ q.2.2.2.length = h) :
    (forLoop n (fun i result =>
      forLoop m (fun j result =>
        (setEntry result.1 i j (getEntry M i j),
         setEntry result.2.1 i j (getEntry M i (j + h)),
         setEntry result.2.2.1 i j (getEntry M (i + h) j),
         setEntry result.2.2.2 i j (getEntry M (i + h) (j + h))))
        result) q).1.length = h ∧
    (forLoop n (fun i result =>
      forLoop m (fun j result =>
        (setEntry result.1 i j (getEntry M i j),
         setEntry result.2.1 i j (getEntry M i (j + h)),
         setEntry result.2.2.1 i j (getEntry M (i + h) j),
         setEntry result.2.2.2 i j (getEntry M (i + h) (j + h))))
        result) q).2.1.length = h ∧
    (forLoop n (fun i result =>
      forLoop m (fun j result =>
        (setEntry result.1 i j (getEntry M i j),
         setEntry result.2.1 i j (getEntry M i (j + h)),
         setEntry result.2.2.1 i j (getEntry M (i + h) j),
         setEntry result.2.2.2 i j (getEntry M (i + h) (j + h))))
        result) q).2.2.1.length = h ∧
    (forLoop n (fun i result =>
      forLoop m (fun j result =>
        (setEntry result.1 i j (getEntry M i j),
         setEntry result.2.1 i j (getEntry M i (j + h)),
         setEntry result.2.2.1 i j (getEntry M (i + h) j),
         setEntry result.2.2.2 i j (getEntry M (i + h) (j + h))))
        result) q).2.2.2.length = h := by
  refine forLoop_invariant (fun q : Quadrants => q.1.length = h ∧ q.2.1.length = h ∧
    q.2.2.1.length = h ∧ q.2.2.2.length = h) _ ?_ n q hq
  intro i q hq
  refine forLoop_invariant (fun q : Quadrants => q.1.length = h ∧ q.2.1.length = h ∧
    q.2.2.1.length = h ∧ q.2.2.2.length = h) _ ?_ m q hq
  intro j q hq
  exact ⟨by rw [setEntry_length]; exact hq.1, by rw [setEntry_length]; exact hq.2.1,
    by rw [setEntry_length]; exact hq.2.2.1, by rw [setEntry_length]; exact hq.2.2.2⟩

/-- Each quadrant that `split` returns has half the size of its input. -/
theorem split_lengths {M A11 A12 A21 A22 : Matrix}
    (h : split M = some (A11, A12, A21, A22)) :
    A11.length = M.length / 2 ∧ A12.length = M.length / 2 ∧
      A21.length = M.length / 2 ∧ A22.length = M.length / 2 := by
  unfold split at h
  by_cases hev : M.length % 2 ≠ 0
  · rw [if_pos hev] at h
    cases h
  · rw [if_neg hev, Option.some.injEq] at h
    have key := split_loop_lengths M (M.length / 2) (M.length / 2) (M.length / 2)
      (newMatrix (M.length / 2) 0, newMatrix (M.length / 2) 0, newMatrix (M.length / 2) 0,
        newMatrix (M.length / 2) 0) (by simp [newMatrix])
    rw [h] at key
    exact key

/-! ## The recursive core and the driver -/

/-- The function `strassenMultiplyRecursive`; `none` is the `runtime_error`
that `split` throws. The recursion is on the matrix size, halved at each call. -/
def strassenMultiplyRecursive (matrixA matrixB : Matrix) : Option Matrix :=
  if hn : matrixA.length ≤ 32 then some (bruteForce matrixA matrixB)
  else
    match hA : split matrixA with
    | none => none
    | some (A11, A12, A21, A22) =>
      match split matrixB with
      | none => none
      | some (B11, B12, B21, B22) =>
        let S1 := matrixSubtract B12 B22
        let S2 := matrixAdd A11 A12
        let S3 := matrixAdd A21 A22
        let S4 := matrixSubtract B21 B11
        let S5 := matrixAdd A11 A22
        let S6 := matrixAdd B11 B22
        let S7 := matrixSubtract A12 A22
        let S8 := matrixAdd B21 B22
        let S9 := matrixSubtract A11 A21
        let S10 := matrixAdd B11 B12
        do
          let P1 ← strassenMultiplyRecursive A11 S1
          let P2 ← strassenMultiplyRecursive S2 B22
          let P3 ← strassenMultiplyRecursive S3 B11
          let P4 ← strassenMultiplyRecursive A22 S4
          let P5 ← strassenMultiplyRecursive S5 S6
          let P6 ← strassenMultiplyRecursive S7 S8
          let P7 ← strassenMultiplyRecursive S9 S10
          let C11 := matrixAdd (matrixSubtract (matrixAdd P5 P4) P2) P6
          let C12 := matrixAdd P1 P2
          let C21 := matrixAdd P3 P4
          let C22 := matrixSubtract (matrixSubtract (matrixAdd P5 P1) P3) P7
          pure (join C11 C12 C21 C22)
termination_by matrixA.length
decreasing_by
  all_goals simp_wf
  all_goals have hl := split_lengths hA
  all_goals try simp only [matrixAdd_length, matrixSubtract_length]
  all_goals omega

/-- The function `strassenMultiply`. -/
def strassenMultiply (matrixA matrixB : Matrix) : Option Matrix :=
  let n := matrixA.length
  let target_size := (nextPowerOf2 n).toNat
  let paddedA := padMatrix matrixA target_size
  let paddedB := padMatrix matrixB target_size
  do
    let paddedC ← strassenMultiplyRecursive paddedA paddedB
    pure (unpadMatrix paddedC n)

/-! ## The recursion seen from outside -/

/-- The run of `strassenMultiplyRecursive` on `matrixA` and `matrixB` passes
only even-sized matrices to `split`: in this call, when it is above the base
case, and in each of the seven calls it makes, down to the base cases. -/
inductive SplitsEven : Matrix → Matrix → Prop
  | base {A B : Matrix} : A.length ≤ 32 → SplitsEven A B
  | step {A B A11 A12 A21 A22 B11 B12 B21 B22 : Matrix} :
      32 < A.length → A.length % 2 = 0 → B.length % 2 = 0 →
      split A = some (A11, A12, A21, A22) → split B = some (B11, B12, B21, B22) →
      SplitsEven A11 (matrixSubtract B12 B22) →
      SplitsEven (matrixAdd A11 A12) B22 →
      SplitsEven (matrixAdd A21 A22) B11 →
      SplitsEven A22 (matrixSubtract B21 B11) →
      SplitsEven (matrixAdd A11 A22) (matrixAdd B11 B22) →
      SplitsEven (matrixSubtract A12 A22) (matrixAdd B21 B22) →
      SplitsEven (matrixSubtract A11 A21) (matrixAdd B11 B12) →
      SplitsEven A B

/-- The statement `Matrix P = strassenMultiplyRecursive(...); rest` when the
depth of the recursion is bounded: the outer `none` is a call that needs more
depth than allowed, `some none` the `runtime_error` on its way up. -/
def afterCall (call : Option (Option Matrix)) (rest : Matrix → Option (Option Matrix)) :
    Option (Option Matrix) :=
  match call with
  | none => none
  | some none => some none
  | some (some P) => rest P

/-- The function `strassenMultiplyRecursive` run with at most `depth` nested
calls: `none` when the recursion needs more, otherwise `some` of the outcome
(`some none` for the `runtime_error` of `split`). No termination argument goes
into this definition. -/
def strassenMultiplyRecursiveDepth : Nat → Matrix → Matrix → Option (Option Matrix)
  | 0, _, _ => none
  | depth + 1, matrixA, matrixB =>
    if matrixA.length ≤ 32 then some (some (bruteForce matrixA matrixB))
    else
      match split matrixA with
      | none => some none
      | some (A11, A12, A21, A22) =>
        match split matrixB with
        | none => some none
        | some (B11, B12, B21, B22) =>
          let S1 := matrixSubtract B12 B22
          let S2 := matrixAdd A11 A12
          let S3 := matrixAdd A21 A22
          let S4 := matrixSubtract B21 B11
          let S5 := matrixAdd A11 A22
          let S6 := matrixAdd B11 B22
          let S7 := matrixSubtract A12 A22
          let S8 := matrixAdd B21 B22
          let S9 := matrixSubtract A11 A21
          let S10 := matrixAdd B11 B12
          afterCall (strassenMultiplyRecursiveDepth depth A11 S1) fun P1 =>
          afterCall (strassenMultiplyRecursiveDepth depth S2 B22) fun P2 =>
          afterCall (strassenMultiplyRecursiveDepth depth S3 B11) fun P3 =>
          afterCall (strassenMultiplyRecursiveDepth depth A22 S4) fun P4 =>
          afterCall (strassenMultiplyRecursiveDepth depth S5 S6) fun P5 =>
          afterCall (strassenMultiplyRecursiveDepth depth S7 S8) fun P6 =>
          afterCall (strassenMultiplyRecursiveDepth depth S9 S10) fun P7 =>
          let C11 := matrixAdd (matrixSubtract (matrixAdd P5 P4) P2) P6
          let C12 := matrixAdd P1 P2
          let C21 := matrixAdd P3 P4
          let C22 := matrixSubtract (matrixSubtract (matrixAdd P5 P1) P3) P7
          some (some (join C11 C12 C21 C22))

/-- A 64 × 64 matrix whose only non-zero entry is `A[32][32] = 2^15`. -/
def overflowA : Matrix :=
  (List.range 64).map fun (i : Nat) =>
    (List.range 64).map fun (j : Nat) => if i = 32 ∧ j = 32 then (32768 : Int) else 0

/-- A 64 × 64 matrix whose only non-zero entries are `B[32][0] = B[32][32] = 2^15`. -/
def overflowB : Matrix :=
  (List.range 64).map fun (i : Nat) =>
    (List.range 64).map fun (j : Nat) =>
      if i = 32 ∧ (j = 0 ∨ j = 32) then (32768 : Int) else 0

end Strassen

/-! ## Deterministic selection (`deterministicOrderSelection.cpp`)

A `vector<int>` is a list of integers, indices and ranks are `int`s: every
`int` result of index arithmetic is reduced to the signed 32-bit range by
`toInt`. A vector passed by reference is returned with its new contents. -/

namespace Selection

open Strassen

/-- The read `arr[i]` of a `vector<int>` at an `int` index (a read outside the
vector, undefined in C++, gives `0`). -/
def readAt (arr : List Int) (i : Int) : Int :=
  if i < 0 then 0 else arr.getD i.toNat 0

/-- The assignment `arr[i] = v` (outside the vector, undefined in C++, it does
nothing). -/
def writeAt (arr : List Int) (i : Int) (v : Int) : List Int :=
  if i < 0 then arr else arr.set i.toNat v

/-- The call `swap(arr[i], arr[j])`. -/
def swapAt (arr : List Int) (i j : Int) : List Int :=
  writeAt (writeAt arr i (readAt arr j)) j (readAt arr i)

/-- The loop `for (int x = lo; x < hi; ++x) body(x)` with an `int` counter; the
loop `for (int x = lo; x <= hi; ++x)` is `forInt lo (hi + 1)`. The counter takes
the values `lo, lo + 1, …` below the bound, all of them `int`s. -/
def forInt {σ : Type} (lo hi : Int) (body : Int → σ → σ) (s : σ) : σ :=
  forLoop (hi - lo).toNat (fun t => body (lo + t)) s

/-- The loop `while (j >= left && arr[j] > key) { arr[j + 1] = arr[j]; j = j - 1; }`
of `insertion_sort`, on the state `(arr, j)`. It is started with
`fuel = j - left + 1`, the number of values `j` can take before `j < left`, so it
never stops for lack of fuel. -/
def shiftLoop (left key : Int) : Nat → List Int → Int → List Int × Int
  | 0, arr, j => (arr, j)
  | fuel + 1, arr, j =>
    if j ≥ left ∧ readAt arr j > key then
      shiftLoop left key fuel (writeAt arr (toInt (j + 1)) (readAt arr j)) (toInt (j - 1))
    else (arr, j)

/-- The function `insertion_sort` (the vector is passed by reference: the model
returns its new contents). -/
def insertion_sort (arr : List Int) (left right : Int) : List Int :=
  forInt (toInt (left + 1)) (right + 1) (fun i arr =>
    let key := readAt arr i
    let j := toInt (i - 1)
    let r := shiftLoop left key (j - left + 1).toNat arr j
    writeAt r.1 (toInt (r.2 + 1)) key) arr

/-- The function `find_and_move_median`: the new contents of the vector and
the value returned. -/
def find_and_move_median (arr : List Int) (left right : Int) : List Int × Int :=
  let arr := insertion_sort arr left right
  let median_idx := toInt (left + (toInt (right - left)).tdiv 2)
  (arr, readAt arr median_idx)

/-- The first loop of `partition`:
`for (pivot_idx = left; pivot_idx <= right; ++pivot_idx) if (arr[pivot_idx] == pivot_value) break;`
started with `fuel = right - left + 1`, the number of indices to visit. -/
def findPivotIdx (arr : List Int) (right pivot_value : Int) : Nat → Int → Int
  | 0, pivot_idx => pivot_idx
  | fuel + 1, pivot_idx =>
    if pivot_idx ≤ right then
      if readAt arr pivot_idx = pivot_value then pivot_idx
      else findPivotIdx arr right pivot_value fuel (toInt (pivot_idx + 1))
    else pivot_idx

/-- The function `partition`: the new contents of the vector and the index
returned. -/
def partition (arr : List Int) (left right pivot_value : Int) : List Int × Int :=
  let pivot_idx := findPivotIdx arr right pivot_value (right - left + 1).toNat left
  let arr := swapAt arr pivot_idx right
  let r := forInt left right (fun j (s : List Int × Int) =>
    if readAt s.1 j ≤ pivot_value then (swapAt s.1 (toInt (s.2 + 1)) j, toInt (s.2 + 1)) else s)
    (arr, toInt (left - 1))
  (swapAt r.1 (toInt (r.2 + 1)) right, toInt (r.2 + 1))

/-- The loop of `deterministic_select` over the groups of 5: the new contents
of the vector and the vector `medians`. -/
def groupMedians (arr : List Int) (left right num_groups : Int) : List Int × List Int :=
  forInt 0 num_groups (fun i (s : List Int × List Int) =>
    let group_start := toInt (left + toInt (i * 5))
    let group_end := min (toInt (group_start + 4)) right
    let r := find_and_move_median s.1 group_start group_end
    (r.1, s.2 ++ [r.2])) (arr, [])

/-- How a call of `deterministic_select` ends: it returns a value, or
`medians.reserve` throws `std::length_error` (which no caller catches), or the
recursion is deeper than the bound given to the model. -/
inductive Outcome where
  | returns : Int → Outcome
  | length_error : Outcome
  | unfinished : Outcome
  deriving DecidableEq

/-- The function `deterministic_select`, with a bound `fuel` on the depth of
the recursion. Only the value returned is kept: no caller reads the vector
after the call. The `int` arithmetic on indices and ranks wraps; the sizes
`medians.size() + 1` and `medians.size() - 1` are computed in `size_t` and
converted to `int`, which keeps the value modulo `2^32`. The call
`medians.reserve(num_groups)` converts `num_groups` to `size_t` and throws when
the result is above `max_size()`, which is the case exactly for a negative
`num_groups`. -/
def deterministic_select : Nat → List Int → Int → Int → Int → Outcome
  | 0, _, _, _, _ => Outcome.unfinished
  | fuel + 1, arr, left, right, k =>
    if left = right then Outcome.returns (readAt arr left)
    else
      let n := toInt (toInt (right - left) + 1)
      let num_groups := (toInt (n + 4)).tdiv 5
      if num_groups < 0 then Outcome.length_error
      else
        let g := groupMedians arr left right num_groups
        let medians := g.2
        let mom_rank_1based : Int := toInt (((medians.length + 1) / 2 : Nat) : Int)
        let mom :=
          if medians.length = 1 then Outcome.returns (readAt medians 0)
          else deterministic_select fuel medians 0 (toInt ((medians.length : Int) - 1))
            mom_rank_1based
        match mom with
        | Outcome.returns mom_pivot =>
          let p := partition g.1 left right mom_pivot
          let pivot_idx := p.2
          let pivot_rank := toInt (toInt (pivot_idx - left) + 1)
          if k = pivot_rank then Outcome.returns (readAt p.1 pivot_idx)
          else if k < pivot_rank then
            deterministic_select fuel p.1 left (toInt (pivot_idx - 1)) k
          else deterministic_select fuel p.1 (toInt (pivot_idx + 1)) right (toInt (k - pivot_rank))
        | other => other

/-- The `k`-th smallest element of a list (`k` counted from 1): the element at
index `k - 1` of the list sorted in non-decreasing order. -/
def kthSmallest (l : List Int) (k : Int) : Int :=
  (l.insertionSort (· ≤ ·)).getD (k - 1).toNat 0

/-- The largest value of the type `int`. -/
def INT_MAX : Int := 2147483647

/-- The vector `b` is a rearrangement of the vector `a` that moves elements
only inside the index range `[l, r]`. -/
def RangePerm (l r : Int) (a b : List Int) : Prop :=
  a.Perm b ∧ ∀ i : Int, (i < l ∨ r < i) → readAt a i = readAt b i

/-- The elements `arr[l], arr[l+1], …, arr[l+len-1]`. -/
def segment (a : List Int) (l : Int) (len : Nat) : List Int :=
  (List.range len).map (fun (t : Nat) => readAt a (l + (t : Int)))

/-- The state `(arr, i)` of the scan of `partition` when its counter `j` has
reached `left + t`: the elements at `[left, i]` are at most the pivot, the
elements at `(i, j)` are above it, and the pivot is still at `right`. -/
def ScanState (left right pv : Int) (a : List Int) (t : Nat) (s : List Int × Int) : Prop :=
  RangePerm left right a s.1 ∧ left - 1 ≤ s.2 ∧ s.2 < left + (t : Int) ∧
    readAt s.1 right = pv ∧
    (∀ x, left ≤ x → x ≤ s.2 → readAt s.1 x ≤ pv) ∧
    (∀ x, s.2 < x → x < left + (t : Int) → pv < readAt s.1 x)

end Selection

/-! ## Matrix chain order (`mcm.cpp`) -/

namespace MatrixChain

open Strassen

/-- The constant `LLONG_MAX`. -/
def LLONG_MAX : Int := 9223372036854775807

/-- The loop `for (int x = lo; x < hi; x++) body(x)` acting on a state. -/
def forRange {σ : Type} (lo hi : Nat) (body : Nat → σ → σ) (s : σ) : σ :=
  forLoop (hi - lo) (fun t => body (lo + t)) s

/-- The read `P[i]` of the dimension array. -/
def dim (P : List Int) (i : Nat) : Int := P.getD i 0

/-- The function `matrixChainOrder` of `mcm.cpp`. The table `dp` is a square
matrix of `long long`; every `long long` result is reduced to the 64-bit range.
The sizes and loop counters are natural numbers: the table has `n * n` cells,
so a dimension array whose table fits in memory has far fewer than `2^31`
entries. The loop `for (int i = 1; i <= n - L; i++)` is `forRange 1 (n - L + 1)`
and the loop `for (int k = i; k <= j - 1; k++)` is `forRange i j`. -/
def matrixChainOrder (P : List Int) : Int :=
  let n := P.length
  if n ≤ 2 then 0
  else
    let dp := forRange 2 n (fun L dp =>
      forRange 1 (n - L + 1) (fun i dp =>
        let j := i + L - 1
        let dp := setEntry dp i j LLONG_MAX
        forRange i j (fun k dp =>
          let current_cost :=
            toLongLong (toLongLong (getEntry dp i k + getEntry dp (k + 1) j)
              + toLongLong (toLongLong (dim P (i - 1) * dim P k) * dim P j))
          setEntry dp i j (min (getEntry dp i j) current_cost)) dp) dp)
      (newMatrix n 0)
    getEntry dp 1 (n - 1)

/-- A full parenthesization of a chain of matrices: a single matrix, or the
product of two parenthesized sub-chains. -/
inductive Paren where
  | single : Paren
  | mul : Paren → Paren → Paren

/-- The number of matrices of the chain. -/
def Paren.count : Paren → Nat
  | Paren.single => 1
  | Paren.mul l r => l.count + r.count

/-- The number of scalar multiplications of a parenthesization of the chain
that starts at matrix `M_i` (matrix `M_i` is `P[i-1] x P[i]`): multiplying the
`p x q` result of the left part by the `q x r` result of the right part costs
`p * q * r`. -/
def Paren.cost (P : List Int) : Paren → Nat → Int
  | Paren.single, _ => 0
  | Paren.mul l r, i =>
    l.cost P i + r.cost P (i + l.count)
      + dim P (i - 1) * dim P (i + l.count - 1) * dim P (i + l.count + r.count - 1)

/-- The value `c` is the minimum cost over all full parenthesizations of the
chain `M_i ... M_j`. -/
def IsMinCost (P : List Int) (i j : Nat) (c : Int) : Prop :=
  (∃ t : Paren, t.count = j - i + 1 ∧ t.cost P i = c) ∧
    ∀ t : Paren, t.count = j - i + 1 → c ≤ t.cost P i

/-- The state of the table `dp` when the chains shorter than `L`, and the
chains of length `L` that start before `i0`, have been computed: each of these
cells holds the minimal cost of its chain. -/
def TableDone (P : List Int) (L i0 : Nat) (dp : Matrix) : Prop :=
  IsSquare P.length dp ∧
    ∀ a b, 1 ≤ a → a ≤ b → b < P.length →
      (b - a + 1 < L ∨ (b - a + 1 = L ∧ a < i0)) → IsMinCost P a b (getEntry dp a b)

end MatrixChain

/-! ## 0/1 knapsack (`knapsack.cpp`) -/

namespace Knapsack

open Strassen MatrixChain

/-- The read `bricks[i]` of the vector of `{value, weight}` pairs. -/
def brickAt (bricks : List (Int × Int)) (i : Nat) : Int × Int := bricks.getD i (0, 0)

/-- The read `dp[i][j]` with an `int` column index (a read left of the row,
undefined in C++, gives `0`). -/
def readCell (dp : Matrix) (i : Nat) (j : Int) : Int :=
  if j < 0 then 0 else getEntry dp i j.toNat

/-- The function `knapsack`. The sizes `n + 1` and `capacity + 1` of the table
are `int` computations; a negative size makes the constructor of `vector`
throw `std::length_error`, which is `none`. The loops
`for (int i = 1; i <= n; ++i)` and `for (int w = 1; w <= capacity; ++w)` run
their counters over `1 .. n` and `1 .. capacity`. -/
def knapsack (capacity : Int) (bricks : List (Int × Int)) : Option Int :=
  let n := toInt bricks.length
  if toInt (n + 1) < 0 ∨ toInt (capacity + 1) < 0 then none
  else
    let dp : Matrix :=
      List.replicate (toInt (n + 1)).toNat (List.replicate (toInt (capacity + 1)).toNat 0)
    let dp := forRange 1 (n.toNat + 1) (fun i dp =>
      let current_value := (brickAt bricks (i - 1)).1
      let current_weight := (brickAt bricks (i - 1)).2
      forRange 1 (capacity.toNat + 1) (fun w dp =>
        if current_weight > (w : Int) then setEntry dp i w (getEntry dp (i - 1) w)
        else
          let value_without_item := getEntry dp (i - 1) w
          let value_with_item :=
            toInt (current_value + readCell dp (i - 1) (toInt ((w : Int) - current_weight)))
          setEntry dp i w (max value_without_item value_with_item)) dp) dp
    some (readCell dp n.toNat capacity)

/-- The total value of a selection of items. -/
def totalValue (s : List (Int × Int)) : Int := (s.map Prod.fst).sum

/-- The total weight of a selection of items. -/
def totalWeight (s : List (Int × Int)) : Int := (s.map Prod.snd).sum

/-- The value `r` is the maximum total value over the subsets of the items
(each item used at most once, the empty subset allowed) of total weight at
most `capacity`. A subset is a sublist: a choice of positions. -/
def IsMaxValue (bricks : List (Int × Int)) (capacity : Int) (r : Int) : Prop :=
  (∃ s, s.Sublist bricks ∧ totalWeight s ≤ capacity ∧ totalValue s = r) ∧
    ∀ s, s.Sublist bricks → totalWeight s ≤ capacity → totalValue s ≤ r

/-- A table of `rows` rows of `cols` entries each. -/
def IsTable (rows cols : Nat) (M : Matrix) : Prop :=
  M.length = rows ∧ ∀ row ∈ M, row.length = cols

/-- The value that the body of the loop over `w` stores in `dp[i][w]`. -/
def cellValue (bricks : List (Int × Int)) (dp : Matrix) (i w : Nat) : Int :=
  if (brickAt bricks (i - 1)).2 > (w : Int) then getEntry dp (i - 1) w
  else
    max (getEntry dp (i - 1) w)
      (toInt ((brickAt bricks (i - 1)).1
        + readCell dp (i - 1) (toInt ((w : Int) - (brickAt bricks (i - 1)).2))))

/-- The state of the table `dp` when the rows below `i0` are computed: row `r`
holds, for each capacity `c`, the best value of a selection among the first
`r` items; the rows from `i0` on are still zero. -/
def RowsDone (bricks : List (Int × Int)) (cap i0 : Nat) (dp : Matrix) : Prop :=
  IsTable (bricks.length + 1) (cap + 1) dp ∧
    (∀ r c, r < i0 → c ≤ cap → IsMaxValue (bricks.take r) (c : Int) (getEntry dp r c)) ∧
    (∀ r c, i0 ≤ r → getEntry dp r c = 0)

end Knapsack

namespace Strassen

/-! ## Reads, writes and loops -/

theorem isSquare_length {n : Nat} {M : Matrix} (h : IsSquare n M) : M.length = n := h.1

theorem isSquare_newMatrix (n : Nat) (v : Int) : IsSquare n (newMatrix n v) := by
  refine ⟨by simp [newMatrix], ?_⟩
  intro row hrow
  rw [newMatrix, List.mem_replicate] at hrow
  rw [hrow.2, List.length_replicate]

theorem setEntry_of_le (M : Matrix) {i : Nat} (j : Nat) (v : Int) (hi : M.length ≤ i) :
    setEntry M i j v = M :=
  List.set_eq_of_length_le hi

theorem getD_row (M : Matrix) {i : Nat} (hi : i < M.length) : M.getD i [] = M[i] := by
  simp [List.getD_eq_getElem?_getD, hi]

theorem isSquare_setEntry {n : Nat} {M : Matrix} (h : IsSquare n M) (i j : Nat) (v : Int) :
    IsSquare n (setEntry M i j v) := by
  by_cases hi : i < M.length
  · refine ⟨by rw [setEntry_length, h.1], ?_⟩
    intro row hrow
    rcases List.mem_or_eq_of_mem_set hrow with hmem | heq
    · exact h.2 row hmem
    · rw [heq, List.length_set, getD_row M hi]
      exact h.2 _ (List.getElem_mem _)
  · rw [setEntry_of_le M j v (by omega)]
    exact h

theorem row_length {n : Nat} {M : Matrix} (h : IsSquare n M) {i : Nat} (hi : i < n) :
    (M.getD i []).length = n := by
  have hi2 : i < M.length := by rw [h.1]; exact hi
  rw [getD_row M hi2]
  exact h.2 _ (List.getElem_mem _)

theorem getEntry_setEntry {n : Nat} {M : Matrix} (h : IsSquare n M) {i j : Nat}
    (hi : i < n) (hj : j < n) (v : Int) (r c : Nat) :
    getEntry (setEntry M i j v) r c = if r = i ∧ c = j then v else getEntry M r c := by
  have hi2 : i < M.length := by rw [h.1]; exact hi
  have hrow : (M[i]).length = n := h.2 _ (List.getElem_mem _)
  unfold getEntry setEntry
  by_cases hr : r = i
  · subst hr
    by_cases hc : c = j
    · subst hc
      simp [List.getD_eq_getElem?_getD, List.getElem?_set, hi2, hrow, hj]
    · have hc2 : ¬ j = c := fun e => hc e.symm
      simp [List.getD_eq_getElem?_getD, List.getElem?_set, hi2, hc, hc2]
  · have hr2 : ¬ i = r := fun e => hr e.symm
    simp [List.getD_eq_getElem?_getD, List.getElem?_set, hr, hr2]

theorem getEntry_newMatrix_zero (n r c : Nat) : getEntry (newMatrix n 0) r c = 0 := by
  unfold getEntry newMatrix
  by_cases hr : r < n
  · by_cases hc : c < n <;> simp [List.getD_eq_getElem?_getD, List.getElem?_replicate, hr, hc]
  · simp [List.getD_eq_getElem?_getD, List.getElem?_replicate, hr]

/-- Two square matrices of the same size with the same entries are equal. -/
theorem matrix_ext {n : Nat} {M N : Matrix} (hM : IsSquare n M) (hN : IsSquare n N)
    (h : ∀ i j, i < n → j < n → getEntry M i j = getEntry N i j) : M = N := by
  apply List.ext_getElem (by rw [hM.1, hN.1])
  intro i h1 h2
  have hi : i < n := by rw [← hM.1]; exact h1
  have e1 : (M[i]).length = n := hM.2 _ (List.getElem_mem _)
  have e2 : (N[i]).length = n := hN.2 _ (List.getElem_mem _)
  apply List.ext_getElem (by rw [e1, e2])
  intro j h3 h4
  have hj : j < n := by rw [← e1]; exact h3
  have := h i j hi hj
  unfold getEntry at this
  rw [getD_row M h1, getD_row N h2] at this
  simpa [List.getD_eq_getElem?_getD, h3, h4] using this

theorem writes_setEntry {N i j : Nat} (hi : i < N) (hj : j < N) (val : Nat → Nat → Int)
    {v : Int} (hv : v = val i j) :
    Writes N (fun r c => r = i ∧ c = j) val (fun M => setEntry M i j v) := by
  intro M hM
  refine ⟨isSquare_setEntry hM i j v, fun r c => ⟨fun hW => ?_, fun hW => ?_⟩⟩
  · rw [getEntry_setEntry hM hi hj, if_pos hW, hv, hW.1, hW.2]
  · rw [getEntry_setEntry hM hi hj, if_neg hW]

theorem writes_congr {N : Nat} {W W2 : Nat → Nat → Prop} {val : Nat → Nat → Int}
    {f : Matrix → Matrix} (h : Writes N W val f) (hW : ∀ r c, W2 r c ↔ W r c) :
    Writes N W2 val f := by
  intro M hM
  refine ⟨(h M hM).1, fun r c => ⟨fun h2 => ?_, fun h2 => ?_⟩⟩
  · exact ((h M hM).2 r c).1 ((hW r c).1 h2)
  · exact ((h M hM).2 r c).2 (fun h3 => h2 ((hW r c).2 h3))

theorem writes_comp {N : Nat} {W1 W2 : Nat → Nat → Prop} {val : Nat → Nat → Int}
    {f g : Matrix → Matrix} (hf : Writes N W1 val f) (hg : Writes N W2 val g) :
    Writes N (fun r c => W1 r c ∨ W2 r c) val (fun M => g (f M)) := by
  intro M hM
  have h1 := hf M hM
  have h2 := hg (f M) h1.1
  refine ⟨h2.1, fun r c => ⟨fun hW => ?_, fun hW => ?_⟩⟩
  · by_cases hw2 : W2 r c
    · exact (h2.2 r c).1 hw2
    · rw [(h2.2 r c).2 hw2]
      exact (h1.2 r c).1 (hW.resolve_right hw2)
  · rw [(h2.2 r c).2 (fun h => hW (Or.inr h)), (h1.2 r c).2 (fun h => hW (Or.inl h))]

theorem writes_id (N : Nat) (val : Nat → Nat → Int) :
    Writes N (fun _ _ => False) val (fun M => M) := by
  intro M hM
  exact ⟨hM, fun r c => ⟨fun h => h.elim, fun _ => rfl⟩⟩

/-- A loop whose iteration `k` overwrites the cells `W k` overwrites their union. -/
theorem writes_forLoop {N : Nat} (n : Nat) (W : Nat → Nat → Nat → Prop)
    (val : Nat → Nat → Int) (body : Nat → Matrix → Matrix)
    (h : ∀ k, k < n → Writes N (W k) val (body k)) :
    Writes N (fun r c => ∃ k, k < n ∧ W k r c) val (fun M => forLoop n body M) := by
  induction n with
  | zero =>
    exact writes_congr (writes_id N val)
      (fun r c => ⟨fun ⟨k, hk, _⟩ => by omega, fun h => h.elim⟩)
  | succ m ih =>
    have h1 := ih (fun k hk => h k (by omega))
    have h2 := writes_comp h1 (h m (by omega))
    refine writes_congr h2 (fun r c => ⟨?_, ?_⟩)
    · rintro ⟨k, hk, hW⟩
      by_cases hkm : k = m
      · exact Or.inr (hkm ▸ hW)
      · exact Or.inl ⟨k, by omega, hW⟩
    · rintro (⟨k, hk, hW⟩ | hW)
      · exact ⟨k, by omega, hW⟩
      · exact ⟨m, by omega, hW⟩

/-- The loop nest `for i < n, for j < n: M[i][j] = f i j` on a square matrix of
size `N ≥ n` overwrites the top-left `n × n` block with `f`. -/
theorem writes_fill {N n : Nat} (hn : n ≤ N) (f : Nat → Nat → Int) :
    Writes N (fun r c => r < n ∧ c < n) f
      (fun M => forLoop n (fun i M => forLoop n (fun j M => setEntry M i j (f i j)) M) M) := by
  have inner : ∀ i, i < n → Writes N (fun r c => r = i ∧ c < n) f
      (fun M => forLoop n (fun j M => setEntry M i j (f i j)) M) := by
    intro i hi
    have := writes_forLoop n (fun j r c => r = i ∧ c = j) f
      (fun j M => setEntry M i j (f i j))
      (fun j hj => writes_setEntry (show i < N by omega) (show j < N by omega) f rfl)
    refine writes_congr this (fun r c => ⟨?_, ?_⟩)
    · rintro ⟨hr, hc⟩
      exact ⟨c, hc, hr, rfl⟩
    · rintro ⟨k, hk, hr, hc⟩
      exact ⟨hr, by omega⟩
  have := writes_forLoop n (fun i r c => r = i ∧ c < n) f
    (fun i M => forLoop n (fun j M => setEntry M i j (f i j)) M) inner
  refine writes_congr this (fun r c => ⟨?_, ?_⟩)
  · rintro ⟨hr, hc⟩
    exact ⟨r, hr, rfl, hc⟩
  · rintro ⟨k, hk, hr, hc⟩
    exact ⟨by omega, hc⟩

theorem getEntry_of_row_ge {n : Nat} {M : Matrix} (h : IsSquare n M) {r : Nat} (c : Nat)
    (hr : n ≤ r) : getEntry M r c = 0 := by
  unfold getEntry
  have : M.length ≤ r := by rw [h.1]; exact hr
  simp [List.getD_eq_getElem?_getD, List.getElem?_eq_none this]

theorem getEntry_of_col_ge {n : Nat} {M : Matrix} (h : IsSquare n M) (r : Nat) {c : Nat}
    (hc : n ≤ c) : getEntry M r c = 0 := by
  by_cases hr : r < n
  · unfold getEntry
    have : (M.getD r []).length ≤ c := by rw [row_length h hr]; exact hc
    rw [List.getD_eq_getElem?_getD _ c, List.getElem?_eq_none this]
    rfl
  · exact getEntry_of_row_ge h c (by omega)

theorem forLoop_quadrants (n : Nat) (b1 b2 b3 b4 : Nat → Matrix → Matrix) (s : Quadrants) :
    forLoop n (fun k r => (b1 k r.1, b2 k r.2.1, b3 k r.2.2.1, b4 k r.2.2.2)) s
      = (forLoop n b1 s.1, forLoop n b2 s.2.1, forLoop n b3 s.2.2.1, forLoop n b4 s.2.2.2) := by
  induction n with
  | zero => rfl
  | succ m ih => rw [forLoop_succ, ih]; rfl

/-! ## The helper functions, cell by cell -/

theorem isSquare_unpadMatrix (M : Matrix) (n : Nat) : IsSquare n (unpadMatrix M n) :=
  (writes_fill (Nat.le_refl n) (fun i j => getEntry M i j) _ (isSquare_newMatrix n 0)).1

theorem getEntry_unpadMatrix (M : Matrix) {n i j : Nat} (hi : i < n) (hj : j < n) :
    getEntry (unpadMatrix M n) i j = getEntry M i j :=
  ((writes_fill (Nat.le_refl n) (fun i j => getEntry M i j) _
    (isSquare_newMatrix n 0)).2 i j).1 ⟨hi, hj⟩

theorem isSquare_padMatrix {n N : Nat} {M : Matrix} (hM : IsSquare n M) (hn : n ≤ N) :
    IsSquare N (padMatrix M N) := by
  unfold padMatrix
  rw [hM.1]
  by_cases h : n = N
  · simp only [h, if_true]
    exact h ▸ hM
  · simp only [h, if_false]
    exact (writes_fill hn (fun i j => getEntry M i j) _ (isSquare_newMatrix N 0)).1

theorem getEntry_padMatrix {n N : Nat} {M : Matrix} (hM : IsSquare n M) (hn : n ≤ N)
    (r c : Nat) :
    getEntry (padMatrix M N) r c = if r < n ∧ c < n then getEntry M r c else 0 := by
  unfold padMatrix
  rw [hM.1]
  by_cases h : n = N
  · simp only [h, if_true]
    by_cases hrc : r < N ∧ c < N
    · rw [if_pos hrc]
    · rw [if_neg hrc]
      by_cases hr : r < N
      · exact getEntry_of_col_ge (h ▸ hM) r (by omega)
      · exact getEntry_of_row_ge (h ▸ hM) c (by omega)
  · simp only [h, if_false]
    have hw := (writes_fill hn (fun i j => getEntry M i j) _ (isSquare_newMatrix N 0)).2 r c
    by_cases hrc : r < n ∧ c < n
    · rw [if_pos hrc]
      exact hw.1 hrc
    · rw [if_neg hrc, hw.2 hrc, getEntry_newMatrix_zero]

theorem isSquare_matrixAdd (A B : Matrix) : IsSquare A.length (matrixAdd A B) :=
  (writes_fill (Nat.le_refl _) (fun i j => toInt (getEntry A i j + getEntry B i j)) _
    (isSquare_newMatrix _ 0)).1

theorem getEntry_matrixAdd (A B : Matrix) {i j : Nat} (hi : i < A.length)
    (hj : j < A.length) :
    getEntry (matrixAdd A B) i j = toInt (getEntry A i j + getEntry B i j) :=
  ((writes_fill (Nat.le_refl _) (fun i j => toInt (getEntry A i j + getEntry B i j)) _
    (isSquare_newMatrix _ 0)).2 i j).1 ⟨hi, hj⟩

theorem isSquare_matrixSubtract (A B : Matrix) : IsSquare A.length (matrixSubtract A B) :=
  (writes_fill (Nat.le_refl _) (fun i j => toInt (getEntry A i j - getEntry B i j)) _
    (isSquare_newMatrix _ 0)).1

theorem getEntry_matrixSubtract (A B : Matrix) {i j : Nat} (hi : i < A.length)
    (hj : j < A.length) :
    getEntry (matrixSubtract A B) i j = toInt (getEntry A i j - getEntry B i j) :=
  ((writes_fill (Nat.le_refl _) (fun i j => toInt (getEntry A i j - getEntry B i j)) _
    (isSquare_newMatrix _ 0)).2 i j).1 ⟨hi, hj⟩

theorem isSquare_bruteForce (A B : Matrix) : IsSquare A.length (bruteForce A B) :=
  (writes_fill (Nat.le_refl _) (fun i j => toInt (forLoop A.length (fun k sum =>
      toLongLong (sum + toLongLong (getEntry A i k * getEntry B k j))) 0)) _
    (isSquare_newMatrix _ 0)).1

theorem getEntry_bruteForce (A B : Matrix) {i j : Nat} (hi : i < A.length)
    (hj : j < A.length) :
    getEntry (bruteForce A B) i j = toInt (forLoop A.length (fun k sum =>
      toLongLong (sum + toLongLong (getEntry A i k * getEntry B k j))) 0) :=
  ((writes_fill (Nat.le_refl _) (fun i j => toInt (forLoop A.length (fun k sum =>
      toLongLong (sum + toLongLong (getEntry A i k * getEntry B k j))) 0)) _
    (isSquare_newMatrix _ 0)).2 i j).1 ⟨hi, hj⟩

/-- The loop nest of `split` fills the four quadrants independently. -/
theorem split_loops (M : Matrix) (h : Nat) (q : Quadrants) :
    forLoop h (fun i result =>
      forLoop h (fun j result =>
        (setEntry result.1 i j (getEntry M i j),
         setEntry result.2.1 i j (getEntry M i (j + h)),
         setEntry result.2.2.1 i j (getEntry M (i + h) j),
         setEntry result.2.2.2 i j (getEntry M (i + h) (j + h))))
        result) q
    = (forLoop h (fun i m => forLoop h (fun j m => setEntry m i j (getEntry M i j)) m) q.1,
       forLoop h (fun i m => forLoop h (fun j m => setEntry m i j (getEntry M i (j + h))) m)
         q.2.1,
       forLoop h (fun i m => forLoop h (fun j m => setEntry m i j (getEntry M (i + h) j)) m)
         q.2.2.1,
       forLoop h (fun i m =>
         forLoop h (fun j m => setEntry m i j (getEntry M (i + h) (j + h))) m) q.2.2.2) := by
  have inner : (fun (i : Nat) (result : Quadrants) =>
      forLoop h (fun j result =>
        (setEntry result.1 i j (getEntry M i j),
         setEntry result.2.1 i j (getEntry M i (j + h)),
         setEntry result.2.2.1 i j (getEntry M (i + h) j),
         setEntry result.2.2.2 i j (getEntry M (i + h) (j + h))))
        result)
      = (fun i result =>
        (forLoop h (fun j m => setEntry m i j (getEntry M i j)) result.1,
         forLoop h (fun j m => setEntry m i j (getEntry M i (j + h))) result.2.1,
         forLoop h (fun j m => setEntry m i j (getEntry M (i + h) j)) result.2.2.1,
         forLoop h (fun j m => setEntry m i j (getEntry M (i + h) (j + h))) result.2.2.2)) := by
    funext i result
    exact forLoop_quadrants h (fun j m => setEntry m i j (getEntry M i j))
      (fun j m => setEntry m i j (getEntry M i (j + h)))
      (fun j m => setEntry m i j (getEntry M (i + h) j))
      (fun j m => setEntry m i j (getEntry M (i + h) (j + h))) result
  rw [inner]
  exact forLoop_quadrants h
    (fun i m => forLoop h (fun j m => setEntry m i j (getEntry M i j)) m)
    (fun i m => forLoop h (fun j m => setEntry m i j (getEntry M i (j + h))) m)
    (fun i m => forLoop h (fun j m => setEntry m i j (getEntry M (i + h) j)) m)
    (fun i m => forLoop h (fun j m => setEntry m i j (getEntry M (i + h) (j + h))) m) q

theorem split_odd {M : Matrix} (h : M.length % 2 ≠ 0) : split M = none := by
  unfold split
  simp only [h, ne_eq, not_false_eq_true, if_true]

/-- On an even size `split` returns four square quadrants of half the size,
holding the four blocks of the input. -/
theorem split_even {M : Matrix} (hev : M.length % 2 = 0) :
    ∃ A11 A12 A21 A22, split M = some (A11, A12, A21, A22) ∧
      IsSquare (M.length / 2) A11 ∧ IsSquare (M.length / 2) A12 ∧
      IsSquare (M.length / 2) A21 ∧ IsSquare (M.length / 2) A22 ∧
      ∀ i j, i < M.length / 2 → j < M.length / 2 →
        getEntry A11 i j = getEntry M i j ∧
        getEntry A12 i j = getEntry M i (j + M.length / 2) ∧
        getEntry A21 i j = getEntry M (i + M.length / 2) j ∧
        getEntry A22 i j = getEntry M (i + M.length / 2) (j + M.length / 2) := by
  have w1 := writes_fill (Nat.le_refl (M.length / 2)) (fun i j => getEntry M i j) _
    (isSquare_newMatrix (M.length / 2) 0)
  have w2 := writes_fill (Nat.le_refl (M.length / 2))
    (fun i j => getEntry M i (j + M.length / 2)) _ (isSquare_newMatrix (M.length / 2) 0)
  have w3 := writes_fill (Nat.le_refl (M.length / 2))
    (fun i j => getEntry M (i + M.length / 2) j) _ (isSquare_newMatrix (M.length / 2) 0)
  have w4 := writes_fill (Nat.le_refl (M.length / 2))
    (fun i j => getEntry M (i + M.length / 2) (j + M.length / 2)) _
    (isSquare_newMatrix (M.length / 2) 0)
  refine ⟨_, _, _, _, ?_, w1.1, w2.1, w3.1, w4.1, ?_⟩
  · unfold split
    simp only [hev, ne_eq, not_true_eq_false, if_false]
    rw [split_loops]
  · intro i j hi hj
    exact ⟨(w1.2 i j).1 ⟨hi, hj⟩, (w2.2 i j).1 ⟨hi, hj⟩, (w3.2 i j).1 ⟨hi, hj⟩,
      (w4.2 i j).1 ⟨hi, hj⟩⟩

theorem writes_join (C11 C12 C21 C22 : Matrix) :
    Writes (C11.length * 2) (fun r c => r < C11.length * 2 ∧ c < C11.length * 2)
      (joinCell C11.length C11 C12 C21 C22)
      (fun M => forLoop C11.length (fun i matrixC =>
        forLoop C11.length (fun j matrixC =>
          setEntry (setEntry (setEntry (setEntry matrixC i j (getEntry C11 i j))
            i (j + C11.length) (getEntry C12 i j))
            (i + C11.length) j (getEntry C21 i j))
            (i + C11.length) (j + C11.length) (getEntry C22 i j)) matrixC) M) := by
  have cell : ∀ i j, i < C11.length → j < C11.length →
      Writes (C11.length * 2)
        (fun r c => (r = i ∨ r = i + C11.length) ∧ (c = j ∨ c = j + C11.length))
        (joinCell C11.length C11 C12 C21 C22)
        (fun matrixC =>
          setEntry (setEntry (setEntry (setEntry matrixC i j (getEntry C11 i j))
            i (j + C11.length) (getEntry C12 i j))
            (i + C11.length) j (getEntry C21 i j))
            (i + C11.length) (j + C11.length) (getEntry C22 i j)) := by
    intro i j hi hj
    have e1 := writes_setEntry (show i < C11.length * 2 by omega)
      (show j < C11.length * 2 by omega) (joinCell C11.length C11 C12 C21 C22)
      (show getEntry C11 i j = _ by simp [joinCell, hi, hj])
    have e2 := writes_setEntry (show i < C11.length * 2 by omega)
      (show j + C11.length < C11.length * 2 by omega) (joinCell C11.length C11 C12 C21 C22)
      (show getEntry C12 i j = _ by simp [joinCell, hi])
    have e3 := writes_setEntry (show i + C11.length < C11.length * 2 by omega)
      (show j < C11.length * 2 by omega) (joinCell C11.length C11 C12 C21 C22)
      (show getEntry C21 i j = _ by simp [joinCell, hj])
    have e4 := writes_setEntry (show i + C11.length < C11.length * 2 by omega)
      (show j + C11.length < C11.length * 2 by omega) (joinCell C11.length C11 C12 C21 C22)
      (show getEntry C22 i j = _ by simp [joinCell])
    refine writes_congr (writes_comp (writes_comp (writes_comp e1 e2) e3) e4)
      (fun r c => ⟨?_, ?_⟩)
    · rintro ⟨hr | hr, hc | hc⟩
      · exact Or.inl (Or.inl (Or.inl ⟨hr, hc⟩))
      · exact Or.inl (Or.inl (Or.inr ⟨hr, hc⟩))
      · exact Or.inl (Or.inr ⟨hr, hc⟩)
      · exact Or.inr ⟨hr, hc⟩
    · rintro (((⟨hr, hc⟩ | ⟨hr, hc⟩) | ⟨hr, hc⟩) | ⟨hr, hc⟩)
      · exact ⟨Or.inl hr, Or.inl hc⟩
      · exact ⟨Or.inl hr, Or.inr hc⟩
      · exact ⟨Or.inr hr, Or.inl hc⟩
      · exact ⟨Or.inr hr, Or.inr hc⟩
  have inner : ∀ i, i < C11.length →
      Writes (C11.length * 2)
        (fun r c => (r = i ∨ r = i + C11.length) ∧ c < C11.length * 2)
        (joinCell C11.length C11 C12 C21 C22)
        (fun M => forLoop C11.length (fun j matrixC =>
          setEntry (setEntry (setEntry (setEntry matrixC i j (getEntry C11 i j))
            i (j + C11.length) (getEntry C12 i j))
            (i + C11.length) j (getEntry C21 i j))
            (i + C11.length) (j + C11.length) (getEntry C22 i j)) M) := by
    intro i hi
    refine writes_congr (writes_forLoop C11.length _ _ _ (fun j hj => cell i j hi hj))
      (fun r c => ⟨?_, ?_⟩)
    · rintro ⟨hr, hc⟩
      by_cases hc2 : c < C11.length
      · exact ⟨c, hc2, hr, Or.inl rfl⟩
      · exact ⟨c - C11.length, by omega, hr, Or.inr (by omega)⟩
    · rintro ⟨k, hk, hr, hc⟩
      exact ⟨hr, by omega⟩
  refine writes_congr (writes_forLoop C11.length _ _ _ inner) (fun r c => ⟨?_, ?_⟩)
  · rintro ⟨hr, hc⟩
    by_cases hr2 : r < C11.length
    · exact ⟨r, hr2, Or.inl rfl, hc⟩
    · exact ⟨r - C11.length, by omega, Or.inr (by omega), hc⟩
  · rintro ⟨k, hk, hr, hc⟩
    exact ⟨by omega, hc⟩

theorem isSquare_join (C11 C12 C21 C22 : Matrix) :
    IsSquare (C11.length * 2) (join C11 C12 C21 C22) :=
  (writes_join C11 C12 C21 C22 _ (isSquare_newMatrix _ 0)).1

theorem getEntry_join (C11 C12 C21 C22 : Matrix) {r c : Nat} (hr : r < C11.length * 2)
    (hc : c < C11.length * 2) :
    getEntry (join C11 C12 C21 C22) r c = joinCell C11.length C11 C12 C21 C22 r c :=
  ((writes_join C11 C12 C21 C22 _ (isSquare_newMatrix _ 0)).2 r c).1 ⟨hr, hc⟩

/-! ## Unfolding the recursive core -/

theorem strassenMultiplyRecursive_small {A B : Matrix} (h : A.length ≤ 32) :
    strassenMultiplyRecursive A B = some (bruteForce A B) := by
  rw [strassenMultiplyRecursive, dif_pos h]

theorem strassenMultiplyRecursive_step {A B A11 A12 A21 A22 B11 B12 B21 B22 : Matrix}
    (h : 32 < A.length) (hA : split A = some (A11, A12, A21, A22))
    (hB : split B = some (B11, B12, B21, B22)) :
    strassenMultiplyRecursive A B =
      (strassenMultiplyRecursive A11 (matrixSubtract B12 B22)).bind fun P1 =>
      (strassenMultiplyRecursive (matrixAdd A11 A12) B22).bind fun P2 =>
      (strassenMultiplyRecursive (matrixAdd A21 A22) B11).bind fun P3 =>
      (strassenMultiplyRecursive A22 (matrixSubtract B21 B11)).bind fun P4 =>
      (strassenMultiplyRecursive (matrixAdd A11 A22) (matrixAdd B11 B22)).bind fun P5 =>
      (strassenMultiplyRecursive (matrixSubtract A12 A22) (matrixAdd B21 B22)).bind fun P6 =>
      (strassenMultiplyRecursive (matrixSubtract A11 A21) (matrixAdd B11 B12)).bind fun P7 =>
      some (join (matrixAdd (matrixSubtract (matrixAdd P5 P4) P2) P6) (matrixAdd P1 P2)
        (matrixAdd P3 P4) (matrixSubtract (matrixSubtract (matrixAdd P5 P1) P3) P7)) := by
  rw [strassenMultiplyRecursive, dif_neg (by omega)]
  split
  · next h1 => rw [hA] at h1; cases h1
  · next a11 a12 a21 a22 h1 =>
    rw [hA] at h1
    simp only [Option.some.injEq, Prod.mk.injEq] at h1
    obtain ⟨rfl, rfl, rfl, rfl⟩ := h1
    split
    · next h2 => rw [hB] at h2; cases h2
    · next b11 b12 b21 b22 h2 =>
      rw [hB] at h2
      simp only [Option.some.injEq, Prod.mk.injEq] at h2
      obtain ⟨rfl, rfl, rfl, rfl⟩ := h2
      rfl

theorem strassenMultiplyRecursive_odd {A : Matrix} (B : Matrix) (h : 32 < A.length)
    (hodd : A.length % 2 ≠ 0) : strassenMultiplyRecursive A B = none := by
  rw [strassenMultiplyRecursive, dif_neg (by omega)]
  split
  · rfl
  · next a11 a12 a21 a22 h1 => rw [split_odd hodd] at h1; cases h1

/-! ## Machine arithmetic modulo `2^32` -/

theorem toInt_cast (x : Int) : ((toInt x : Int) : ZMod 4294967296) = (x : ZMod 4294967296) := by
  unfold toInt
  have h := ZMod.intCast_mod (x + 2147483648) 4294967296
  push_cast at h ⊢
  rw [h]
  ring

theorem toLongLong_cast (x : Int) :
    ((toLongLong x : Int) : ZMod 4294967296) = (x : ZMod 4294967296) := by
  rw [ZMod.intCast_eq_intCast_iff]
  unfold toLongLong
  show (_ : Int) % _ = _ % _
  push_cast
  omega

theorem toInt_eq_of_cast {x y : Int}
    (h : (x : ZMod 4294967296) = (y : ZMod 4294967296)) : toInt x = toInt y := by
  rw [ZMod.intCast_eq_intCast_iff] at h
  have h2 : x % 4294967296 = y % 4294967296 := by
    have := h
    unfold Int.ModEq at this
    push_cast at this
    exact this
  unfold toInt
  omega

theorem toInt_toInt (x : Int) : toInt (toInt x) = toInt x := by
  unfold toInt
  omega

theorem toInt_of_range {x : Int} (h1 : -2147483648 ≤ x) (h2 : x < 2147483648) :
    toInt x = x := by
  unfold toInt
  omega

theorem toInt_range (x : Int) : -2147483648 ≤ toInt x ∧ toInt x < 2147483648 := by
  unfold toInt
  omega

/-- The `long long` accumulator of a dot product agrees with the exact sum
modulo `2^32`. -/
theorem accumulator_cast (a b : Nat → Int) (n : Nat) :
    ((forLoop n (fun k sum => toLongLong (sum + toLongLong (a k * b k))) 0 : Int) :
        ZMod 4294967296)
      = ∑ k in Finset.range n, (a k : ZMod 4294967296) * (b k : ZMod 4294967296) := by
  induction n with
  | zero => simp [forLoop]
  | succ m ih =>
    rw [forLoop_succ, toLongLong_cast, Int.cast_add, toLongLong_cast, ih,
      Finset.sum_range_succ, Int.cast_mul]

theorem exactEntry_cast (n : Nat) (A B : Matrix) (i j : Nat) :
    ((exactEntry n A B i j : Int) : ZMod 4294967296)
      = ∑ k in Finset.range n, modEntry A i k * modEntry B k j := by
  unfold exactEntry modEntry
  push_cast
  rfl

/-- An entry of `bruteForce` is the exact dot product narrowed to `int`. -/
theorem getEntry_bruteForce_exact (A B : Matrix) {i j : Nat} (hi : i < A.length)
    (hj : j < A.length) :
    getEntry (bruteForce A B) i j = toInt (exactEntry A.length A B i j) := by
  rw [getEntry_bruteForce A B hi hj]
  apply toInt_eq_of_cast
  rw [accumulator_cast (fun k => getEntry A i k) (fun k => getEntry B k j), exactEntry_cast]
  rfl

theorem modEntry_bruteForce (A B : Matrix) {i j : Nat} (hi : i < A.length)
    (hj : j < A.length) :
    modEntry (bruteForce A B) i j
      = ∑ k in Finset.range A.length, modEntry A i k * modEntry B k j := by
  unfold modEntry
  rw [getEntry_bruteForce_exact A B hi hj, toInt_cast, exactEntry_cast]
  rfl

theorem modEntry_matrixAdd (A B : Matrix) {i j : Nat} (hi : i < A.length)
    (hj : j < A.length) :
    modEntry (matrixAdd A B) i j = modEntry A i j + modEntry B i j := by
  unfold modEntry
  rw [getEntry_matrixAdd A B hi hj, toInt_cast, Int.cast_add]

theorem modEntry_matrixSubtract (A B : Matrix) {i j : Nat} (hi : i < A.length)
    (hj : j < A.length) :
    modEntry (matrixSubtract A B) i j = modEntry A i j - modEntry B i j := by
  unfold modEntry
  rw [getEntry_matrixSubtract A B hi hj, toInt_cast, Int.cast_sub]

/-- Entries in the `int` range are determined by their residues modulo `2^32`. -/
theorem eq_of_modEntry {n : Nat} {M N : Matrix} (hM : IsSquare n M) (hN : IsSquare n N)
    (rM : ∀ i j, i < n → j < n → toInt (getEntry M i j) = getEntry M i j)
    (rN : ∀ i j, i < n → j < n → toInt (getEntry N i j) = getEntry N i j)
    (h : ∀ i j, i < n → j < n → modEntry M i j = modEntry N i j) : M = N := by
  apply matrix_ext hM hN
  intro i j hi hj
  rw [← rM i j hi hj, ← rN i j hi hj]
  exact toInt_eq_of_cast (h i j hi hj)

theorem narrow_matrixAdd (A B : Matrix) {i j : Nat} (hi : i < A.length)
    (hj : j < A.length) :
    toInt (getEntry (matrixAdd A B) i j) = getEntry (matrixAdd A B) i j := by
  rw [getEntry_matrixAdd A B hi hj, toInt_toInt]

theorem narrow_matrixSubtract (A B : Matrix) {i j : Nat} (hi : i < A.length)
    (hj : j < A.length) :
    toInt (getEntry (matrixSubtract A B) i j) = getEntry (matrixSubtract A B) i j := by
  rw [getEntry_matrixSubtract A B hi hj, toInt_toInt]

theorem narrow_bruteForce (A B : Matrix) {i j : Nat} (hi : i < A.length)
    (hj : j < A.length) :
    toInt (getEntry (bruteForce A B) i j) = getEntry (bruteForce A B) i j := by
  rw [getEntry_bruteForce A B hi hj, toInt_toInt]

theorem bruteForce_length (A B : Matrix) : (bruteForce A B).length = A.length :=
  (isSquare_bruteForce A B).1

theorem modEntry_bruteForce_of {h : Nat} {X Y : Matrix} (hX : X.length = h)
    (x y : Nat → Nat → ZMod 4294967296)
    (hx : ∀ r k, r < h → k < h → modEntry X r k = x r k)
    (hy : ∀ k c, k < h → c < h → modEntry Y k c = y k c)
    {r c : Nat} (hr : r < h) (hc : c < h) :
    modEntry (bruteForce X Y) r c = ∑ k in Finset.range h, x r k * y k c := by
  rw [modEntry_bruteForce X Y (by rw [hX]; exact hr) (by rw [hX]; exact hc), hX]
  apply Finset.sum_congr rfl
  intro k hk
  rw [Finset.mem_range] at hk
  rw [hx r k hr hk, hy k c hk hc]

theorem modEntry_add_of {h : Nat} {X Y : Matrix} (hX : X.length = h)
    (x y : Nat → Nat → ZMod 4294967296)
    (hx : ∀ r k, r < h → k < h → modEntry X r k = x r k)
    (hy : ∀ r k, r < h → k < h → modEntry Y r k = y r k)
    (r k : Nat) (hr : r < h) (hk : k < h) :
    modEntry (matrixAdd X Y) r k = x r k + y r k := by
  rw [modEntry_matrixAdd X Y (by rw [hX]; exact hr) (by rw [hX]; exact hk), hx r k hr hk,
    hy r k hr hk]

theorem modEntry_sub_of {h : Nat} {X Y : Matrix} (hX : X.length = h)
    (x y : Nat → Nat → ZMod 4294967296)
    (hx : ∀ r k, r < h → k < h → modEntry X r k = x r k)
    (hy : ∀ r k, r < h → k < h → modEntry Y r k = y r k)
    (r k : Nat) (hr : r < h) (hk : k < h) :
    modEntry (matrixSubtract X Y) r k = x r k - y r k := by
  rw [modEntry_matrixSubtract X Y (by rw [hX]; exact hr) (by rw [hX]; exact hk),
    hx r k hr hk, hy r k hr hk]

/-- The seven products of Strassen's scheme recombine to the four blocks of the
product (an identity of sums over a commutative ring). -/
theorem strassen_identity (h : Nat)
    (a11 a12 a21 a22 b11 b12 b21 b22 : Nat → ZMod 4294967296) :
    (∑ k in Finset.range h, (a11 k + a22 k) * (b11 k + b22 k)
        + ∑ k in Finset.range h, a22 k * (b21 k - b11 k)
        - ∑ k in Finset.range h, (a11 k + a12 k) * b22 k
        + ∑ k in Finset.range h, (a12 k - a22 k) * (b21 k + b22 k)
      = ∑ k in Finset.range h, a11 k * b11 k + ∑ k in Finset.range h, a12 k * b21 k) ∧
    (∑ k in Finset.range h, a11 k * (b12 k - b22 k)
        + ∑ k in Finset.range h, (a11 k + a12 k) * b22 k
      = ∑ k in Finset.range h, a11 k * b12 k + ∑ k in Finset.range h, a12 k * b22 k) ∧
    (∑ k in Finset.range h, (a21 k + a22 k) * b11 k
        + ∑ k in Finset.range h, a22 k * (b21 k - b11 k)
      = ∑ k in Finset.range h, a21 k * b11 k + ∑ k in Finset.range h, a22 k * b21 k) ∧
    (∑ k in Finset.range h, (a11 k + a22 k) * (b11 k + b22 k)
        + ∑ k in Finset.range h, a11 k * (b12 k - b22 k)
        - ∑ k in Finset.range h, (a21 k + a22 k) * b11 k
        - ∑ k in Finset.range h, (a11 k - a21 k) * (b11 k + b12 k)
      = ∑ k in Finset.range h, a21 k * b12 k + ∑ k in Finset.range h, a22 k * b22 k) := by
  refine ⟨?_, ?_, ?_, ?_⟩
  all_goals simp only [← Finset.sum_add_distrib, ← Finset.sum_sub_distrib]
  all_goals apply Finset.sum_congr rfl
  all_goals intro k _
  all_goals ring

theorem sum_range_double (f : Nat → ZMod 4294967296) (h : Nat) :
    ∑ k in Finset.range (h * 2), f k
      = ∑ k in Finset.range h, f k + ∑ k in Finset.range h, f (k + h) := by
  rw [show h * 2 = h + h by omega, Finset.sum_range_add]
  congr 1
  apply Finset.sum_congr rfl
  intro k _
  rw [Nat.add_comm]

set_option maxHeartbeats 400000 in
/-- One level of Strassen's scheme: if the seven half-size products are the
brute-force products, the joined result is the brute-force product. -/
theorem strassen_join {h : Nat} {A B A11 A12 A21 A22 B11 B12 B21 B22 : Matrix}
    {P1 P2 P3 P4 P5 P6 P7 : Matrix}
    (hA : A.length = h * 2)
    (l11 : A11.length = h) (l12 : A12.length = h) (l21 : A21.length = h)
    (l22 : A22.length = h) (m11 : B11.length = h) (m12 : B12.length = h)
    (m21 : B21.length = h)
    (eA : ∀ i j, i < h → j < h →
      getEntry A11 i j = getEntry A i j ∧ getEntry A12 i j = getEntry A i (j + h) ∧
      getEntry A21 i j = getEntry A (i + h) j ∧ getEntry A22 i j = getEntry A (i + h) (j + h))
    (eB : ∀ i j, i < h → j < h →
      getEntry B11 i j = getEntry B i j ∧ getEntry B12 i j = getEntry B i (j + h) ∧
      getEntry B21 i j = getEntry B (i + h) j ∧ getEntry B22 i j = getEntry B (i + h) (j + h))
    (hP1 : P1 = bruteForce A11 (matrixSubtract B12 B22))
    (hP2 : P2 = bruteForce (matrixAdd A11 A12) B22)
    (hP3 : P3 = bruteForce (matrixAdd A21 A22) B11)
    (hP4 : P4 = bruteForce A22 (matrixSubtract B21 B11))
    (hP5 : P5 = bruteForce (matrixAdd A11 A22) (matrixAdd B11 B22))
    (hP6 : P6 = bruteForce (matrixSubtract A12 A22) (matrixAdd B21 B22))
    (hP7 : P7 = bruteForce (matrixSubtract A11 A21) (matrixAdd B11 B12)) :
    join (matrixAdd (matrixSubtract (matrixAdd P5 P4) P2) P6) (matrixAdd P1 P2)
        (matrixAdd P3 P4) (matrixSubtract (matrixSubtract (matrixAdd P5 P1) P3) P7)
      = bruteForce A B := by
  -- residues of the quadrants
  have a11 : ∀ r k, r < h → k < h → modEntry A11 r k = modEntry A r k := fun r k hr hk => by
    unfold modEntry; rw [(eA r k hr hk).1]
  have a12 : ∀ r k, r < h → k < h → modEntry A12 r k = modEntry A r (k + h) :=
    fun r k hr hk => by unfold modEntry; rw [(eA r k hr hk).2.1]
  have a21 : ∀ r k, r < h → k < h → modEntry A21 r k = modEntry A (r + h) k :=
    fun r k hr hk => by unfold modEntry; rw [(eA r k hr hk).2.2.1]
  have a22 : ∀ r k, r < h → k < h → modEntry A22 r k = modEntry A (r + h) (k + h) :=
    fun r k hr hk => by unfold modEntry; rw [(eA r k hr hk).2.2.2]
  have b11 : ∀ r k, r < h → k < h → modEntry B11 r k = modEntry B r k := fun r k hr hk => by
    unfold modEntry; rw [(eB r k hr hk).1]
  have b12 : ∀ r k, r < h → k < h → modEntry B12 r k = modEntry B r (k + h) :=
    fun r k hr hk => by unfold modEntry; rw [(eB r k hr hk).2.1]
  have b21 : ∀ r k, r < h → k < h → modEntry B21 r k = modEntry B (r + h) k :=
    fun r k hr hk => by unfold modEntry; rw [(eB r k hr hk).2.2.1]
  have b22 : ∀ r k, r < h → k < h → modEntry B22 r k = modEntry B (r + h) (k + h) :=
    fun r k hr hk => by unfold modEntry; rw [(eB r k hr hk).2.2.2]
  -- residues of the seven products
  have p1 : ∀ r c, r < h → c < h → modEntry P1 r c = ∑ k in Finset.range h,
      modEntry A r k * (modEntry B k (c + h) - modEntry B (k + h) (c + h)) :=
    fun r c hr hc => by
      rw [hP1]
      exact modEntry_bruteForce_of l11 _ _ a11 (modEntry_sub_of m12 _ _ b12 b22) hr hc
  have p2 : ∀ r c, r < h → c < h → modEntry P2 r c = ∑ k in Finset.range h,
      (modEntry A r k + modEntry A r (k + h)) * modEntry B (k + h) (c + h) :=
    fun r c hr hc => by
      rw [hP2]
      exact modEntry_bruteForce_of (by rw [matrixAdd_length, l11]) _ _
        (modEntry_add_of l11 _ _ a11 a12) b22 hr hc
  have p3 : ∀ r c, r < h → c < h → modEntry P3 r c = ∑ k in Finset.range h,
      (modEntry A (r + h) k + modEntry A (r + h) (k + h)) * modEntry B k c :=
    fun r c hr hc => by
      rw [hP3]
      exact modEntry_bruteForce_of (by rw [matrixAdd_length, l21]) _ _
        (modEntry_add_of l21 _ _ a21 a22) b11 hr hc
  have p4 : ∀ r c, r < h → c < h → modEntry P4 r c = ∑ k in Finset.range h,
      modEntry A (r + h) (k + h) * (modEntry B (k + h) c - modEntry B k c) :=
    fun r c hr hc => by
      rw [hP4]
      exact modEntry_bruteForce_of l22 _ _ a22 (modEntry_sub_of m21 _ _ b21 b11) hr hc
  have p5 : ∀ r c, r < h → c < h → modEntry P5 r c = ∑ k in Finset.range h,
      (modEntry A r k + modEntry A (r + h) (k + h))
        * (modEntry B k c + modEntry B (k + h) (c + h)) :=
    fun r c hr hc => by
      rw [hP5]
      exact modEntry_bruteForce_of (by rw [matrixAdd_length, l11]) _ _
        (modEntry_add_of l11 _ _ a11 a22) (modEntry_add_of m11 _ _ b11 b22) hr hc
  have p6 : ∀ r c, r < h → c < h → modEntry P6 r c = ∑ k in Finset.range h,
      (modEntry A r (k + h) - modEntry A (r + h) (k + h))
        * (modEntry B (k + h) c + modEntry B (k + h) (c + h)) :=
    fun r c hr hc => by
      rw [hP6]
      exact modEntry_bruteForce_of (by rw [matrixSubtract_length, l12]) _ _
        (modEntry_sub_of l12 _ _ a12 a22) (modEntry_add_of m21 _ _ b21 b22) hr hc
  have p7 : ∀ r c, r < h → c < h → modEntry P7 r c = ∑ k in Finset.range h,
      (modEntry A r k - modEntry A (r + h) k) * (modEntry B k c + modEntry B k (c + h)) :=
    fun r c hr hc => by
      rw [hP7]
      exact modEntry_bruteForce_of (by rw [matrixSubtract_length, l11]) _ _
        (modEntry_sub_of l11 _ _ a11 a21) (modEntry_add_of m11 _ _ b11 b12) hr hc
  -- sizes of the products
  have n1 : P1.length = h := by rw [hP1, bruteForce_length, l11]
  have n3 : P3.length = h := by rw [hP3, bruteForce_length, matrixAdd_length, l21]
  have n5 : P5.length = h := by rw [hP5, bruteForce_length, matrixAdd_length, l11]
  have c11 : (matrixAdd (matrixSubtract (matrixAdd P5 P4) P2) P6).length = h := by
    rw [matrixAdd_length, matrixSubtract_length, matrixAdd_length, n5]
  have c22 : (matrixSubtract (matrixSubtract (matrixAdd P5 P1) P3) P7).length = h := by
    rw [matrixSubtract_length, matrixSubtract_length, matrixAdd_length, n5]
  have s5 : (matrixSubtract (matrixAdd P5 P4) P2).length = h := by
    rw [matrixSubtract_length, matrixAdd_length, n5]
  have t5 : (matrixSubtract (matrixAdd P5 P1) P3).length = h := by
    rw [matrixSubtract_length, matrixAdd_length, n5]
  have u5 : (matrixAdd P5 P4).length = h := by rw [matrixAdd_length, n5]
  have v5 : (matrixAdd P5 P1).length = h := by rw [matrixAdd_length, n5]
  have sqJ := isSquare_join (matrixAdd (matrixSubtract (matrixAdd P5 P4) P2) P6)
    (matrixAdd P1 P2) (matrixAdd P3 P4)
    (matrixSubtract (matrixSubtract (matrixAdd P5 P1) P3) P7)
  rw [c11] at sqJ
  have sqB := isSquare_bruteForce A B
  rw [hA] at sqB
  have cellJ : ∀ r c, r < h * 2 → c < h * 2 →
      getEntry (join (matrixAdd (matrixSubtract (matrixAdd P5 P4) P2) P6) (matrixAdd P1 P2)
        (matrixAdd P3 P4) (matrixSubtract (matrixSubtract (matrixAdd P5 P1) P3) P7)) r c
      = joinCell h (matrixAdd (matrixSubtract (matrixAdd P5 P4) P2) P6) (matrixAdd P1 P2)
        (matrixAdd P3 P4) (matrixSubtract (matrixSubtract (matrixAdd P5 P1) P3) P7) r c := by
    intro r c hr hc
    have := getEntry_join (matrixAdd (matrixSubtract (matrixAdd P5 P4) P2) P6)
      (matrixAdd P1 P2) (matrixAdd P3 P4)
      (matrixSubtract (matrixSubtract (matrixAdd P5 P1) P3) P7)
      (r := r) (c := c) (by rw [c11]; exact hr) (by rw [c11]; exact hc)
    rw [c11] at this
    exact this
  apply eq_of_modEntry sqJ sqB
  · intro r c hr hc
    rw [cellJ r c hr hc]
    unfold joinCell
    by_cases hr2 : r < h
    · by_cases hc2 : c < h
      · rw [if_pos hr2, if_pos hc2]
        exact narrow_matrixAdd _ _ (by rw [s5]; exact hr2) (by rw [s5]; exact hc2)
      · rw [if_pos hr2, if_neg hc2]
        exact narrow_matrixAdd _ _ (by rw [n1]; exact hr2) (by rw [n1]; clear * - hc hc2; omega)
    · by_cases hc2 : c < h
      · rw [if_neg hr2, if_pos hc2]
        exact narrow_matrixAdd _ _ (by rw [n3]; clear * - hr hr2; omega) (by rw [n3]; exact hc2)
      · rw [if_neg hr2, if_neg hc2]
        exact narrow_matrixSubtract _ _ (by rw [t5]; clear * - hr hr2; omega)
          (by rw [t5]; clear * - hc hc2; omega)
  · intro r c hr hc
    exact narrow_bruteForce A B (by rw [hA]; exact hr) (by rw [hA]; exact hc)
  · intro r c hr hc
    rw [modEntry_bruteForce A B (by rw [hA]; exact hr) (by rw [hA]; exact hc), hA,
      sum_range_double]
    have hcell : modEntry (join (matrixAdd (matrixSubtract (matrixAdd P5 P4) P2) P6)
          (matrixAdd P1 P2) (matrixAdd P3 P4)
          (matrixSubtract (matrixSubtract (matrixAdd P5 P1) P3) P7)) r c
        = ((joinCell h (matrixAdd (matrixSubtract (matrixAdd P5 P4) P2) P6) (matrixAdd P1 P2)
          (matrixAdd P3 P4) (matrixSubtract (matrixSubtract (matrixAdd P5 P1) P3) P7) r c :
            Int) : ZMod 4294967296) := by
      unfold modEntry
      rw [cellJ r c hr hc]
    rw [hcell]
    unfold joinCell
    by_cases hr2 : r < h
    · by_cases hc2 : c < h
      · rw [if_pos hr2, if_pos hc2]
        show modEntry (matrixAdd (matrixSubtract (matrixAdd P5 P4) P2) P6) r c = _
        rw [modEntry_matrixAdd _ _ (by rw [s5]; exact hr2) (by rw [s5]; exact hc2),
          modEntry_matrixSubtract _ _ (by rw [u5]; exact hr2) (by rw [u5]; exact hc2),
          modEntry_matrixAdd _ _ (by rw [n5]; exact hr2) (by rw [n5]; exact hc2),
          p5 r c hr2 hc2, p4 r c hr2 hc2, p2 r c hr2 hc2, p6 r c hr2 hc2]
        exact (strassen_identity h (fun k => modEntry A r k) (fun k => modEntry A r (k + h))
          (fun k => modEntry A (r + h) k) (fun k => modEntry A (r + h) (k + h))
          (fun k => modEntry B k c) (fun k => modEntry B k (c + h))
          (fun k => modEntry B (k + h) c) (fun k => modEntry B (k + h) (c + h))).1
      · obtain ⟨d, rfl⟩ : ∃ d, c = d + h := ⟨c - h, by clear * - hc2; omega⟩
        have hd : d < h := by clear * - hc; omega
        rw [if_pos hr2, if_neg hc2, Nat.add_sub_cancel]
        show modEntry (matrixAdd P1 P2) r d = _
        rw [modEntry_matrixAdd _ _ (by rw [n1]; exact hr2) (by rw [n1]; exact hd),
          p1 r d hr2 hd, p2 r d hr2 hd]
        exact (strassen_identity h (fun k => modEntry A r k) (fun k => modEntry A r (k + h))
          (fun k => modEntry A (r + h) k) (fun k => modEntry A (r + h) (k + h))
          (fun k => modEntry B k d) (fun k => modEntry B k (d + h))
          (fun k => modEntry B (k + h) d) (fun k => modEntry B (k + h) (d + h))).2.1
    · obtain ⟨q, rfl⟩ : ∃ q, r = q + h := ⟨r - h, by clear * - hr2; omega⟩
      have hq : q < h := by clear * - hr; omega
      by_cases hc2 : c < h
      · rw [if_neg hr2, if_pos hc2, Nat.add_sub_cancel]
        show modEntry (matrixAdd P3 P4) q c = _
        rw [modEntry_matrixAdd _ _ (by rw [n3]; exact hq) (by rw [n3]; exact hc2),
          p3 q c hq hc2, p4 q c hq hc2]
        exact (strassen_identity h (fun k => modEntry A q k) (fun k => modEntry A q (k + h))
          (fun k => modEntry A (q + h) k) (fun k => modEntry A (q + h) (k + h))
          (fun k => modEntry B k c) (fun k => modEntry B k (c + h))
          (fun k => modEntry B (k + h) c) (fun k => modEntry B (k + h) (c + h))).2.2.1
      · obtain ⟨d, rfl⟩ : ∃ d, c = d + h := ⟨c - h, by clear * - hc2; omega⟩
        have hd : d < h := by clear * - hc; omega
        rw [if_neg hr2, if_neg hc2, Nat.add_sub_cancel, Nat.add_sub_cancel]
        show modEntry (matrixSubtract (matrixSubtract (matrixAdd P5 P1) P3) P7) q d = _
        rw [modEntry_matrixSubtract _ _ (by rw [t5]; exact hq) (by rw [t5]; exact hd),
          modEntry_matrixSubtract _ _ (by rw [v5]; exact hq) (by rw [v5]; exact hd),
          modEntry_matrixAdd _ _ (by rw [n5]; exact hq) (by rw [n5]; exact hd),
          p5 q d hq hd, p1 q d hq hd, p3 q d hq hd, p7 q d hq hd]
        exact (strassen_identity h (fun k => modEntry A q k) (fun k => modEntry A q (k + h))
          (fun k => modEntry A (q + h) k) (fun k => modEntry A (q + h) (k + h))
          (fun k => modEntry B k d) (fun k => modEntry B k (d + h))
          (fun k => modEntry B (k + h) d) (fun k => modEntry B (k + h) (d + h))).2.2.2

/-! ## Correctness of the recursive core -/

/-- On every size that halves evenly the recursive core returns the
brute-force product. -/
theorem strassenMultiplyRecursive_eq {n : Nat} (hn : HalvesEvenly n) :
    ∀ A B : Matrix, IsSquare n A → IsSquare n B →
      strassenMultiplyRecursive A B = some (bruteForce A B) := by
  induction hn with
  | small hle =>
    intro A B hA _
    exact strassenMultiplyRecursive_small (by rw [hA.1]; exact hle)
  | @half n hlt hev _ ih =>
    intro A B hA hB
    have evA : A.length % 2 = 0 := by rw [hA.1]; exact hev
    have evB : B.length % 2 = 0 := by rw [hB.1]; exact hev
    obtain ⟨A11, A12, A21, A22, sA, qA11, qA12, qA21, qA22, eA⟩ := split_even evA
    obtain ⟨B11, B12, B21, B22, sB, qB11, qB12, qB21, qB22, eB⟩ := split_even evB
    rw [hA.1] at qA11 qA12 qA21 qA22 eA
    rw [hB.1] at qB11 qB12 qB21 qB22 eB
    have sq : ∀ {X : Matrix} (Y : Matrix), IsSquare (n / 2) X →
        IsSquare (n / 2) (matrixAdd X Y) := fun {X} Y hX => by
      have := isSquare_matrixAdd X Y
      rw [hX.1] at this
      exact this
    have sq2 : ∀ {X : Matrix} (Y : Matrix), IsSquare (n / 2) X →
        IsSquare (n / 2) (matrixSubtract X Y) := fun {X} Y hX => by
      have := isSquare_matrixSubtract X Y
      rw [hX.1] at this
      exact this
    rw [strassenMultiplyRecursive_step (by rw [hA.1]; exact hlt) sA sB,
      ih _ _ qA11 (sq2 _ qB12), ih _ _ (sq _ qA11) qB22, ih _ _ (sq _ qA21) qB11,
      ih _ _ qA22 (sq2 _ qB21), ih _ _ (sq _ qA11) (sq _ qB11),
      ih _ _ (sq2 _ qA12) (sq _ qB21), ih _ _ (sq2 _ qA11) (sq _ qB11)]
    simp only [Option.some_bind]
    congr 1
    exact strassen_join (h := n / 2) (by rw [hA.1]; clear * - hev; omega)
      qA11.1 qA12.1 qA21.1 qA22.1 qB11.1 qB12.1 qB21.1 eA eB rfl rfl rfl rfl rfl rfl rfl

theorem halvesEvenly_two_pow (k : Nat) : HalvesEvenly (2 ^ k) := by
  induction k with
  | zero => exact HalvesEvenly.small (by norm_num)
  | succ m ih =>
    by_cases h : 2 ^ (m + 1) ≤ 32
    · exact HalvesEvenly.small h
    · have e : 2 ^ (m + 1) / 2 = 2 ^ m := by rw [pow_succ]; omega
      exact HalvesEvenly.half (by omega) (by rw [pow_succ]; omega) (e ▸ ih)

/-! ## `nextPowerOf2` -/

theorem pow2_of_land (n : Nat) : 0 < n → n &&& (n - 1) = 0 → ∃ k, n = 2 ^ k := by
  induction n using Nat.strong_induction_on with
  | _ n ih =>
    intro hpos hland
    have hdiv := congrArg (fun x => x / 2) hland
    simp only [Nat.and_div_two, Nat.zero_div] at hdiv
    by_cases hodd : n % 2 = 1
    · have e : (n - 1) / 2 = n / 2 := by omega
      rw [e, Nat.and_self] at hdiv
      exact ⟨0, by omega⟩
    · have e : (n - 1) / 2 = n / 2 - 1 := by omega
      rw [e] at hdiv
      obtain ⟨k, hk⟩ := ih (n / 2) (by omega) (by omega) hdiv
      exact ⟨k + 1, by rw [pow_succ, ← hk]; omega⟩

/-- The doubling loop started at a power of two stops at a power of two that
is at least `n`. -/
theorem nextPowerOf2Loop_spec (n : Int) :
    ∀ (m p : Nat) (hp : 0 < p), (n - p).toNat = m → (∃ k, p = 2 ^ k) →
      n ≤ (nextPowerOf2Loop p n hp : Nat) ∧ ∃ k, nextPowerOf2Loop p n hp = 2 ^ k := by
  intro m
  induction m using Nat.strong_induction_on with
  | _ m ih =>
    intro p hp hm hk
    rw [nextPowerOf2Loop]
    by_cases hlt : (p : Int) < n
    · rw [dif_pos hlt]
      obtain ⟨k, rfl⟩ := hk
      exact ih _ (by omega) (2 ^ k * 2) (by omega) rfl ⟨k + 1, by rw [pow_succ]⟩
    · rw [dif_neg hlt]
      exact ⟨by omega, hk⟩

/-- On a size `n`, `nextPowerOf2` returns a power of two that is at least `n`. -/
theorem nextPowerOf2_nat (n : Nat) :
    n ≤ (nextPowerOf2 n).toNat ∧ ∃ k, (nextPowerOf2 n).toNat = 2 ^ k := by
  unfold nextPowerOf2
  by_cases h0 : (n : Int) ≤ 0
  · rw [if_pos h0]
    exact ⟨by simp; omega, 0, by simp⟩
  · rw [if_neg h0]
    by_cases hl : Int.land (n : Int) ((n : Int) - 1) = 0
    · rw [if_pos hl]
      refine ⟨by simp, ?_⟩
      have e : ((n : Int) - 1) = ((n - 1 : Nat) : Int) := by omega
      rw [e] at hl
      have hl2 : ((n &&& (n - 1) : Nat) : Int) = 0 := hl
      obtain ⟨k, hk⟩ := pow2_of_land n (by omega) (by exact_mod_cast hl2)
      exact ⟨k, by simpa using hk⟩
    · rw [if_neg hl]
      have := nextPowerOf2Loop_spec n _ 1 (by decide) rfl ⟨0, rfl⟩
      simp only [Int.toNat_ofNat]
      exact ⟨by exact_mod_cast this.1, this.2⟩

/-! ## Padding and the driver -/

/-- Zero padding does not change the dot products of the original block. -/
theorem exactEntry_padMatrix {n t : Nat} {A B : Matrix} (hA : IsSquare n A)
    (hB : IsSquare n B) (hnt : n ≤ t) {i j : Nat} (hi : i < n) (hj : j < n) :
    exactEntry t (padMatrix A t) (padMatrix B t) i j = exactEntry n A B i j := by
  unfold exactEntry
  obtain ⟨d, rfl⟩ : ∃ d, t = n + d := ⟨t - n, by omega⟩
  rw [Finset.sum_range_add]
  have h1 : ∑ k in Finset.range n,
      getEntry (padMatrix A (n + d)) i k * getEntry (padMatrix B (n + d)) k j
      = ∑ k in Finset.range n, getEntry A i k * getEntry B k j := by
    apply Finset.sum_congr rfl
    intro k hk
    rw [Finset.mem_range] at hk
    rw [getEntry_padMatrix hA hnt, getEntry_padMatrix hB hnt, if_pos ⟨hi, hk⟩,
      if_pos ⟨hk, hj⟩]
  have h2 : ∑ k in Finset.range d,
      getEntry (padMatrix A (n + d)) i (n + k) * getEntry (padMatrix B (n + d)) (n + k) j
      = 0 := by
    apply Finset.sum_eq_zero
    intro k _
    rw [getEntry_padMatrix hA hnt, if_neg (by omega), zero_mul]
  rw [h1, h2, add_zero]

/-- Multiplying the padded operands by brute force and unpadding gives the
brute-force product of the operands. -/
theorem unpad_bruteForce_pad {n t : Nat} {A B : Matrix} (hA : IsSquare n A)
    (hB : IsSquare n B) (hnt : n ≤ t) :
    unpadMatrix (bruteForce (padMatrix A t) (padMatrix B t)) n = bruteForce A B := by
  have lp : (padMatrix A t).length = t := (isSquare_padMatrix hA hnt).1
  have sq := isSquare_bruteForce A B
  rw [hA.1] at sq
  apply matrix_ext (isSquare_unpadMatrix _ n) sq
  intro i j hi hj
  rw [getEntry_unpadMatrix _ hi hj,
    getEntry_bruteForce_exact _ _ (by rw [lp]; omega) (by rw [lp]; omega),
    getEntry_bruteForce_exact _ _ (by rw [hA.1]; exact hi) (by rw [hA.1]; exact hj),
    lp, hA.1, exactEntry_padMatrix hA hB hnt hi hj]

/-- The driver returns the brute-force product (shared by the statements on
`strassenMultiply` below). -/
theorem strassenMultiply_bruteForce {n : Nat} {A B : Matrix} (hA : IsSquare n A)
    (hB : IsSquare n B) : strassenMultiply A B = some (bruteForce A B) := by
  obtain ⟨hge, k, hk⟩ := nextPowerOf2_nat n
  unfold strassenMultiply
  simp only [hA.1]
  have hrec := strassenMultiplyRecursive_eq (hk ▸ halvesEvenly_two_pow k)
    (padMatrix A (nextPowerOf2 n).toNat) (padMatrix B (nextPowerOf2 n).toNat)
    (isSquare_padMatrix hA hge) (isSquare_padMatrix hB hge)
  rw [hrec]
  simp only [Option.bind_eq_bind, Option.some_bind, pure]
  rw [unpad_bruteForce_pad hA hB hge]

/-! ## Identity and zero matrices -/

theorem isSquare_identityMatrix (n : Nat) : IsSquare n (identityMatrix n) := by
  refine ⟨by simp [identityMatrix], ?_⟩
  intro row hrow
  simp only [identityMatrix, List.mem_map] at hrow
  obtain ⟨i, _, rfl⟩ := hrow
  simp

theorem getEntry_identityMatrix {n i j : Nat} (hi : i < n) (hj : j < n) :
    getEntry (identityMatrix n) i j = if i = j then 1 else 0 := by
  unfold getEntry identityMatrix
  simp [List.getD_eq_getElem?_getD, hi, hj]

theorem isSquare_zeroMatrix (n : Nat) : IsSquare n (zeroMatrix n) := isSquare_newMatrix n 0

theorem getEntry_zeroMatrix (n i j : Nat) : getEntry (zeroMatrix n) i j = 0 :=
  getEntry_newMatrix_zero n i j

theorem getEntry_mem {n : Nat} {M : Matrix} (hM : IsSquare n M) {i j : Nat} (hi : i < n)
    (hj : j < n) : ∃ row ∈ M, getEntry M i j ∈ row := by
  have hi2 : i < M.length := by rw [hM.1]; exact hi
  have hrow : (M[i]).length = n := hM.2 _ (List.getElem_mem _)
  have hj2 : j < (M[i]).length := by rw [hrow]; exact hj
  refine ⟨M[i], List.getElem_mem _, ?_⟩
  have : getEntry M i j = (M[i])[j] := by
    unfold getEntry
    rw [getD_row M hi2]
    simp [List.getD_eq_getElem?_getD, hj2]
  rw [this]
  exact List.getElem_mem _

theorem toInt_getEntry {n : Nat} {M : Matrix} (hM : IsSquare n M) (hI : IntEntries M)
    {i j : Nat} (hi : i < n) (hj : j < n) : toInt (getEntry M i j) = getEntry M i j := by
  obtain ⟨row, hrow, hx⟩ := getEntry_mem hM hi hj
  exact hI row hrow _ hx

theorem bruteForce_identity_right {n : Nat} {A : Matrix} (hA : IsSquare n A)
    (hI : IntEntries A) : bruteForce A (identityMatrix n) = A := by
  have sq := isSquare_bruteForce A (identityMatrix n)
  rw [hA.1] at sq
  apply matrix_ext sq hA
  intro i j hi hj
  rw [getEntry_bruteForce_exact _ _ (by rw [hA.1]; exact hi) (by rw [hA.1]; exact hj), hA.1]
  have : exactEntry n A (identityMatrix n) i j = getEntry A i j := by
    unfold exactEntry
    rw [Finset.sum_eq_single j]
    · rw [getEntry_identityMatrix hj hj, if_pos rfl, mul_one]
    · intro k hk hkj
      rw [Finset.mem_range] at hk
      rw [getEntry_identityMatrix hk hj, if_neg hkj, mul_zero]
    · intro hnot
      exact absurd (Finset.mem_range.2 hj) hnot
  rw [this, toInt_getEntry hA hI hi hj]

theorem bruteForce_identity_left {n : Nat} {A : Matrix} (hA : IsSquare n A)
    (hI : IntEntries A) : bruteForce (identityMatrix n) A = A := by
  have sq := isSquare_bruteForce (identityMatrix n) A
  have ln : (identityMatrix n).length = n := (isSquare_identityMatrix n).1
  rw [ln] at sq
  apply matrix_ext sq hA
  intro i j hi hj
  rw [getEntry_bruteForce_exact _ _ (by rw [ln]; exact hi) (by rw [ln]; exact hj), ln]
  have : exactEntry n (identityMatrix n) A i j = getEntry A i j := by
    unfold exactEntry
    rw [Finset.sum_eq_single i]
    · rw [getEntry_identityMatrix hi hi, if_pos rfl, one_mul]
    · intro k hk hki
      rw [Finset.mem_range] at hk
      rw [getEntry_identityMatrix hi hk, if_neg (fun e => hki e.symm), zero_mul]
    · intro hnot
      exact absurd (Finset.mem_range.2 hi) hnot
  rw [this, toInt_getEntry hA hI hi hj]

theorem bruteForce_zero_right {n : Nat} {A : Matrix} (hA : IsSquare n A) :
    bruteForce A (zeroMatrix n) = zeroMatrix n := by
  have sq := isSquare_bruteForce A (zeroMatrix n)
  rw [hA.1] at sq
  apply matrix_ext sq (isSquare_zeroMatrix n)
  intro i j hi hj
  rw [getEntry_bruteForce_exact _ _ (by rw [hA.1]; exact hi) (by rw [hA.1]; exact hj), hA.1,
    getEntry_zeroMatrix]
  have : exactEntry n A (zeroMatrix n) i j = 0 := by
    unfold exactEntry
    apply Finset.sum_eq_zero
    intro k _
    rw [getEntry_zeroMatrix, mul_zero]
  rw [this]
  rfl

theorem bruteForce_zero_left {n : Nat} {A : Matrix} (_hA : IsSquare n A) :
    bruteForce (zeroMatrix n) A = zeroMatrix n := by
  have sq := isSquare_bruteForce (zeroMatrix n) A
  have ln : (zeroMatrix n).length = n := (isSquare_zeroMatrix n).1
  rw [ln] at sq
  apply matrix_ext sq (isSquare_zeroMatrix n)
  intro i j hi hj
  rw [getEntry_bruteForce_exact _ _ (by rw [ln]; exact hi) (by rw [ln]; exact hj), ln,
    getEntry_zeroMatrix]
  have : exactEntry n (zeroMatrix n) A i j = 0 := by
    unfold exactEntry
    apply Finset.sum_eq_zero
    intro k _
    rw [getEntry_zeroMatrix, zero_mul]
  rw [this]
  rfl

theorem toLongLong_of_fits {x : Int} (h : FitsLongLong x) : toLongLong x = x := by
  unfold FitsLongLong at h
  unfold toLongLong
  omega

theorem exactEntry_succ (m : Nat) (A B : Matrix) (i j : Nat) :
    exactEntry (m + 1) A B i j = exactEntry m A B i j + getEntry A i m * getEntry B m j := by
  unfold exactEntry
  rw [Finset.sum_range_succ]

/-- While neither a product nor a partial sum leaves the `long long` range, the
accumulator holds the exact partial sum. -/
theorem wideSum_exact (A B : Matrix) (i j : Nat) :
    ∀ n : Nat, (∀ k, k < n → FitsLongLong (getEntry A i k * getEntry B k j)) →
      (∀ m, m ≤ n → FitsLongLong (exactEntry m A B i j)) →
      wideSum n A B i j = exactEntry n A B i j := by
  intro n
  induction n with
  | zero =>
    intro _ _
    simp [wideSum, forLoop, exactEntry]
  | succ m ih =>
    intro hprod hsum
    have h1 := ih (fun k hk => hprod k (by omega)) (fun q hq => hsum q (by omega))
    have h2 := hsum (m + 1) (Nat.le_refl _)
    rw [exactEntry_succ] at h2
    unfold wideSum at h1 ⊢
    rw [forLoop_succ, h1, toLongLong_of_fits (hprod m (by omega)), toLongLong_of_fits h2,
      exactEntry_succ]

/-! ## The stated properties -/

/-- C1. For every size `n` and all square integer matrices `A` and `B` of size
`n` (even, odd, power of two or not), `strassenMultiply A B` returns exactly the
matrix `bruteForce A B`, both computed with the same machine arithmetic. -/
theorem strassenMultiply_eq_bruteForce (n : Nat) (A B : Matrix) (hA : IsSquare n A)
    (hB : IsSquare n B) :
    strassenMultiply A B = some (bruteForce A B) ∧
      ∀ i j, (strassenMultiply A B).map (fun C => getEntry C i j)
        = some (getEntry (bruteForce A B) i j) := by
  obtain ⟨hge, k, hk⟩ := nextPowerOf2_nat n
  have hrec := strassenMultiplyRecursive_eq (hk ▸ halvesEvenly_two_pow k)
    (padMatrix A (nextPowerOf2 n).toNat) (padMatrix B (nextPowerOf2 n).toNat)
    (isSquare_padMatrix hA hge) (isSquare_padMatrix hB hge)
  have hmain : strassenMultiply A B = some (bruteForce A B) := by
    unfold strassenMultiply
    simp only [hA.1]
    rw [hrec]
    simp only [Option.bind_eq_bind, Option.some_bind, pure]
    rw [unpad_bruteForce_pad hA hB hge]
  refine ⟨hmain, fun i j => ?_⟩
  rw [hmain]
  rfl

theorem strassenMultiply_eq_bruteForce_witness :
    IsSquare 3 [[1, 2, 3], [4, 5, 6], [7, 8, 9]] ∧
    IsSquare 3 [[9, 8, 7], [6, 5, 4], [3, 2, 1]] ∧
    strassenMultiply [[1, 2, 3], [4, 5, 6], [7, 8, 9]] [[9, 8, 7], [6, 5, 4], [3, 2, 1]]
      = some (bruteForce [[1, 2, 3], [4, 5, 6], [7, 8, 9]] [[9, 8, 7], [6, 5, 4], [3, 2, 1]]) :=
  ⟨by decide, by decide,
    (strassenMultiply_eq_bruteForce 3 _ _ (by decide) (by decide)).1⟩

/-- C2. For every size `n` and all square matrices `A` and `B` of size `n`,
`strassenMultiply A B` returns a matrix with exactly `n` rows of exactly `n`
entries each, whose entry `(i, j)` is the exact sum over `k < n` of
`A[i][k] * B[k][j]` narrowed to `int`; it is that exact sum itself whenever the
sum lies in the `int` range (in particular when no value of the computation
leaves the element range). -/
theorem strassenMultiply_exact (n : Nat) (A B : Matrix) (hA : IsSquare n A)
    (hB : IsSquare n B) :
    ∃ C, strassenMultiply A B = some C ∧ C.length = n ∧ (∀ row ∈ C, row.length = n) ∧
      ∀ i j, i < n → j < n →
        getEntry C i j = toInt (exactEntry n A B i j) ∧
        (FitsInt (exactEntry n A B i j) → getEntry C i j = exactEntry n A B i j) := by
  have sq := isSquare_bruteForce A B
  rw [hA.1] at sq
  refine ⟨bruteForce A B, strassenMultiply_bruteForce hA hB, sq.1, sq.2, ?_⟩
  intro i j hi hj
  have he := getEntry_bruteForce_exact A B (show i < A.length by rw [hA.1]; exact hi)
    (show j < A.length by rw [hA.1]; exact hj)
  rw [hA.1] at he
  refine ⟨he, fun hfit => ?_⟩
  rw [he]
  exact toInt_of_range hfit.1 hfit.2

theorem strassenMultiply_exact_witness :
    ∃ C, strassenMultiply [[1, 2, 3], [4, 5, 6], [7, 8, 9]] [[9, 8, 7], [6, 5, 4], [3, 2, 1]]
        = some C ∧ C.length = 3 ∧ (∀ row ∈ C, row.length = 3) ∧
      ∀ i j, i < 3 → j < 3 →
        getEntry C i j = toInt (exactEntry 3 [[1, 2, 3], [4, 5, 6], [7, 8, 9]]
          [[9, 8, 7], [6, 5, 4], [3, 2, 1]] i j) ∧
        (FitsInt (exactEntry 3 [[1, 2, 3], [4, 5, 6], [7, 8, 9]]
            [[9, 8, 7], [6, 5, 4], [3, 2, 1]] i j) →
          getEntry C i j = exactEntry 3 [[1, 2, 3], [4, 5, 6], [7, 8, 9]]
            [[9, 8, 7], [6, 5, 4], [3, 2, 1]] i j) :=
  strassenMultiply_exact 3 _ _ (by decide) (by decide)

/-- C3. For every power-of-two size `n = 2 ^ k` (the sizes above 32, such as 64
and 128, take the seven-product recursive branch) and all square matrices `A`
and `B` of size `n`, `strassenMultiplyRecursive A B` returns a square matrix of
size `n` equal to `bruteForce A B`. -/
theorem strassenMultiplyRecursive_power_of_two (k : Nat) (A B : Matrix)
    (hA : IsSquare (2 ^ k) A) (hB : IsSquare (2 ^ k) B) :
    strassenMultiplyRecursive A B = some (bruteForce A B) ∧
      IsSquare (2 ^ k) (bruteForce A B) := by
  refine ⟨strassenMultiplyRecursive_eq (halvesEvenly_two_pow k) A B hA hB, ?_⟩
  have sq := isSquare_bruteForce A B
  rw [hA.1] at sq
  exact sq

theorem strassenMultiplyRecursive_power_of_two_witness :
    32 < sample64.length ∧
    strassenMultiplyRecursive sample64 (identityMatrix 64)
      = some (bruteForce sample64 (identityMatrix 64)) ∧
    IsSquare (2 ^ 6) (bruteForce sample64 (identityMatrix 64)) :=
  ⟨by simp [sample64],
    strassenMultiplyRecursive_power_of_two 6 sample64 (identityMatrix 64)
      (by
        refine ⟨by simp [sample64], ?_⟩
        intro row hrow
        simp only [sample64, List.mem_map] at hrow
        obtain ⟨i, _, rfl⟩ := hrow
        simp)
      (by
        refine ⟨by simp [identityMatrix], ?_⟩
        intro row hrow
        simp only [identityMatrix, List.mem_map] at hrow
        obtain ⟨i, _, rfl⟩ := hrow
        simp)⟩

/-- The doubling loop on `n = 3`: `1 → 2 → 4`. -/
theorem nextPowerOf2_three : nextPowerOf2 3 = 4 := by
  unfold nextPowerOf2
  rw [if_neg (by decide), if_neg (by decide)]
  rw [nextPowerOf2Loop, dif_pos (by decide), nextPowerOf2Loop, dif_pos (by decide),
    nextPowerOf2Loop, dif_neg (by decide)]
  rfl

/-- C4. For the odd-sized input `A = B = [[1,2,3],[4,5,6],[7,8,9]]` the target
size is `nextPowerOf2 3 = 4`, the operands are padded to size 4, and
`strassenMultiply A B` returns exactly `[[30,36,42],[66,81,96],[102,126,150]]`. -/
theorem strassenMultiply_three_by_three :
    nextPowerOf2 3 = 4 ∧
    padMatrix [[1, 2, 3], [4, 5, 6], [7, 8, 9]] 4
      = [[1, 2, 3, 0], [4, 5, 6, 0], [7, 8, 9, 0], [0, 0, 0, 0]] ∧
    strassenMultiply [[1, 2, 3], [4, 5, 6], [7, 8, 9]] [[1, 2, 3], [4, 5, 6], [7, 8, 9]]
      = some [[30, 36, 42], [66, 81, 96], [102, 126, 150]] := by
  have hpad : padMatrix [[1, 2, 3], [4, 5, 6], [7, 8, 9]] 4
      = [[1, 2, 3, 0], [4, 5, 6, 0], [7, 8, 9, 0], [0, 0, 0, 0]] := by decide
  refine ⟨nextPowerOf2_three, hpad, ?_⟩
  unfold strassenMultiply
  simp only [List.length_cons, List.length_nil]
  have h3 : ((0 + 1 + 1 + 1 : Nat) : Int) = 3 := by decide
  rw [h3, nextPowerOf2_three]
  have h4 : (4 : Int).toNat = 4 := by decide
  rw [h4, hpad, strassenMultiplyRecursive_small (by decide)]
  decide

/-- C5. For `A = [[1,2],[3,4]]` and `B = [[5,6],[7,8]]`, `strassenMultiply A B`
returns `[[19,22],[43,50]]`, and `sumOfMatrixEntries` of that result is `134`. -/
theorem strassenMultiply_two_by_two :
    strassenMultiply [[1, 2], [3, 4]] [[5, 6], [7, 8]] = some [[19, 22], [43, 50]] ∧
    (strassenMultiply [[1, 2], [3, 4]] [[5, 6], [7, 8]]).map sumOfMatrixEntries = some 134 := by
  have hnext : nextPowerOf2 2 = 2 := by
    unfold nextPowerOf2
    rw [if_neg (by decide), if_pos (by decide)]
  have hmul : strassenMultiply [[1, 2], [3, 4]] [[5, 6], [7, 8]]
      = some [[19, 22], [43, 50]] := by
    unfold strassenMultiply
    simp only [List.length_cons, List.length_nil]
    have h2 : ((0 + 1 + 1 : Nat) : Int) = 2 := by decide
    rw [h2, hnext]
    have h2n : (2 : Int).toNat = 2 := by decide
    have hpadA : padMatrix [[1, 2], [3, 4]] 2 = [[1, 2], [3, 4]] := by decide
    have hpadB : padMatrix [[5, 6], [7, 8]] 2 = [[5, 6], [7, 8]] := by decide
    rw [h2n, hpadA, hpadB, strassenMultiplyRecursive_small (by decide)]
    decide
  refine ⟨hmul, ?_⟩
  rw [hmul]
  decide

/-- C6. For every size `n` and every square matrix `A` of size `n` with `int`
entries, with `I` the identity matrix of size `n`, `strassenMultiply A I` and
`strassenMultiply I A` both return `A` (padded sizes and sizes above 32
included). -/
theorem strassenMultiply_identity (n : Nat) (A : Matrix) (hA : IsSquare n A)
    (hI : IntEntries A) :
    strassenMultiply A (identityMatrix n) = some A ∧
      strassenMultiply (identityMatrix n) A = some A := by
  constructor
  · rw [strassenMultiply_bruteForce hA (isSquare_identityMatrix n),
      bruteForce_identity_right hA hI]
  · rw [strassenMultiply_bruteForce (isSquare_identityMatrix n) hA,
      bruteForce_identity_left hA hI]

theorem strassenMultiply_identity_witness :
    IsSquare 3 [[1, -2, 3], [4, 5, -6], [2147483647, -2147483648, 9]] ∧
    IntEntries [[1, -2, 3], [4, 5, -6], [2147483647, -2147483648, 9]] ∧
    strassenMultiply [[1, -2, 3], [4, 5, -6], [2147483647, -2147483648, 9]] (identityMatrix 3)
      = some [[1, -2, 3], [4, 5, -6], [2147483647, -2147483648, 9]] ∧
    strassenMultiply (identityMatrix 3) [[1, -2, 3], [4, 5, -6], [2147483647, -2147483648, 9]]
      = some [[1, -2, 3], [4, 5, -6], [2147483647, -2147483648, 9]] :=
  ⟨by decide, by decide, strassenMultiply_identity 3 _ (by decide) (by decide)⟩

/-- C7. For every size `n` and every square matrix `A` of size `n`, with `Z`
the all-zero matrix of size `n`, `strassenMultiply A Z` and
`strassenMultiply Z A` both return the all-zero matrix of size `n`. -/
theorem strassenMultiply_zero (n : Nat) (A : Matrix) (hA : IsSquare n A) :
    strassenMultiply A (zeroMatrix n) = some (zeroMatrix n) ∧
      strassenMultiply (zeroMatrix n) A = some (zeroMatrix n) := by
  constructor
  · rw [strassenMultiply_bruteForce hA (isSquare_zeroMatrix n), bruteForce_zero_right hA]
  · rw [strassenMultiply_bruteForce (isSquare_zeroMatrix n) hA, bruteForce_zero_left hA]

theorem strassenMultiply_zero_witness :
    IsSquare 3 [[1, 2, 3], [4, 5, 6], [7, 8, 9]] ∧
    strassenMultiply [[1, 2, 3], [4, 5, 6], [7, 8, 9]] (zeroMatrix 3) = some (zeroMatrix 3) ∧
    strassenMultiply (zeroMatrix 3) [[1, 2, 3], [4, 5, 6], [7, 8, 9]] = some (zeroMatrix 3) :=
  ⟨by decide, strassenMultiply_zero 3 _ (by decide)⟩

/-- C8. For every size `n` and every square matrix `M` of size `n`, padding `M`
to `nextPowerOf2 n` and unpadding back to `n` returns `M`. -/
theorem unpad_pad_roundtrip (n : Nat) (M : Matrix) (hM : IsSquare n M) :
    unpadMatrix (padMatrix M (nextPowerOf2 n).toNat) n = M := by
  have hge := (nextPowerOf2_nat n).1
  apply matrix_ext (isSquare_unpadMatrix _ n) hM
  intro i j hi hj
  rw [getEntry_unpadMatrix _ hi hj, getEntry_padMatrix hM hge, if_pos ⟨hi, hj⟩]

theorem unpad_pad_roundtrip_witness :
    IsSquare 3 [[1, 2, 3], [4, 5, 6], [7, 8, 9]] ∧
    unpadMatrix (padMatrix [[1, 2, 3], [4, 5, 6], [7, 8, 9]] (nextPowerOf2 (3 : Nat)).toNat) 3
      = [[1, 2, 3], [4, 5, 6], [7, 8, 9]] :=
  ⟨by decide, unpad_pad_roundtrip 3 _ (by decide)⟩

/-- C9. For every square matrix `M` of even size `n` (`n = 0` included), `split`
produces four quadrants, and joining them in order gives back exactly `M`. -/
theorem join_split (n : Nat) (M : Matrix) (hM : IsSquare n M) (hev : n % 2 = 0) :
    ∃ A11 A12 A21 A22, split M = some (A11, A12, A21, A22) ∧
      join A11 A12 A21 A22 = M := by
  have evM : M.length % 2 = 0 := by rw [hM.1]; exact hev
  obtain ⟨A11, A12, A21, A22, hs, q11, q12, q21, q22, e⟩ := split_even evM
  rw [hM.1] at q11 q12 q21 q22 e
  refine ⟨A11, A12, A21, A22, hs, ?_⟩
  have hn : n / 2 * 2 = n := by omega
  have sqJ := isSquare_join A11 A12 A21 A22
  rw [q11.1, hn] at sqJ
  apply matrix_ext sqJ hM
  intro i j hi hj
  rw [getEntry_join A11 A12 A21 A22 (by rw [q11.1, hn]; exact hi)
    (by rw [q11.1, hn]; exact hj), q11.1]
  unfold joinCell
  by_cases hi2 : i < n / 2
  · by_cases hj2 : j < n / 2
    · rw [if_pos hi2, if_pos hj2, (e i j hi2 hj2).1]
    · rw [if_pos hi2, if_neg hj2, (e i (j - n / 2) hi2 (by omega)).2.1,
        Nat.sub_add_cancel (by omega)]
  · by_cases hj2 : j < n / 2
    · rw [if_neg hi2, if_pos hj2, (e (i - n / 2) j (by omega) hj2).2.2.1,
        Nat.sub_add_cancel (by omega)]
    · rw [if_neg hi2, if_neg hj2, (e (i - n / 2) (j - n / 2) (by omega) (by omega)).2.2.2,
        Nat.sub_add_cancel (by omega), Nat.sub_add_cancel (by omega)]

theorem join_split_witness :
    IsSquare 4 [[1, 2, 3, 4], [5, 6, 7, 8], [9, 10, 11, 12], [13, 14, 15, 16]] ∧
    ∃ A11 A12 A21 A22,
      split [[1, 2, 3, 4], [5, 6, 7, 8], [9, 10, 11, 12], [13, 14, 15, 16]]
        = some (A11, A12, A21, A22) ∧
      join A11 A12 A21 A22 = [[1, 2, 3, 4], [5, 6, 7, 8], [9, 10, 11, 12], [13, 14, 15, 16]] :=
  ⟨by decide, join_split 4 _ (by decide) (by decide)⟩

/-- C10. For every size `n` and all square matrices `A` and `B` of size `n`,
`bruteForce A B` is a square matrix of size `n` whose entry `(i, j)` is the
`long long` accumulator of the dot product of row `i` of `A` and column `j` of
`B`, narrowed to `int`; while no product and no partial sum leaves the
`long long` range the accumulator holds the exact sum over `k < n` of
`A[i][k] * B[k][j]`, and if that sum also fits `int` the entry is the exact sum. -/
theorem bruteForce_dot_product (n : Nat) (A B : Matrix) (hA : IsSquare n A)
    (_hB : IsSquare n B) :
    IsSquare n (bruteForce A B) ∧
      ∀ i j, i < n → j < n →
        getEntry (bruteForce A B) i j = toInt (wideSum n A B i j) ∧
        ((∀ k, k < n → FitsLongLong (getEntry A i k * getEntry B k j)) →
          (∀ m, m ≤ n → FitsLongLong (exactEntry m A B i j)) →
          wideSum n A B i j = exactEntry n A B i j ∧
          (FitsInt (exactEntry n A B i j) →
            getEntry (bruteForce A B) i j = exactEntry n A B i j)) := by
  have sq := isSquare_bruteForce A B
  rw [hA.1] at sq
  refine ⟨sq, fun i j hi hj => ?_⟩
  have he : getEntry (bruteForce A B) i j = toInt (wideSum n A B i j) := by
    rw [getEntry_bruteForce A B (by rw [hA.1]; exact hi) (by rw [hA.1]; exact hj), hA.1]
    rfl
  refine ⟨he, fun hprod hsum => ?_⟩
  have hw := wideSum_exact A B i j n hprod hsum
  refine ⟨hw, fun hfit => ?_⟩
  rw [he, hw]
  exact toInt_of_range hfit.1 hfit.2

theorem bruteForce_dot_product_witness :
    IsSquare 2 [[1, 2], [3, 4]] ∧ IsSquare 2 [[5, 6], [7, 8]] ∧
    IsSquare 2 (bruteForce [[1, 2], [3, 4]] [[5, 6], [7, 8]]) ∧
    getEntry (bruteForce [[1, 2], [3, 4]] [[5, 6], [7, 8]]) 1 0
      = toInt (wideSum 2 [[1, 2], [3, 4]] [[5, 6], [7, 8]] 1 0) :=
  ⟨by decide, by decide,
    (bruteForce_dot_product 2 [[1, 2], [3, 4]] [[5, 6], [7, 8]] (by decide) (by decide)).1,
    ((bruteForce_dot_product 2 [[1, 2], [3, 4]] [[5, 6], [7, 8]] (by decide) (by decide)).2
      1 0 (by decide) (by decide)).1⟩

theorem two_pow_le_of_le_thirty {k : Nat} (hk : k ≤ 30) : 2 ^ k ≤ 1073741824 := by
  have := Nat.pow_le_pow_right (show 0 < 2 by decide) hk
  norm_num at this
  exact this

/-- The doubling loop stops at the least power of two that is at least `n`. -/
theorem nextPowerOf2Loop_least (n : Int) :
    ∀ (m p : Nat) (hp : 0 < p), (n - p).toNat = m → (∃ k, p = 2 ^ k) →
      (∀ j : Nat, n ≤ ((2 ^ j : Nat) : Int) → p ≤ 2 ^ j) →
      ∀ j : Nat, n ≤ ((2 ^ j : Nat) : Int) → nextPowerOf2Loop p n hp ≤ 2 ^ j := by
  intro m
  induction m using Nat.strong_induction_on with
  | _ m ih =>
    intro p hp hm hk hleast
    rw [nextPowerOf2Loop]
    by_cases hlt : (p : Int) < n
    · rw [dif_pos hlt]
      obtain ⟨k, rfl⟩ := hk
      refine ih _ (by omega) (2 ^ k * 2) (by omega) rfl ⟨k + 1, by rw [pow_succ]⟩ ?_
      intro j hj
      have h1 : (2 ^ k : Nat) < 2 ^ j := by
        have : ((2 ^ k : Nat) : Int) < ((2 ^ j : Nat) : Int) := lt_of_lt_of_le hlt hj
        exact_mod_cast this
      have h2 : k < j := (Nat.pow_lt_pow_iff_right (by decide)).1 h1
      have h3 := Nat.pow_le_pow_right (show 0 < 2 by decide) (show k + 1 ≤ j by omega)
      rw [pow_succ] at h3
      exact h3
    · rw [dif_neg hlt]
      exact hleast

/-- Up to `2^30` the loop on `int` does what the loop on unbounded numbers does. -/
theorem nextPowerOf2LoopInt_eq (n : Int) (hn : n ≤ 1073741824) :
    ∀ (fuel p : Nat) (hp : 0 < p), (∃ k, k ≤ 30 ∧ p = 2 ^ k ∧ 32 ≤ k + fuel) →
      nextPowerOf2LoopInt fuel (p : Int) n = some ((nextPowerOf2Loop p n hp : Nat) : Int) := by
  intro fuel
  induction fuel with
  | zero =>
    rintro p hp ⟨k, hk, _, hf⟩
    omega
  | succ f ih =>
    rintro p hp ⟨k, hk, rfl, hf⟩
    have hb := two_pow_le_of_le_thirty hk
    rw [nextPowerOf2LoopInt, nextPowerOf2Loop]
    by_cases hlt : ((2 ^ k : Nat) : Int) < n
    · rw [if_pos hlt, dif_pos hlt]
      have hk2 : k < 30 := by
        by_contra hge
        have : k = 30 := by omega
        subst this
        norm_num at hlt
        omega
      have hb2 := two_pow_le_of_le_thirty (show k + 1 ≤ 30 by omega)
      rw [pow_succ] at hb2
      have e : toInt (((2 ^ k : Nat) : Int) * 2) = ((2 ^ k * 2 : Nat) : Int) := by
        rw [toInt_of_range (by omega) (by omega)]
        push_cast
        rfl
      rw [e]
      exact ih (2 ^ k * 2) (by omega) ⟨k + 1, by omega, by rw [pow_succ], by omega⟩
    · rw [if_neg hlt, dif_neg hlt]

/-- The `int` run of `nextPowerOf2` on `2^30 + 1`: every value `power` takes
(`1, 2, …, 2^30`, then `-2^31` and `0` after the overflow) is below `n`. -/
theorem nextPowerOf2LoopInt_overflow :
    ∀ (fuel : Nat) (p : Int), (p = 0 ∨ p = -2147483648 ∨ ∃ k : Nat, k ≤ 30 ∧ p = 2 ^ k) →
      nextPowerOf2LoopInt fuel p 1073741825 = none := by
  intro fuel
  induction fuel with
  | zero => intro p _; rfl
  | succ f ih =>
    intro p hp
    rw [nextPowerOf2LoopInt]
    rcases hp with rfl | rfl | ⟨k, hk, rfl⟩
    · rw [if_pos (by decide)]
      exact ih _ (Or.inl (by decide))
    · rw [if_pos (by decide)]
      exact ih _ (Or.inl (by decide))
    · have hb := two_pow_le_of_le_thirty hk
      have hb2 : ((2 : Int) ^ k) ≤ 1073741824 := by exact_mod_cast hb
      rw [if_pos (by omega)]
      apply ih
      by_cases hk2 : k = 30
      · subst hk2
        exact Or.inr (Or.inl (by decide))
      · refine Or.inr (Or.inr ⟨k + 1, by omega, ?_⟩)
        have hb3 := two_pow_le_of_le_thirty (show k + 1 ≤ 30 by omega)
        have hb4 : ((2 : Int) ^ (k + 1)) ≤ 1073741824 := by exact_mod_cast hb3
        have hpos : (0 : Int) < 2 ^ k := by positivity
        rw [pow_succ] at hb4 ⊢
        exact toInt_of_range (by omega) (by omega)

/-- The claim C11 fails at `n = 2^30 + 1`: the run on the type `int` never
returns (at the doubling of `2^30` the variable `power` overflows and stays
below `n` for ever), and no value of type `int` is a power of two that is at
least `n`. -/
theorem nextPowerOf2_counterexample :
    (¬ ∃ (fuel : Nat) (p : Int), nextPowerOf2Int fuel 1073741825 = some p) ∧
    (¬ ∃ (p : Int) (k : Nat), FitsInt p ∧ p = 2 ^ k ∧ 1073741825 ≤ p) := by
  constructor
  · rintro ⟨fuel, p, h⟩
    unfold nextPowerOf2Int at h
    rw [if_neg (by decide), if_neg (by decide),
      nextPowerOf2LoopInt_overflow fuel 1 (Or.inr (Or.inr ⟨0, by decide, by norm_num⟩))] at h
    cases h
  · rintro ⟨p, k, hfit, rfl, hge⟩
    by_cases hk : k ≤ 30
    · have hb := two_pow_le_of_le_thirty hk
      have hb2 : ((2 : Int) ^ k) ≤ 1073741824 := by exact_mod_cast hb
      omega
    · have h31 := Nat.pow_le_pow_right (show 0 < 2 by decide) (show 31 ≤ k by omega)
      have hb2 : ((2 : Int) ^ 31) ≤ 2 ^ k := by exact_mod_cast h31
      have := hfit.2
      norm_num at hb2
      omega

/-- C11 (amended). For every integer `n ≤ 2^30` the run of `nextPowerOf2` on the
type `int` returns (32 iterations of fuel are enough) a value `p` of type
`int`, the one the unbounded model `nextPowerOf2` computes, with: `p = 1` when
`n ≤ 0`; `p = n` when `n` is a power of two; and in every case `p` is a power
of two, `p ≥ n`, and no smaller power of two is at least `n`. -/
theorem nextPowerOf2_least_power_of_two (n : Int) (hn : n ≤ 1073741824) (fuel : Nat)
    (hfuel : 32 ≤ fuel) :
    ∃ p, nextPowerOf2Int fuel n = some p ∧ p = nextPowerOf2 n ∧ FitsInt p ∧
      (n ≤ 0 → p = 1) ∧ ((∃ k : Nat, n = 2 ^ k) → p = n) ∧
      (∃ k : Nat, p = 2 ^ k) ∧ n ≤ p ∧
      ∀ q : Int, (∃ k : Nat, q = 2 ^ k) → n ≤ q → p ≤ q := by
  unfold nextPowerOf2Int nextPowerOf2
  by_cases h0 : n ≤ 0
  · rw [if_pos h0, if_pos h0]
    refine ⟨1, rfl, rfl, by unfold FitsInt; omega, fun _ => rfl, ?_, ⟨0, by norm_num⟩,
      by omega, ?_⟩
    · rintro ⟨k, hk⟩
      have : (0 : Int) < 2 ^ k := by positivity
      omega
    · rintro q ⟨k, rfl⟩ _
      exact_mod_cast (Nat.one_le_two_pow : 1 ≤ 2 ^ k)
  · rw [if_neg h0, if_neg h0]
    by_cases hl : Int.land n (n - 1) = 0
    · rw [if_pos hl, if_pos hl]
      refine ⟨n, rfl, rfl, by unfold FitsInt; omega, fun h => absurd h h0, fun _ => rfl, ?_,
        le_refl n, fun q _ hq => hq⟩
      obtain ⟨m, rfl⟩ : ∃ m : Nat, n = m := ⟨n.toNat, by omega⟩
      have e : ((m : Int) - 1) = ((m - 1 : Nat) : Int) := by omega
      rw [e] at hl
      have hl2 : ((m &&& (m - 1) : Nat) : Int) = 0 := hl
      obtain ⟨k, hk⟩ := pow2_of_land m (by omega) (by exact_mod_cast hl2)
      exact ⟨k, by exact_mod_cast hk⟩
    · rw [if_neg hl, if_neg hl]
      have hagree := nextPowerOf2LoopInt_eq n hn fuel 1 (by decide)
        ⟨0, by decide, by norm_num, by omega⟩
      have hspec := nextPowerOf2Loop_spec n _ 1 (by decide) rfl ⟨0, rfl⟩
      have hleast := nextPowerOf2Loop_least n _ 1 (by decide) rfl ⟨0, rfl⟩
        (fun j _ => Nat.one_le_two_pow)
      have hle30 := hleast 30 (by norm_num; exact hn)
      norm_num at hle30
      refine ⟨_, hagree, rfl, by unfold FitsInt; omega, fun h => absurd h h0, ?_, ?_, hspec.1,
        ?_⟩
      · rintro ⟨k, hk⟩
        have := hleast k (by rw [hk]; norm_num)
        have h2 : ((nextPowerOf2Loop 1 n (by decide) : Nat) : Int) ≤ ((2 ^ k : Nat) : Int) := by
          exact_mod_cast this
        have h3 := hspec.1
        have h4 : ((2 ^ k : Nat) : Int) = n := by rw [hk]; norm_num
        omega
      · obtain ⟨k, hk⟩ := hspec.2
        exact ⟨k, by rw [hk]; norm_num⟩
      · rintro q ⟨k, rfl⟩ hq
        have := hleast k (by norm_num; exact hq)
        exact_mod_cast this

theorem nextPowerOf2_least_power_of_two_witness :
    ∃ p, nextPowerOf2Int 32 5 = some p ∧ p = nextPowerOf2 5 ∧ FitsInt p ∧
      ((5 : Int) ≤ 0 → p = 1) ∧ ((∃ k : Nat, (5 : Int) = 2 ^ k) → p = 5) ∧
      (∃ k : Nat, p = 2 ^ k) ∧ 5 ≤ p ∧
      ∀ q : Int, (∃ k : Nat, q = 2 ^ k) → 5 ≤ q → p ≤ q :=
  nextPowerOf2_least_power_of_two 5 (by decide) 32 (by decide)

/-- C12. For every square matrix `M` of size `oldSize` and every
`newSize ≥ oldSize`, `padMatrix M newSize` is a square matrix of size `newSize`
whose entry `(i, j)` is `M[i][j]` when `i < oldSize` and `j < oldSize` and `0`
otherwise; when `oldSize = newSize` it is `M` itself. -/
theorem padMatrix_entries (oldSize newSize : Nat) (M : Matrix) (hM : IsSquare oldSize M)
    (hle : oldSize ≤ newSize) :
    IsSquare newSize (padMatrix M newSize) ∧
      (∀ i j, i < newSize → j < newSize →
        getEntry (padMatrix M newSize) i j
          = if i < oldSize ∧ j < oldSize then getEntry M i j else 0) ∧
      (oldSize = newSize → padMatrix M newSize = M) := by
  refine ⟨isSquare_padMatrix hM hle, fun i j _ _ => getEntry_padMatrix hM hle i j, ?_⟩
  intro heq
  unfold padMatrix
  rw [hM.1]
  simp only [heq, if_true]

theorem padMatrix_entries_witness :
    IsSquare 2 [[1, 2], [3, 4]] ∧
    IsSquare 3 (padMatrix [[1, 2], [3, 4]] 3) ∧
    getEntry (padMatrix [[1, 2], [3, 4]] 3) 1 0 = 3 ∧
    getEntry (padMatrix [[1, 2], [3, 4]] 3) 1 2 = 0 :=
  ⟨by decide, (padMatrix_entries 2 3 _ (by decide) (by decide)).1,
    by
      rw [(padMatrix_entries 2 3 [[1, 2], [3, 4]] (by decide) (by decide)).2.1 1 0
        (by decide) (by decide)]
      decide,
    by
      rw [(padMatrix_entries 2 3 [[1, 2], [3, 4]] (by decide) (by decide)).2.1 1 2
        (by decide) (by decide)]
      decide⟩

/-- C13. For every square matrix `M` of size `m` and every `originalSize ≤ m`,
`unpadMatrix M originalSize` is the square matrix of size `originalSize` whose
entry `(i, j)` is `M[i][j]`: the top-left block of `M`. -/
theorem unpadMatrix_entries (m originalSize : Nat) (M : Matrix) (_hM : IsSquare m M)
    (_hle : originalSize ≤ m) :
    IsSquare originalSize (unpadMatrix M originalSize) ∧
      ∀ i j, i < originalSize → j < originalSize →
        getEntry (unpadMatrix M originalSize) i j = getEntry M i j :=
  ⟨isSquare_unpadMatrix M originalSize, fun _ _ hi hj => getEntry_unpadMatrix M hi hj⟩

theorem unpadMatrix_entries_witness :
    IsSquare 3 [[1, 2, 3], [4, 5, 6], [7, 8, 9]] ∧
    IsSquare 2 (unpadMatrix [[1, 2, 3], [4, 5, 6], [7, 8, 9]] 2) ∧
    unpadMatrix [[1, 2, 3], [4, 5, 6], [7, 8, 9]] 2 = [[1, 2], [4, 5]] :=
  ⟨by decide, (unpadMatrix_entries 3 2 _ (by decide) (by decide)).1, by decide⟩

/-- C14. `split` fails exactly when the size of its input is odd: on every
square matrix of odd size it throws (no quadrants), on every square matrix of
even size it throws nothing and produces four quadrants. -/
theorem split_fails_iff_odd (n : Nat) (M : Matrix) (hM : IsSquare n M) :
    (split M = none ↔ n % 2 = 1) ∧
      (n % 2 = 1 → split M = none) ∧
      (n % 2 = 0 → ∃ A11 A12 A21 A22, split M = some (A11, A12, A21, A22)) := by
  have hodd : n % 2 = 1 → split M = none := fun h =>
    split_odd (by rw [hM.1]; omega)
  have hev : n % 2 = 0 → ∃ A11 A12 A21 A22, split M = some (A11, A12, A21, A22) := by
    intro h
    obtain ⟨A11, A12, A21, A22, hs, _⟩ := split_even (show M.length % 2 = 0 by rw [hM.1]; exact h)
    exact ⟨A11, A12, A21, A22, hs⟩
  refine ⟨⟨fun hnone => ?_, hodd⟩, hodd, hev⟩
  by_contra hne
  obtain ⟨A11, A12, A21, A22, hs⟩ := hev (by omega)
  rw [hs] at hnone
  cases hnone

theorem split_fails_iff_odd_witness :
    IsSquare 3 [[1, 2, 3], [4, 5, 6], [7, 8, 9]] ∧
    split [[1, 2, 3], [4, 5, 6], [7, 8, 9]] = none :=
  ⟨by decide, (split_fails_iff_odd 3 _ (by decide)).2.1 (by decide)⟩

/-- C15. For every square matrix `M` of even size `n`, with `h = n / 2`,
`split M` yields four square matrices of size `h` in the order top-left,
top-right, bottom-left, bottom-right: for all `i, j < h`,
`A11[i][j] = M[i][j]`, `A12[i][j] = M[i][j+h]`, `A21[i][j] = M[i+h][j]` and
`A22[i][j] = M[i+h][j+h]`. -/
theorem split_quadrants (n : Nat) (M : Matrix) (hM : IsSquare n M) (hev : n % 2 = 0) :
    ∃ A11 A12 A21 A22, split M = some (A11, A12, A21, A22) ∧
      IsSquare (n / 2) A11 ∧ IsSquare (n / 2) A12 ∧
      IsSquare (n / 2) A21 ∧ IsSquare (n / 2) A22 ∧
      ∀ i j, i < n / 2 → j < n / 2 →
        getEntry A11 i j = getEntry M i j ∧
        getEntry A12 i j = getEntry M i (j + n / 2) ∧
        getEntry A21 i j = getEntry M (i + n / 2) j ∧
        getEntry A22 i j = getEntry M (i + n / 2) (j + n / 2) := by
  have h := split_even (show M.length % 2 = 0 by rw [hM.1]; exact hev)
  rw [hM.1] at h
  exact h

theorem split_quadrants_witness :
    IsSquare 4 [[1, 2, 3, 4], [5, 6, 7, 8], [9, 10, 11, 12], [13, 14, 15, 16]] ∧
    split [[1, 2, 3, 4], [5, 6, 7, 8], [9, 10, 11, 12], [13, 14, 15, 16]]
      = some ([[1, 2], [5, 6]], [[3, 4], [7, 8]], [[9, 10], [13, 14]], [[11, 12], [15, 16]]) ∧
    ∃ A11 A12 A21 A22,
      split [[1, 2, 3, 4], [5, 6, 7, 8], [9, 10, 11, 12], [13, 14, 15, 16]]
        = some (A11, A12, A21, A22) ∧
      IsSquare (4 / 2) A11 ∧ IsSquare (4 / 2) A12 ∧
      IsSquare (4 / 2) A21 ∧ IsSquare (4 / 2) A22 :=
  ⟨by decide, by decide, by
    obtain ⟨A11, A12, A21, A22, hs, h1, h2, h3, h4, _⟩ :=
      split_quadrants 4 [[1, 2, 3, 4], [5, 6, 7, 8], [9, 10, 11, 12], [13, 14, 15, 16]]
        (by decide) (by decide)
    exact ⟨A11, A12, A21, A22, hs, h1, h2, h3, h4⟩⟩

/-- C16. For every `h` and all square matrices `C11`, `C12`, `C21`, `C22` of
size `h`, `join C11 C12 C21 C22` is a square matrix `C` of size `2 * h` with,
for all `i, j < h`, `C[i][j] = C11[i][j]`, `C[i][j+h] = C12[i][j]`,
`C[i+h][j] = C21[i][j]` and `C[i+h][j+h] = C22[i][j]`. -/
theorem join_quadrants (h : Nat) (C11 C12 C21 C22 : Matrix) (h11 : IsSquare h C11)
    (_h12 : IsSquare h C12) (_h21 : IsSquare h C21) (_h22 : IsSquare h C22) :
    IsSquare (2 * h) (join C11 C12 C21 C22) ∧
      ∀ i j, i < h → j < h →
        getEntry (join C11 C12 C21 C22) i j = getEntry C11 i j ∧
        getEntry (join C11 C12 C21 C22) i (j + h) = getEntry C12 i j ∧
        getEntry (join C11 C12 C21 C22) (i + h) j = getEntry C21 i j ∧
        getEntry (join C11 C12 C21 C22) (i + h) (j + h) = getEntry C22 i j := by
  have sq := isSquare_join C11 C12 C21 C22
  rw [h11.1, Nat.mul_comm] at sq
  refine ⟨sq, fun i j hi hj => ?_⟩
  have cell : ∀ r c, r < h * 2 → c < h * 2 →
      getEntry (join C11 C12 C21 C22) r c = joinCell h C11 C12 C21 C22 r c := by
    intro r c hr hc
    have := getEntry_join C11 C12 C21 C22 (r := r) (c := c) (by rw [h11.1]; exact hr)
      (by rw [h11.1]; exact hc)
    rw [h11.1] at this
    exact this
  refine ⟨?_, ?_, ?_, ?_⟩
  · rw [cell i j (by omega) (by omega)]
    simp [joinCell, hi, hj]
  · rw [cell i (j + h) (by omega) (by omega)]
    simp [joinCell, hi]
  · rw [cell (i + h) j (by omega) (by omega)]
    simp [joinCell, hj]
  · rw [cell (i + h) (j + h) (by omega) (by omega)]
    simp [joinCell]

theorem join_quadrants_witness :
    IsSquare 1 [[1]] ∧ IsSquare 1 [[2]] ∧ IsSquare 1 [[3]] ∧ IsSquare 1 [[4]] ∧
    join [[1]] [[2]] [[3]] [[4]] = [[1, 2], [3, 4]] ∧
    IsSquare (2 * 1) (join [[1]] [[2]] [[3]] [[4]]) :=
  ⟨by decide, by decide, by decide, by decide, by decide,
    (join_quadrants 1 [[1]] [[2]] [[3]] [[4]] (by decide) (by decide) (by decide)
      (by decide)).1⟩

/-- C17 (as stated) fails where the sum or difference leaves the type `int`:
the entries `2147483647` and `1` are `int`s, their sum is `2^31`, and
`matrixAdd` stores `-2147483648`; the difference of `-2147483648` and `1` is
`-2^31 - 1`, and `matrixSubtract` stores `2147483647`. -/
theorem matrixAdd_matrixSubtract_counterexample :
    IsSquare 1 [[2147483647]] ∧ IsSquare 1 [[1]] ∧ IsSquare 1 [[-2147483648]] ∧
      IntEntries [[2147483647]] ∧ IntEntries [[1]] ∧ IntEntries [[-2147483648]] ∧
      matrixAdd [[2147483647]] [[1]] = [[-2147483648]] ∧
      getEntry [[2147483647]] 0 0 + getEntry [[1]] 0 0 = 2147483648 ∧
      getEntry (matrixAdd [[2147483647]] [[1]]) 0 0
        ≠ getEntry [[2147483647]] 0 0 + getEntry [[1]] 0 0 ∧
      matrixSubtract [[-2147483648]] [[1]] = [[2147483647]] ∧
      getEntry [[-2147483648]] 0 0 - getEntry [[1]] 0 0 = -2147483649 ∧
      getEntry (matrixSubtract [[-2147483648]] [[1]]) 0 0
        ≠ getEntry [[-2147483648]] 0 0 - getEntry [[1]] 0 0 := by
  decide

/-- C17 (amended). For every size `n` and all square matrices `A` and `B` of
size `n`, `matrixAdd A B` and `matrixSubtract A B` are square matrices of size
`n` whose entry `(i, j)` is `A[i][j] + B[i][j]`, respectively
`A[i][j] - B[i][j]`, whenever that sum (difference) fits the type `int`; in
every case the entry is that sum (difference) reduced to the `int` range. -/
theorem matrixAdd_matrixSubtract_entries (n : Nat) (A B : Matrix) (hA : IsSquare n A)
    (_hB : IsSquare n B) :
    IsSquare n (matrixAdd A B) ∧ IsSquare n (matrixSubtract A B) ∧
      ∀ i j, i < n → j < n →
        getEntry (matrixAdd A B) i j = toInt (getEntry A i j + getEntry B i j) ∧
        getEntry (matrixSubtract A B) i j = toInt (getEntry A i j - getEntry B i j) ∧
        (FitsInt (getEntry A i j + getEntry B i j) →
          getEntry (matrixAdd A B) i j = getEntry A i j + getEntry B i j) ∧
        (FitsInt (getEntry A i j - getEntry B i j) →
          getEntry (matrixSubtract A B) i j = getEntry A i j - getEntry B i j) := by
  have s1 := isSquare_matrixAdd A B
  have s2 := isSquare_matrixSubtract A B
  rw [hA.1] at s1 s2
  refine ⟨s1, s2, fun i j hi hj => ?_⟩
  have e1 := getEntry_matrixAdd A B (show i < A.length by rw [hA.1]; exact hi)
    (show j < A.length by rw [hA.1]; exact hj)
  have e2 := getEntry_matrixSubtract A B (show i < A.length by rw [hA.1]; exact hi)
    (show j < A.length by rw [hA.1]; exact hj)
  refine ⟨e1, e2, fun hf => ?_, fun hf => ?_⟩
  · rw [e1]
    exact toInt_of_range hf.1 hf.2
  · rw [e2]
    exact toInt_of_range hf.1 hf.2

theorem matrixAdd_matrixSubtract_entries_witness :
    IsSquare 2 [[1, 2], [3, 4]] ∧ IsSquare 2 [[5, 6], [7, 8]] ∧
    matrixAdd [[1, 2], [3, 4]] [[5, 6], [7, 8]] = [[6, 8], [10, 12]] ∧
    matrixSubtract [[1, 2], [3, 4]] [[5, 6], [7, 8]] = [[-4, -4], [-4, -4]] ∧
    IsSquare 2 (matrixAdd [[1, 2], [3, 4]] [[5, 6], [7, 8]]) ∧
    FitsInt (getEntry [[1, 2], [3, 4]] 1 0 + getEntry [[5, 6], [7, 8]] 1 0) ∧
    getEntry (matrixAdd [[1, 2], [3, 4]] [[5, 6], [7, 8]]) 1 0
      = getEntry [[1, 2], [3, 4]] 1 0 + getEntry [[5, 6], [7, 8]] 1 0 ∧
    FitsInt (getEntry [[1, 2], [3, 4]] 1 0 - getEntry [[5, 6], [7, 8]] 1 0) ∧
    getEntry (matrixSubtract [[1, 2], [3, 4]] [[5, 6], [7, 8]]) 1 0
      = getEntry [[1, 2], [3, 4]] 1 0 - getEntry [[5, 6], [7, 8]] 1 0 :=
  ⟨by decide, by decide, by decide, by decide,
    (matrixAdd_matrixSubtract_entries 2 [[1, 2], [3, 4]] [[5, 6], [7, 8]] (by decide)
      (by decide)).1,
    by unfold FitsInt; decide,
    ((matrixAdd_matrixSubtract_entries 2 [[1, 2], [3, 4]] [[5, 6], [7, 8]] (by decide)
      (by decide)).2.2 1 0 (by decide) (by decide)).2.2.1 (by unfold FitsInt; decide),
    by unfold FitsInt; decide,
    ((matrixAdd_matrixSubtract_entries 2 [[1, 2], [3, 4]] [[5, 6], [7, 8]] (by decide)
      (by decide)).2.2 1 0 (by decide) (by decide)).2.2.2 (by unfold FitsInt; decide)⟩

theorem toLongLong_toLongLong (x : Int) : toLongLong (toLongLong x) = toLongLong x := by
  unfold toLongLong
  omega

theorem toLongLong_add_left (a b : Int) :
    toLongLong (toLongLong a + b) = toLongLong (a + b) := by
  unfold toLongLong
  omega

theorem forLoop_congr {σ : Type} (n : Nat) (b1 b2 : Nat → σ → σ)
    (h : ∀ k, k < n → ∀ s, b1 k s = b2 k s) (s : σ) : forLoop n b1 s = forLoop n b2 s := by
  induction n with
  | zero => rfl
  | succ m ih =>
    rw [forLoop_succ, forLoop_succ, ih (fun k hk => h k (by omega)), h m (by omega)]

/-- The accumulation of one row, up to the 64-bit wrap. -/
theorem rowLoop_wrap (row : List Int) (s : Int) :
    toLongLong (forLoop row.length (fun j sum => toLongLong (sum + row.getD j 0)) s)
      = toLongLong (s + row.sum) := by
  induction row using List.reverseRecOn generalizing s with
  | nil => simp [forLoop]
  | append_singleton l x ih =>
    rw [List.length_append, List.length_singleton, forLoop_succ]
    have hx : (l ++ [x]).getD l.length 0 = x := by
      simp [List.getD_eq_getElem?_getD]
    have hbody : forLoop l.length (fun j sum => toLongLong (sum + (l ++ [x]).getD j 0)) s
        = forLoop l.length (fun j sum => toLongLong (sum + l.getD j 0)) s := by
      apply forLoop_congr
      intro k hk t
      rw [List.getD_append _ _ _ _ hk]
    rw [hx, hbody, toLongLong_toLongLong, ← toLongLong_add_left, ih, toLongLong_add_left,
      List.sum_append, List.sum_singleton, add_assoc]

/-- The accumulation over all rows, up to the 64-bit wrap. -/
theorem sumOfMatrixEntries_wrap (M : Matrix) :
    toLongLong (sumOfMatrixEntries M) = toLongLong (matrixSum M) := by
  unfold sumOfMatrixEntries matrixSum
  induction M using List.reverseRecOn with
  | nil => simp [forLoop]
  | append_singleton l r ih =>
    rw [List.length_append, List.length_singleton, forLoop_succ]
    have hr : (l ++ [r]).getD l.length [] = r := by
      simp [List.getD_eq_getElem?_getD]
    have hbody : forLoop l.length (fun i sum =>
          forLoop ((l ++ [r]).getD i []).length
            (fun j sum => toLongLong (sum + getEntry (l ++ [r]) i j)) sum) 0
        = forLoop l.length (fun i sum =>
          forLoop (l.getD i []).length (fun j sum => toLongLong (sum + getEntry l i j)) sum)
            0 := by
      apply forLoop_congr
      intro k hk t
      unfold getEntry
      rw [List.getD_append _ _ _ _ hk]
    rw [hbody]
    unfold getEntry at ih ⊢
    rw [hr]
    rw [rowLoop_wrap r, ← toLongLong_add_left, ih, toLongLong_add_left, List.map_append,
      List.sum_append, List.map_singleton, List.sum_singleton]

/-- The accumulator always holds a value of type `long long`. -/
theorem sumOfMatrixEntries_wide (M : Matrix) :
    toLongLong (sumOfMatrixEntries M) = sumOfMatrixEntries M := by
  unfold sumOfMatrixEntries
  refine forLoop_invariant (fun s : Int => toLongLong s = s) _ ?_ _ _ rfl
  intro i s hs
  refine forLoop_invariant (fun s : Int => toLongLong s = s) _ ?_ _ _ hs
  intro j t _
  exact toLongLong_toLongLong _

/-- `sumOfMatrixEntries` returns the exact sum reduced to the `long long` range. -/
theorem sumOfMatrixEntries_eq (M : Matrix) :
    sumOfMatrixEntries M = toLongLong (matrixSum M) := by
  rw [← sumOfMatrixEntries_wide, sumOfMatrixEntries_wrap]

theorem list_sum_bounds (row : List Int) (h : ∀ x ∈ row, toInt x = x) :
    -(2147483648 * (row.length : Int)) ≤ row.sum ∧
      row.sum ≤ 2147483647 * (row.length : Int) := by
  induction row with
  | nil => simp
  | cons x t ih =>
    have hx := h x (List.mem_cons_self _ _)
    have hr := toInt_range x
    rw [hx] at hr
    have := ih (fun y hy => h y (List.mem_cons_of_mem _ hy))
    rw [List.sum_cons, List.length_cons]
    push_cast
    omega

theorem matrixSum_bounds (M : Matrix) (h : IntEntries M) :
    -(2147483648 * (entryCount M : Int)) ≤ matrixSum M ∧
      matrixSum M ≤ 2147483647 * (entryCount M : Int) := by
  unfold matrixSum entryCount
  induction M with
  | nil => simp
  | cons r t ih =>
    have hr := list_sum_bounds r (h r (List.mem_cons_self _ _))
    have := ih (fun row hrow => h row (List.mem_cons_of_mem _ hrow))
    rw [List.map_cons, List.sum_cons, List.map_cons, List.sum_cons, Nat.cast_add]
    omega

/-- The claim C18 fails on the square matrix of size 65537 with every entry
`INT_MAX`: its entries are values of type `int`, and the exact sum of its
`65537 * 65537` entries does not fit the 64-bit accumulator, so the value
returned is not the exact sum. -/
theorem sumOfMatrixEntries_counterexample :
    IntEntries largeMatrix ∧ IsSquare 65537 largeMatrix ∧
    matrixSum largeMatrix = 9223653509683871743 ∧
    ¬ FitsLongLong (matrixSum largeMatrix) ∧
    sumOfMatrixEntries largeMatrix ≠ matrixSum largeMatrix := by
  have hsum : matrixSum largeMatrix = 9223653509683871743 := by
    unfold matrixSum largeMatrix
    simp only [List.map_replicate, List.sum_replicate, smul_eq_mul]
    norm_num
  refine ⟨?_, ?_, hsum, ?_, ?_⟩
  · intro row hrow x hx
    unfold largeMatrix at hrow
    rw [List.mem_replicate] at hrow
    rw [hrow.2, List.mem_replicate] at hx
    rw [hx.2]
    decide
  · refine ⟨by unfold largeMatrix; rw [List.length_replicate], ?_⟩
    intro row hrow
    unfold largeMatrix at hrow
    rw [List.mem_replicate] at hrow
    rw [hrow.2, List.length_replicate]
  · rw [hsum]
    unfold FitsLongLong
    omega
  · rw [sumOfMatrixEntries_eq, hsum]
    decide

/-- C18 (amended). For every matrix `M` of 32-bit integers with at most `2^32`
entries in all (any number of rows, zero included), `sumOfMatrixEntries M` is
the exact sum of all entries of `M`, a value of type `long long`; for the empty
matrix it is `0`. -/
theorem sumOfMatrixEntries_exact (M : Matrix) (hM : IntEntries M)
    (hcount : entryCount M ≤ 4294967296) :
    sumOfMatrixEntries M = matrixSum M ∧ FitsLongLong (sumOfMatrixEntries M) ∧
      sumOfMatrixEntries [] = 0 := by
  have hb := matrixSum_bounds M hM
  have hc : (entryCount M : Int) ≤ 4294967296 := by exact_mod_cast hcount
  have hfit : FitsLongLong (matrixSum M) := by
    unfold FitsLongLong
    omega
  have he : sumOfMatrixEntries M = matrixSum M := by
    rw [sumOfMatrixEntries_eq, toLongLong_of_fits hfit]
  exact ⟨he, he ▸ hfit, rfl⟩

theorem sumOfMatrixEntries_exact_witness :
    IntEntries [[19, 22], [43, 50]] ∧ entryCount [[19, 22], [43, 50]] ≤ 4294967296 ∧
    sumOfMatrixEntries [[19, 22], [43, 50]] = matrixSum [[19, 22], [43, 50]] ∧
    matrixSum [[19, 22], [43, 50]] = 134 :=
  ⟨by decide, by decide, (sumOfMatrixEntries_exact [[19, 22], [43, 50]] (by decide)
    (by decide)).1, by decide⟩

/-! ## Safety and termination of the recursion -/

theorem isSquare_matrixAdd_of {h : Nat} {X : Matrix} (Y : Matrix) (hX : IsSquare h X) :
    IsSquare h (matrixAdd X Y) := by
  have := isSquare_matrixAdd X Y
  rw [hX.1] at this
  exact this

theorem isSquare_matrixSubtract_of {h : Nat} {X : Matrix} (Y : Matrix) (hX : IsSquare h X) :
    IsSquare h (matrixSubtract X Y) := by
  have := isSquare_matrixSubtract X Y
  rw [hX.1] at this
  exact this

/-- On a size that halves evenly, every `split` of the recursion is on an
even-sized matrix. -/
theorem splitsEven_of_halvesEvenly {n : Nat} (hn : HalvesEvenly n) :
    ∀ A B : Matrix, IsSquare n A → IsSquare n B → SplitsEven A B := by
  induction hn with
  | small hle =>
    intro A B hA _
    exact SplitsEven.base (by rw [hA.1]; exact hle)
  | @half n hlt hev _ ih =>
    intro A B hA hB
    have evA : A.length % 2 = 0 := by rw [hA.1]; exact hev
    have evB : B.length % 2 = 0 := by rw [hB.1]; exact hev
    obtain ⟨A11, A12, A21, A22, sA, qA11, qA12, qA21, qA22, _⟩ := split_even evA
    obtain ⟨B11, B12, B21, B22, sB, qB11, qB12, qB21, qB22, _⟩ := split_even evB
    rw [hA.1] at qA11 qA12 qA21 qA22
    rw [hB.1] at qB11 qB12 qB21 qB22
    exact SplitsEven.step (by rw [hA.1]; exact hlt) evA evB sA sB
      (ih _ _ qA11 (isSquare_matrixSubtract_of _ qB12))
      (ih _ _ (isSquare_matrixAdd_of _ qA11) qB22)
      (ih _ _ (isSquare_matrixAdd_of _ qA21) qB11)
      (ih _ _ qA22 (isSquare_matrixSubtract_of _ qB21))
      (ih _ _ (isSquare_matrixAdd_of _ qA11) (isSquare_matrixAdd_of _ qB11))
      (ih _ _ (isSquare_matrixSubtract_of _ qA12) (isSquare_matrixAdd_of _ qB21))
      (ih _ _ (isSquare_matrixSubtract_of _ qA11) (isSquare_matrixAdd_of _ qB11))

/-- A run that only splits even-sized matrices returns a matrix. -/
theorem strassenMultiplyRecursive_of_splitsEven {A B : Matrix} (h : SplitsEven A B) :
    ∃ C, strassenMultiplyRecursive A B = some C := by
  induction h with
  | base hle => exact ⟨_, strassenMultiplyRecursive_small hle⟩
  | step hlt _ _ sA sB _ _ _ _ _ _ _ ih1 ih2 ih3 ih4 ih5 ih6 ih7 =>
    obtain ⟨P1, h1⟩ := ih1
    obtain ⟨P2, h2⟩ := ih2
    obtain ⟨P3, h3⟩ := ih3
    obtain ⟨P4, h4⟩ := ih4
    obtain ⟨P5, h5⟩ := ih5
    obtain ⟨P6, h6⟩ := ih6
    obtain ⟨P7, h7⟩ := ih7
    rw [strassenMultiplyRecursive_step hlt sA sB, h1, h2, h3, h4, h5, h6, h7]
    exact ⟨_, rfl⟩

/-- C22. For every `n ≥ 0` and all `n x n` matrices `A` and `B`,
`strassenMultiply A B` returns a matrix, never the odd-size error of `split`:
the matrices it hands to `strassenMultiplyRecursive` are square of size
`nextPowerOf2 n`, a power of two, and every matrix passed to `split` in the
recursion on them has even size. -/
theorem strassenMultiply_never_splits_odd (n : Nat) (A B : Matrix) (hA : IsSquare n A)
    (hB : IsSquare n B) :
    (∃ C, strassenMultiply A B = some C) ∧
      strassenMultiply A B
        = (strassenMultiplyRecursive (padMatrix A (nextPowerOf2 n).toNat)
            (padMatrix B (nextPowerOf2 n).toNat)).bind
          (fun paddedC => some (unpadMatrix paddedC n)) ∧
      (∃ k, (nextPowerOf2 n).toNat = 2 ^ k) ∧
      IsSquare (nextPowerOf2 n).toNat (padMatrix A (nextPowerOf2 n).toNat) ∧
      IsSquare (nextPowerOf2 n).toNat (padMatrix B (nextPowerOf2 n).toNat) ∧
      SplitsEven (padMatrix A (nextPowerOf2 n).toNat) (padMatrix B (nextPowerOf2 n).toNat) := by
  obtain ⟨hge, k, hk⟩ := nextPowerOf2_nat n
  have pA := isSquare_padMatrix hA hge
  have pB := isSquare_padMatrix hB hge
  have hs := splitsEven_of_halvesEvenly (hk ▸ halvesEvenly_two_pow k) _ _ pA pB
  have hdrv : strassenMultiply A B
      = (strassenMultiplyRecursive (padMatrix A (nextPowerOf2 n).toNat)
          (padMatrix B (nextPowerOf2 n).toNat)).bind
        (fun paddedC => some (unpadMatrix paddedC n)) := by
    unfold strassenMultiply
    simp only [hA.1]
    rfl
  refine ⟨?_, hdrv, ⟨k, hk⟩, pA, pB, hs⟩
  obtain ⟨C, hC⟩ := strassenMultiplyRecursive_of_splitsEven hs
  rw [hdrv, hC]
  exact ⟨_, rfl⟩

theorem strassenMultiply_never_splits_odd_witness :
    IsSquare 3 [[1, 2, 3], [4, 5, 6], [7, 8, 9]] ∧
      IsSquare 3 [[9, 8, 7], [6, 5, 4], [3, 2, 1]] ∧
      (∃ C, strassenMultiply [[1, 2, 3], [4, 5, 6], [7, 8, 9]]
        [[9, 8, 7], [6, 5, 4], [3, 2, 1]] = some C) ∧
      SplitsEven (padMatrix [[1, 2, 3], [4, 5, 6], [7, 8, 9]] (nextPowerOf2 (3 : Nat)).toNat)
        (padMatrix [[9, 8, 7], [6, 5, 4], [3, 2, 1]] (nextPowerOf2 (3 : Nat)).toNat) :=
  ⟨by decide, by decide,
    (strassenMultiply_never_splits_odd 3 [[1, 2, 3], [4, 5, 6], [7, 8, 9]]
      [[9, 8, 7], [6, 5, 4], [3, 2, 1]] (by decide) (by decide)).1,
    (strassenMultiply_never_splits_odd 3 [[1, 2, 3], [4, 5, 6], [7, 8, 9]]
      [[9, 8, 7], [6, 5, 4], [3, 2, 1]] (by decide) (by decide)).2.2.2.2.2⟩

theorem afterCall_some (r : Option Matrix) (rest : Matrix → Option (Option Matrix))
    (g : Matrix → Option Matrix) (h : ∀ P, rest P = some (g P)) :
    afterCall (some r) rest = some (r.bind g) := by
  cases r with
  | none => rfl
  | some P => exact h P

/-- Above the base case the recursive core throws when `split` throws on the
second matrix. -/
theorem strassenMultiplyRecursive_split_right {A B : Matrix}
    (h : 32 < A.length) (hB : split B = none) :
    strassenMultiplyRecursive A B = none := by
  rw [strassenMultiplyRecursive, dif_neg (by omega)]
  split
  · rfl
  · next a11 a12 a21 a22 h1 =>
    split
    · rfl
    · next b11 b12 b21 b22 h2 => rw [hB] at h2; cases h2

/-- With depth `d + 1` allowed, the recursion on a matrix of size at most
`32 * 2^d` ends, with the outcome of `strassenMultiplyRecursive`. -/
theorem strassenMultiplyRecursiveDepth_eq :
    ∀ (d : Nat) (A B : Matrix), A.length ≤ 32 * 2 ^ d →
      strassenMultiplyRecursiveDepth (d + 1) A B = some (strassenMultiplyRecursive A B) := by
  intro d
  induction d with
  | zero =>
    intro A B h
    have hle : A.length ≤ 32 := by simpa using h
    rw [strassenMultiplyRecursiveDepth, if_pos hle, strassenMultiplyRecursive_small hle]
  | succ d ih =>
    intro A B h
    rw [strassenMultiplyRecursiveDepth]
    by_cases hle : A.length ≤ 32
    · rw [if_pos hle, strassenMultiplyRecursive_small hle]
    · rw [if_neg hle]
      by_cases hodd : A.length % 2 ≠ 0
      · rw [split_odd hodd, strassenMultiplyRecursive_odd B (by omega) hodd]
      · obtain ⟨A11, A12, A21, A22, sA, qA11, qA12, qA21, qA22, _⟩ :=
          split_even (M := A) (by omega)
        rw [sA]
        simp only []
        cases sB : split B with
        | none =>
          rw [strassenMultiplyRecursive_split_right (by omega) sB]
        | some qB =>
          obtain ⟨B11, B12, B21, B22⟩ := qB
          simp only []
          have hhalf : A.length / 2 ≤ 32 * 2 ^ d := by
            rw [pow_succ] at h
            omega
          have l1 : A11.length ≤ 32 * 2 ^ d := by rw [qA11.1]; exact hhalf
          have l2 : (matrixAdd A11 A12).length ≤ 32 * 2 ^ d := by
            rw [matrixAdd_length, qA11.1]; exact hhalf
          have l3 : (matrixAdd A21 A22).length ≤ 32 * 2 ^ d := by
            rw [matrixAdd_length, qA21.1]; exact hhalf
          have l4 : A22.length ≤ 32 * 2 ^ d := by rw [qA22.1]; exact hhalf
          have l5 : (matrixAdd A11 A22).length ≤ 32 * 2 ^ d := by
            rw [matrixAdd_length, qA11.1]; exact hhalf
          have l6 : (matrixSubtract A12 A22).length ≤ 32 * 2 ^ d := by
            rw [matrixSubtract_length, qA12.1]; exact hhalf
          have l7 : (matrixSubtract A11 A21).length ≤ 32 * 2 ^ d := by
            rw [matrixSubtract_length, qA11.1]; exact hhalf
          rw [ih _ _ l1, ih _ _ l2, ih _ _ l3, ih _ _ l4, ih _ _ l5, ih _ _ l6, ih _ _ l7,
            strassenMultiplyRecursive_step (by omega) sA sB]
          apply afterCall_some
          intro P1
          apply afterCall_some
          intro P2
          apply afterCall_some
          intro P3
          apply afterCall_some
          intro P4
          apply afterCall_some
          intro P5
          apply afterCall_some
          intro P6
          apply afterCall_some
          intro P7
          rfl

/-- C24. On every pair of square matrices of equal size `n`, power of two or
not, `strassenMultiplyRecursive` terminates: run with no more than `d + 1`
nested calls, where `n ≤ 32 * 2^d` (so `d = n` is always enough), it ends with
its outcome; a size `n ≤ 32` returns through `bruteForce` with no further
call; an even size `n > 32` does make further calls; an odd size `n > 32` ends
with the error of `split`; and above the base case each of the seven recursive
calls is on square matrices of size `n / 2 < n`. -/
theorem strassenMultiplyRecursive_terminates (n : Nat) (A B : Matrix) (hA : IsSquare n A)
    (hB : IsSquare n B) :
    (∀ d, n ≤ 32 * 2 ^ d →
        strassenMultiplyRecursiveDepth (d + 1) A B = some (strassenMultiplyRecursive A B)) ∧
      strassenMultiplyRecursiveDepth (n + 1) A B = some (strassenMultiplyRecursive A B) ∧
      (n ≤ 32 → strassenMultiplyRecursiveDepth 1 A B = some (some (bruteForce A B))) ∧
      (32 < n → n % 2 = 0 → strassenMultiplyRecursiveDepth 1 A B = none) ∧
      (32 < n → n % 2 ≠ 0 → strassenMultiplyRecursive A B = none) ∧
      (32 < n → ∀ A11 A12 A21 A22 B11 B12 B21 B22 : Matrix,
        split A = some (A11, A12, A21, A22) → split B = some (B11, B12, B21, B22) →
        n / 2 < n ∧
        IsSquare (n / 2) A11 ∧ IsSquare (n / 2) (matrixSubtract B12 B22) ∧
        IsSquare (n / 2) (matrixAdd A11 A12) ∧ IsSquare (n / 2) B22 ∧
        IsSquare (n / 2) (matrixAdd A21 A22) ∧ IsSquare (n / 2) B11 ∧
        IsSquare (n / 2) A22 ∧ IsSquare (n / 2) (matrixSubtract B21 B11) ∧
        IsSquare (n / 2) (matrixAdd A11 A22) ∧ IsSquare (n / 2) (matrixAdd B11 B22) ∧
        IsSquare (n / 2) (matrixSubtract A12 A22) ∧ IsSquare (n / 2) (matrixAdd B21 B22) ∧
        IsSquare (n / 2) (matrixSubtract A11 A21) ∧ IsSquare (n / 2) (matrixAdd B11 B12)) := by
  have hpow : n ≤ 32 * 2 ^ n := by
    have := Nat.lt_two_pow n
    omega
  refine ⟨fun d hd => strassenMultiplyRecursiveDepth_eq d A B (by rw [hA.1]; exact hd),
    strassenMultiplyRecursiveDepth_eq n A B (by rw [hA.1]; exact hpow), ?_, ?_, ?_, ?_⟩
  · intro hle
    rw [strassenMultiplyRecursiveDepth, if_pos (by rw [hA.1]; exact hle)]
  · intro hlt hev
    obtain ⟨A11, A12, A21, A22, sA, _⟩ := split_even (M := A) (by rw [hA.1]; exact hev)
    obtain ⟨B11, B12, B21, B22, sB, _⟩ := split_even (M := B) (by rw [hB.1]; exact hev)
    rw [strassenMultiplyRecursiveDepth, if_neg (by rw [hA.1]; omega), sA, sB]
    rfl
  · intro hlt hodd
    exact strassenMultiplyRecursive_odd B (by rw [hA.1]; exact hlt) (by rw [hA.1]; exact hodd)
  · intro hlt A11 A12 A21 A22 B11 B12 B21 B22 sA sB
    have evA : A.length % 2 = 0 := by
      by_contra hne
      rw [split_odd hne] at sA
      cases sA
    have evB : B.length % 2 = 0 := by
      by_contra hne
      rw [split_odd hne] at sB
      cases sB
    obtain ⟨a11, a12, a21, a22, sA2, qA11, qA12, qA21, qA22, _⟩ := split_even evA
    obtain ⟨b11, b12, b21, b22, sB2, qB11, qB12, qB21, qB22, _⟩ := split_even evB
    rw [sA, Option.some.injEq, Prod.mk.injEq, Prod.mk.injEq, Prod.mk.injEq] at sA2
    rw [sB, Option.some.injEq, Prod.mk.injEq, Prod.mk.injEq, Prod.mk.injEq] at sB2
    obtain ⟨rfl, rfl, rfl, rfl⟩ := sA2
    obtain ⟨rfl, rfl, rfl, rfl⟩ := sB2
    rw [hA.1] at qA11 qA12 qA21 qA22
    rw [hB.1] at qB11 qB12 qB21 qB22
    exact ⟨by omega, qA11, isSquare_matrixSubtract_of _ qB12, isSquare_matrixAdd_of _ qA11,
      qB22, isSquare_matrixAdd_of _ qA21, qB11, qA22, isSquare_matrixSubtract_of _ qB21,
      isSquare_matrixAdd_of _ qA11, isSquare_matrixAdd_of _ qB11,
      isSquare_matrixSubtract_of _ qA12, isSquare_matrixAdd_of _ qB21,
      isSquare_matrixSubtract_of _ qA11, isSquare_matrixAdd_of _ qB11⟩

theorem isSquare_sample64 : IsSquare 64 sample64 := by
  refine ⟨by simp [sample64], ?_⟩
  intro row hrow
  simp only [sample64, List.mem_map] at hrow
  obtain ⟨i, _, rfl⟩ := hrow
  simp

theorem strassenMultiplyRecursive_terminates_witness :
    IsSquare 64 sample64 ∧ IsSquare 64 (identityMatrix 64) ∧
      strassenMultiplyRecursiveDepth 2 sample64 (identityMatrix 64)
        = some (strassenMultiplyRecursive sample64 (identityMatrix 64)) ∧
      strassenMultiplyRecursiveDepth 1 sample64 (identityMatrix 64) = none :=
  ⟨isSquare_sample64, isSquare_identityMatrix 64,
    (strassenMultiplyRecursive_terminates 64 sample64 (identityMatrix 64) isSquare_sample64
      (isSquare_identityMatrix 64)).1 1 (by decide),
    (strassenMultiplyRecursive_terminates 64 sample64 (identityMatrix 64) isSquare_sample64
      (isSquare_identityMatrix 64)).2.2.2.1 (by decide) (by decide)⟩

/-- On a size that does not halve evenly the recursive core throws: the
error of `split` comes from this call or from the first call below it. -/
theorem strassenMultiplyRecursive_none :
    ∀ (n : Nat), ¬ HalvesEvenly n → ∀ A B : Matrix, IsSquare n A → IsSquare n B →
      strassenMultiplyRecursive A B = none := by
  intro n
  induction n using Nat.strong_induction_on with
  | _ n ih =>
    intro hn A B hA hB
    have hlt : 32 < n := by
      by_contra hle
      exact hn (HalvesEvenly.small (by omega))
    by_cases hodd : n % 2 ≠ 0
    · exact strassenMultiplyRecursive_odd B (by rw [hA.1]; exact hlt) (by rw [hA.1]; exact hodd)
    · have hev : n % 2 = 0 := by omega
      have hhalf : ¬ HalvesEvenly (n / 2) := fun h => hn (HalvesEvenly.half hlt hev h)
      obtain ⟨A11, A12, A21, A22, sA, qA11, _⟩ := split_even (M := A) (by rw [hA.1]; exact hev)
      obtain ⟨B11, B12, B21, B22, sB, _, qB12, _⟩ :=
        split_even (M := B) (by rw [hB.1]; exact hev)
      rw [hA.1] at qA11
      rw [hB.1] at qB12
      rw [strassenMultiplyRecursive_step (by rw [hA.1]; exact hlt) sA sB,
        ih (n / 2) (by omega) hhalf A11 (matrixSubtract B12 B22) qA11
          (isSquare_matrixSubtract_of _ qB12)]
      rfl

/-- The sizes that halve evenly are the sizes `m * 2^k` with `m ≤ 32`. -/
theorem halvesEvenly_iff (n : Nat) :
    HalvesEvenly n ↔ ∃ m k, m ≤ 32 ∧ n = m * 2 ^ k := by
  constructor
  · intro h
    induction h with
    | small hle => exact ⟨_, 0, hle, by simp⟩
    | @half n _ hev _ ih =>
      obtain ⟨m, k, hm, hk⟩ := ih
      refine ⟨m, k + 1, hm, ?_⟩
      rw [pow_succ, ← Nat.mul_assoc, ← hk]
      omega
  · rintro ⟨m, k, hm, hk⟩
    induction k generalizing n with
    | zero => exact HalvesEvenly.small (by simpa [hk] using hm)
    | succ k ih =>
      by_cases hle : n ≤ 32
      · exact HalvesEvenly.small hle
      · have h2 : n = (m * 2 ^ k) * 2 := by rw [hk, pow_succ, Nat.mul_assoc]
        exact HalvesEvenly.half (by omega) (by omega) (ih (n / 2) (by omega))

theorem not_halvesEvenly_33 : ¬ HalvesEvenly 33 := by
  intro h
  cases h with
  | small hle => exact absurd hle (by decide)
  | half _ hev _ => exact absurd hev (by decide)

/-- C26. Called on `n x n` matrices `A` and `B` of any size `n`,
`strassenMultiplyRecursive` ends with the odd-size error of `split` exactly
when halving `n` while the size exceeds 32 reaches an odd size (as for
`n = 33` and for `n = 66`), and in every other case (every `n ≤ 32`, and for
instance `n = 48`) it returns `bruteForce A B`; the sizes of the second kind
are the sizes `m * 2^k` with `m ≤ 32`. -/
theorem strassenMultiplyRecursive_error_iff (n : Nat) (A B : Matrix) (hA : IsSquare n A)
    (hB : IsSquare n B) :
    (strassenMultiplyRecursive A B = none ↔ ¬ HalvesEvenly n) ∧
      (HalvesEvenly n → strassenMultiplyRecursive A B = some (bruteForce A B)) ∧
      (HalvesEvenly n ↔ ∃ m k, m ≤ 32 ∧ n = m * 2 ^ k) ∧
      (n ≤ 32 → HalvesEvenly n) ∧
      ¬ HalvesEvenly 33 ∧ ¬ HalvesEvenly 66 ∧ HalvesEvenly 48 := by
  refine ⟨⟨fun h hn => ?_, fun hn => strassenMultiplyRecursive_none n hn A B hA hB⟩,
    fun hn => strassenMultiplyRecursive_eq hn A B hA hB, halvesEvenly_iff n,
    HalvesEvenly.small, not_halvesEvenly_33, ?_, ?_⟩
  · rw [strassenMultiplyRecursive_eq hn A B hA hB] at h
    cases h
  · intro h
    cases h with
    | small hle => exact absurd hle (by decide)
    | half _ _ h33 => exact not_halvesEvenly_33 h33
  · exact HalvesEvenly.half (by decide) (by decide) (HalvesEvenly.small (by decide))

theorem strassenMultiplyRecursive_error_iff_witness :
    IsSquare 33 (zeroMatrix 33) ∧
      strassenMultiplyRecursive (zeroMatrix 33) (zeroMatrix 33) = none ∧
      IsSquare 48 (zeroMatrix 48) ∧
      strassenMultiplyRecursive (zeroMatrix 48) (zeroMatrix 48)
        = some (bruteForce (zeroMatrix 48) (zeroMatrix 48)) :=
  ⟨isSquare_zeroMatrix 33,
    (strassenMultiplyRecursive_error_iff 33 (zeroMatrix 33) (zeroMatrix 33)
      (isSquare_zeroMatrix 33) (isSquare_zeroMatrix 33)).1.2
      (strassenMultiplyRecursive_error_iff 33 (zeroMatrix 33) (zeroMatrix 33)
        (isSquare_zeroMatrix 33) (isSquare_zeroMatrix 33)).2.2.2.2.1,
    isSquare_zeroMatrix 48,
    (strassenMultiplyRecursive_error_iff 48 (zeroMatrix 48) (zeroMatrix 48)
      (isSquare_zeroMatrix 48) (isSquare_zeroMatrix 48)).2.1
      (strassenMultiplyRecursive_error_iff 48 (zeroMatrix 48) (zeroMatrix 48)
        (isSquare_zeroMatrix 48) (isSquare_zeroMatrix 48)).2.2.2.2.2.2⟩

theorem isSquare_overflowA : IsSquare 64 overflowA := by
  refine ⟨by simp [overflowA], ?_⟩
  intro row hrow
  simp only [overflowA, List.mem_map] at hrow
  obtain ⟨i, _, rfl⟩ := hrow
  simp

theorem isSquare_overflowB : IsSquare 64 overflowB := by
  refine ⟨by simp [overflowB], ?_⟩
  intro row hrow
  simp only [overflowB, List.mem_map] at hrow
  obtain ⟨i, _, rfl⟩ := hrow
  simp

theorem intEntries_overflowA : IntEntries overflowA := by
  intro row hrow x hx
  simp only [overflowA, List.mem_map] at hrow
  obtain ⟨i, _, rfl⟩ := hrow
  simp only [List.mem_map] at hx
  obtain ⟨j, _, rfl⟩ := hx
  split <;> decide

theorem intEntries_overflowB : IntEntries overflowB := by
  intro row hrow x hx
  simp only [overflowB, List.mem_map] at hrow
  obtain ⟨i, _, rfl⟩ := hrow
  simp only [List.mem_map] at hx
  obtain ⟨j, _, rfl⟩ := hx
  split <;> decide

theorem getEntry_overflowA {i j : Nat} (hi : i < 64) (hj : j < 64) :
    getEntry overflowA i j = if i = 32 ∧ j = 32 then 32768 else 0 := by
  unfold getEntry overflowA
  simp [List.getD_eq_getElem?_getD, hi, hj]

theorem getEntry_overflowB {i j : Nat} (hi : i < 64) (hj : j < 64) :
    getEntry overflowB i j = if i = 32 ∧ (j = 0 ∨ j = 32) then 32768 else 0 := by
  unfold getEntry overflowB
  simp [List.getD_eq_getElem?_getD, hi, hj]

/-- The exact product of `overflowA` and `overflowB`: `2^30` at `(32, 0)` and
`(32, 32)`, zero elsewhere. -/
theorem exactEntry_overflow {i j : Nat} (hi : i < 64) (hj : j < 64) :
    exactEntry 64 overflowA overflowB i j
      = if i = 32 ∧ (j = 0 ∨ j = 32) then 1073741824 else 0 := by
  unfold exactEntry
  rw [Finset.sum_eq_single 32]
  · rw [getEntry_overflowA hi (by decide), getEntry_overflowB (by decide) hj]
    by_cases h1 : i = 32
    · by_cases h2 : j = 0 ∨ j = 32
      · simp [h1, h2]
      · simp [h1, h2]
    · simp [h1]
  · intro k hk hne
    rw [getEntry_overflowA hi (Finset.mem_range.1 hk)]
    simp [hne]
  · intro h
    exact absurd (Finset.mem_range.2 (by decide)) h

/-- The sub-products `P4` and `P5` of the top call on `overflowA`, `overflowB`
both have the entry `2^30` at `(0, 0)`. -/
theorem overflow_sub_products :
    ∃ A11 A12 A21 A22 B11 B12 B21 B22 P4 P5 : Matrix,
      split overflowA = some (A11, A12, A21, A22) ∧
      split overflowB = some (B11, B12, B21, B22) ∧
      strassenMultiplyRecursive A22 (matrixSubtract B21 B11) = some P4 ∧
      strassenMultiplyRecursive (matrixAdd A11 A22) (matrixAdd B11 B22) = some P5 ∧
      P4.length = 32 ∧ P5.length = 32 ∧
      getEntry P4 0 0 = 1073741824 ∧ getEntry P5 0 0 = 1073741824 := by
  have lA : overflowA.length = 64 := isSquare_overflowA.1
  have lB : overflowB.length = 64 := isSquare_overflowB.1
  obtain ⟨A11, A12, A21, A22, sA, qA11, qA12, qA21, qA22, eA⟩ :=
    split_even (M := overflowA) (by rw [lA])
  obtain ⟨B11, B12, B21, B22, sB, qB11, qB12, qB21, qB22, eB⟩ :=
    split_even (M := overflowB) (by rw [lB])
  rw [lA] at qA11 qA12 qA21 qA22 eA
  rw [lB] at qB11 qB12 qB21 qB22 eB
  norm_num at qA11 qA12 qA21 qA22 eA qB11 qB12 qB21 qB22 eB
  have l5 : (matrixAdd A11 A22).length = 32 := by rw [matrixAdd_length, qA11.1]
  refine ⟨A11, A12, A21, A22, B11, B12, B21, B22, _, _, sA, sB,
    strassenMultiplyRecursive_small (by rw [qA22.1]),
    strassenMultiplyRecursive_small (by rw [l5]),
    by rw [(isSquare_bruteForce _ _).1, qA22.1],
    by rw [(isSquare_bruteForce _ _).1, l5], ?_, ?_⟩
  · rw [getEntry_bruteForce_exact _ _ (by rw [qA22.1]; decide) (by rw [qA22.1]; decide),
      qA22.1]
    unfold exactEntry
    rw [Finset.sum_eq_single 0]
    · rw [(eA 0 0 (by decide) (by decide)).2.2.2,
        getEntry_matrixSubtract _ _ (by rw [qB21.1]; decide) (by rw [qB21.1]; decide),
        (eB 0 0 (by decide) (by decide)).2.2.1, (eB 0 0 (by decide) (by decide)).1,
        getEntry_overflowA (by decide) (by decide), getEntry_overflowB (by decide) (by decide),
        getEntry_overflowB (by decide) (by decide)]
      decide
    · intro k hk hne
      have hk2 : k < 32 := Finset.mem_range.1 hk
      rw [(eA 0 k (by decide) hk2).2.2.2, getEntry_overflowA (by decide) (by omega),
        if_neg (by omega), zero_mul]
    · intro h
      exact absurd (Finset.mem_range.2 (by decide)) h
  · rw [getEntry_bruteForce_exact _ _ (by rw [l5]; decide) (by rw [l5]; decide), l5]
    unfold exactEntry
    rw [Finset.sum_eq_single 0]
    · rw [getEntry_matrixAdd _ _ (by rw [qA11.1]; decide) (by rw [qA11.1]; decide),
        getEntry_matrixAdd _ _ (by rw [qB11.1]; decide) (by rw [qB11.1]; decide),
        (eA 0 0 (by decide) (by decide)).2.2.2, (eA 0 0 (by decide) (by decide)).1,
        (eB 0 0 (by decide) (by decide)).2.2.2, (eB 0 0 (by decide) (by decide)).1,
        getEntry_overflowA (by decide) (by decide), getEntry_overflowA (by decide) (by decide),
        getEntry_overflowB (by decide) (by decide), getEntry_overflowB (by decide) (by decide)]
      decide
    · intro k hk hne
      have hk2 : k < 32 := Finset.mem_range.1 hk
      rw [getEntry_matrixAdd _ _ (by rw [qA11.1]; decide) (by rw [qA11.1]; exact hk2),
        (eA 0 k (by decide) hk2).2.2.2, (eA 0 k (by decide) hk2).1,
        getEntry_overflowA (by decide) (by omega), getEntry_overflowA (by decide) (by omega),
        if_neg (by omega), if_neg (by omega)]
      simp [toInt]
    · intro h
      exact absurd (Finset.mem_range.2 (by decide)) h

/-- C23. There are two 64 x 64 matrices `A` and `B` with all entries in the
signed 32-bit range, whose exact product has all entries in the signed 32-bit
range, for which a sum of already-computed sub-products of
`strassenMultiplyRecursive` leaves that range over the integers: the entry
`(0, 0)` of `P5 + P4` in the computation of `C11` is `2^30 + 2^30 = 2^31`, and
`matrixAdd` stores `-2^31`. -/
theorem strassen_intermediate_sum_overflows :
    ∃ A B : Matrix, IsSquare 64 A ∧ IsSquare 64 B ∧ IntEntries A ∧ IntEntries B ∧
      (∀ i j, i < 64 → j < 64 → FitsInt (exactEntry 64 A B i j)) ∧
      ∃ A11 A12 A21 A22 B11 B12 B21 B22 P4 P5 : Matrix,
        split A = some (A11, A12, A21, A22) ∧ split B = some (B11, B12, B21, B22) ∧
        strassenMultiplyRecursive A22 (matrixSubtract B21 B11) = some P4 ∧
        strassenMultiplyRecursive (matrixAdd A11 A22) (matrixAdd B11 B22) = some P5 ∧
        FitsInt (getEntry P5 0 0) ∧ FitsInt (getEntry P4 0 0) ∧
        getEntry P5 0 0 + getEntry P4 0 0 = 2147483648 ∧
        ¬ FitsInt (getEntry P5 0 0 + getEntry P4 0 0) ∧
        getEntry (matrixAdd P5 P4) 0 0 = -2147483648 := by
  obtain ⟨A11, A12, A21, A22, B11, B12, B21, B22, P4, P5, sA, sB, h4, h5, l4, l5, e4, e5⟩ :=
    overflow_sub_products
  refine ⟨overflowA, overflowB, isSquare_overflowA, isSquare_overflowB, intEntries_overflowA,
    intEntries_overflowB, ?_, A11, A12, A21, A22, B11, B12, B21, B22, P4, P5, sA, sB, h4, h5,
    ?_, ?_, ?_, ?_, ?_⟩
  · intro i j hi hj
    rw [exactEntry_overflow hi hj]
    unfold FitsInt
    split <;> decide
  · rw [e5]; unfold FitsInt; decide
  · rw [e4]; unfold FitsInt; decide
  · rw [e4, e5]; rfl
  · rw [e4, e5]; unfold FitsInt; decide
  · rw [getEntry_matrixAdd _ _ (by rw [l5]; decide) (by rw [l5]; decide), e4, e5]
    decide

end Strassen

/-! ## Deterministic selection: proofs -/

namespace Selection

open Strassen

theorem readAt_nonneg (a : List Int) {i : Int} (hi : 0 ≤ i) :
    readAt a i = a.getD i.toNat 0 := by
  unfold readAt
  rw [if_neg (by omega)]

theorem length_writeAt (a : List Int) (i v : Int) : (writeAt a i v).length = a.length := by
  unfold writeAt
  split
  · rfl
  · rw [List.length_set]

theorem readAt_writeAt (a : List Int) {i : Int} (hi : 0 ≤ i) (hi2 : i < a.length) (v j : Int) :
    readAt (writeAt a i v) j = if j = i then v else readAt a j := by
  unfold readAt writeAt
  rw [if_neg (show ¬ i < 0 by omega)]
  by_cases hj : j < 0
  · rw [if_pos hj, if_pos hj, if_neg (show ¬ j = i by omega)]
  · rw [if_neg hj, if_neg hj, List.getD_eq_getElem?_getD, List.getElem?_set]
    by_cases e : j = i
    · subst e
      rw [if_pos rfl, if_pos rfl, if_pos (by omega)]
      rfl
    · rw [if_neg (by omega), if_neg e, List.getD_eq_getElem?_getD]

theorem writeAt_readAt_self (a : List Int) (i : Int) : writeAt a i (readAt a i) = a := by
  unfold writeAt readAt
  by_cases hi : i < 0
  · rw [if_pos hi]
  · rw [if_neg hi, if_neg hi]
    apply List.ext_getElem? 
    intro n
    rw [List.getElem?_set]
    by_cases e : i.toNat = n
    · subst e
      rw [if_pos rfl]
      by_cases hl : i.toNat < a.length
      · rw [if_pos hl]
        simp [List.getD_eq_getElem?_getD, hl]
      · rw [if_neg hl, List.getElem?_eq_none (by omega)]
    · rw [if_neg e]

theorem length_swapAt (a : List Int) (i j : Int) : (swapAt a i j).length = a.length := by
  unfold swapAt
  rw [length_writeAt, length_writeAt]

theorem readAt_swapAt (a : List Int) {i j : Int} (hi : 0 ≤ i) (hi2 : i < a.length)
    (hj : 0 ≤ j) (hj2 : j < a.length) (x : Int) :
    readAt (swapAt a i j) x
      = if x = j then readAt a i else if x = i then readAt a j else readAt a x := by
  unfold swapAt
  rw [readAt_writeAt _ hj (by rw [length_writeAt]; exact hj2), readAt_writeAt _ hi hi2]

theorem count_le_of_getElem (l : List Int) (v : Int) {i : Nat} (h : i < l.length)
    (e : l[i] = v) : 1 ≤ l.count v := by
  have : v ∈ l := e ▸ List.getElem_mem h
  exact List.count_pos_iff.2 this

theorem perm_set_set (l : List Int) {i j : Nat} (hi : i < l.length) (hj : j < l.length) :
    ((l.set i l[j]).set j l[i]).Perm l := by
  rw [List.perm_iff_count]
  intro v
  have hj2 : j < (l.set i l[j]).length := by rw [List.length_set]; exact hj
  rw [List.count_set _ _ _ _ hj2, List.count_set _ _ _ _ hi]
  have e : (l.set i l[j])[j] = l[j] := by
    rw [List.getElem_set]
    split
    · rfl
    · rfl
  rw [e]
  have h1 := count_le_of_getElem l v hi
  by_cases c1 : l[i] = v <;> by_cases c2 : l[j] = v <;> simp [c1, c2] <;> omega

theorem perm_swapAt (a : List Int) {i j : Int} (hi : 0 ≤ i) (hi2 : i < a.length)
    (hj : 0 ≤ j) (hj2 : j < a.length) : (swapAt a i j).Perm a := by
  have h1 : i.toNat < a.length := by omega
  have h2 : j.toNat < a.length := by omega
  have e : swapAt a i j = (a.set i.toNat a[j.toNat]).set j.toNat a[i.toNat] := by
    unfold swapAt writeAt readAt
    have n1 : ¬ i < 0 := by omega
    have n2 : ¬ j < 0 := by omega
    simp [List.getD_eq_getElem?_getD, h1, h2, n1, n2]
  rw [e]
  exact perm_set_set a h1 h2

theorem RangePerm.refl (l r : Int) (a : List Int) : RangePerm l r a a :=
  ⟨List.Perm.refl a, fun _ _ => rfl⟩

theorem RangePerm.trans {l r : Int} {a b c : List Int} (h1 : RangePerm l r a b)
    (h2 : RangePerm l r b c) : RangePerm l r a c :=
  ⟨h1.1.trans h2.1, fun i hi => (h1.2 i hi).trans (h2.2 i hi)⟩

theorem RangePerm.mono {l r l2 r2 : Int} {a b : List Int} (h : RangePerm l r a b)
    (hl : l2 ≤ l) (hr : r ≤ r2) : RangePerm l2 r2 a b :=
  ⟨h.1, fun i hi => h.2 i (by omega)⟩

theorem RangePerm.length_eq {l r : Int} {a b : List Int} (h : RangePerm l r a b) :
    b.length = a.length := h.1.length_eq.symm

theorem rangePerm_swapAt (a : List Int) {l r i j : Int} (hl : 0 ≤ l) (hr : r < a.length)
    (hi : l ≤ i) (hi2 : i ≤ r) (hj : l ≤ j) (hj2 : j ≤ r) :
    RangePerm l r a (swapAt a i j) := by
  refine ⟨(perm_swapAt a (by omega) (by omega) (by omega) (by omega)).symm, ?_⟩
  intro x hx
  rw [readAt_swapAt a (by omega) (by omega) (by omega) (by omega), if_neg (by omega),
    if_neg (by omega)]

theorem length_segment (a : List Int) (l : Int) (len : Nat) :
    (segment a l len).length = len := by
  simp [segment]

theorem mem_segment (a : List Int) (l : Int) (len : Nat) (x : Int) :
    x ∈ segment a l len ↔ ∃ t : Nat, t < len ∧ readAt a (l + (t : Int)) = x := by
  simp [segment]

theorem segment_add (a : List Int) (l : Int) (m n : Nat) :
    segment a l (m + n) = segment a l m ++ segment a (l + (m : Int)) n := by
  unfold segment
  rw [List.range_add, List.map_append, List.map_map]
  congr 1
  apply List.map_congr_left
  intro t _
  simp only [Function.comp]
  congr 1
  push_cast
  omega

theorem segment_congr (a b : List Int) (l : Int) (len : Nat)
    (h : ∀ t : Nat, t < len → readAt a (l + (t : Int)) = readAt b (l + (t : Int))) :
    segment a l len = segment b l len := by
  unfold segment
  apply List.map_congr_left
  intro t ht
  exact h t (List.mem_range.1 ht)

theorem segment_full (a : List Int) : segment a 0 a.length = a := by
  apply List.ext_getElem (by rw [length_segment])
  intro n h1 h2
  simp [segment, readAt, List.getD_eq_getElem?_getD, h2]

theorem getD_segment (a : List Int) (l : Int) (len : Nat) {t : Nat} (ht : t < len) :
    (segment a l len).getD t 0 = readAt a (l + (t : Int)) := by
  simp [segment, List.getD_eq_getElem?_getD, ht]

/-- A rearrangement inside `[l, r]` permutes the elements at `[l, r]`. -/
theorem RangePerm.segment_perm {l r : Int} {a b : List Int} (h : RangePerm l r a b)
    (hl : 0 ≤ l) (hr : r < a.length) (hlr : l ≤ r + 1) :
    (segment a l (r - l + 1).toNat).Perm (segment b l (r - l + 1).toNat) := by
  have hlen := h.length_eq
  have e : a.length = l.toNat + (r - l + 1).toNat + (a.length - (r + 1)).toNat := by omega
  have da : a = segment a 0 l.toNat ++ segment a l (r - l + 1).toNat
      ++ segment a (r + 1) ((a.length : Int) - (r + 1)).toNat := by
    have := segment_full a
    rw [e, segment_add, segment_add] at this
    rw [show (0 : Int) + (l.toNat : Int) = l by omega,
      show (0 : Int) + ((l.toNat + (r - l + 1).toNat : Nat) : Int) = r + 1 by omega] at this
    exact this.symm
  have db : b = segment b 0 l.toNat ++ segment b l (r - l + 1).toNat
      ++ segment b (r + 1) ((a.length : Int) - (r + 1)).toNat := by
    have := segment_full b
    rw [hlen, e, segment_add, segment_add] at this
    rw [show (0 : Int) + (l.toNat : Int) = l by omega,
      show (0 : Int) + ((l.toNat + (r - l + 1).toNat : Nat) : Int) = r + 1 by omega] at this
    exact this.symm
  have p1 : segment a 0 l.toNat = segment b 0 l.toNat :=
    segment_congr a b 0 _ (fun t ht => h.2 _ (by omega))
  have p3 : segment a (r + 1) ((a.length : Int) - (r + 1)).toNat
      = segment b (r + 1) ((a.length : Int) - (r + 1)).toNat :=
    segment_congr a b (r + 1) _ (fun t _ => h.2 _ (by omega))
  have hp := h.1
  rw [da, db, p1, p3] at hp
  exact (List.perm_append_left_iff _).1 ((List.perm_append_right_iff _).1 hp)

theorem forLoop_induct {σ : Type} (Inv : Nat → σ → Prop) (n : Nat) (body : Nat → σ → σ)
    (s : σ) (h0 : Inv 0 s) (hstep : ∀ t x, t < n → Inv t x → Inv (t + 1) (body t x)) :
    Inv n (forLoop n body s) := by
  have key : ∀ m, m ≤ n → Inv m (forLoop m body s) := by
    intro m
    induction m with
    | zero => intro _; exact h0
    | succ q ih =>
      intro hq
      rw [forLoop_succ]
      exact hstep q _ (by omega) (ih (by omega))
  exact key n (Nat.le_refl n)

theorem ext_readAt {a b : List Int} (hlen : a.length = b.length)
    (h : ∀ i : Int, 0 ≤ i → i < a.length → readAt a i = readAt b i) : a = b := by
  apply List.ext_getElem hlen
  intro n h1 h2
  have := h n (by omega) (by omega)
  rw [readAt_nonneg _ (by omega), readAt_nonneg _ (by omega)] at this
  simpa [List.getD_eq_getElem?_getD, h1, h2] using this

/-- One shift of `insertion_sort`, seen with the key put in the hole, is a
swap of two neighbours. -/
theorem shift_eq_swap (arr : List Int) (key : Int) {j : Int} (hj : 0 ≤ j)
    (hj2 : j + 1 < arr.length) :
    writeAt (writeAt arr (j + 1) (readAt arr j)) j key
      = swapAt (writeAt arr (j + 1) key) j (j + 1) := by
  apply ext_readAt (by rw [length_writeAt, length_writeAt, length_swapAt, length_writeAt])
  intro x _ _
  rw [readAt_writeAt _ hj (by rw [length_writeAt]; omega),
    readAt_writeAt _ (by omega) hj2,
    readAt_swapAt _ hj (by rw [length_writeAt]; omega) (by omega)
      (by rw [length_writeAt]; omega),
    readAt_writeAt _ (by omega) hj2, readAt_writeAt _ (by omega) hj2,
    readAt_writeAt _ (by omega) hj2]
  by_cases e1 : x = j
  · subst e1
    rw [if_pos rfl, if_neg (by omega), if_pos rfl, if_pos rfl]
  · by_cases e2 : x = j + 1
    · subst e2
      rw [if_neg e1, if_pos rfl, if_pos rfl, if_neg (by omega)]
    · rw [if_neg e1, if_neg e2, if_neg e2, if_neg e1, if_neg e2]

/-- The shifting loop, seen with the key put in the hole, only rearranges the
elements at `[left, j + 1]`; it stops at an index in `[left - 1, j]`. -/
theorem shiftLoop_spec (left key : Int) (hl : 0 ≤ left) :
    ∀ (fuel : Nat) (arr : List Int) (j : Int), left - 1 ≤ j → j + 1 < arr.length →
      j + 1 ≤ 2147483647 →
      RangePerm left (j + 1) (writeAt arr (j + 1) key)
        (writeAt (shiftLoop left key fuel arr j).1 ((shiftLoop left key fuel arr j).2 + 1) key) ∧
      left - 1 ≤ (shiftLoop left key fuel arr j).2 ∧ (shiftLoop left key fuel arr j).2 ≤ j := by
  intro fuel
  induction fuel with
  | zero =>
    intro arr j hj _ _
    exact ⟨RangePerm.refl _ _ _, hj, le_refl _⟩
  | succ f ih =>
    intro arr j hj hj2 hmax
    rw [shiftLoop]
    by_cases hc : j ≥ left ∧ readAt arr j > key
    · rw [if_pos hc, toInt_of_range (show -2147483648 ≤ j + 1 by omega) (by omega),
        toInt_of_range (show -2147483648 ≤ j - 1 by omega) (by omega)]
      obtain ⟨h1, h3, h4⟩ := ih (writeAt arr (j + 1) (readAt arr j)) (j - 1) (by omega)
        (by rw [length_writeAt]; omega) (by omega)
      rw [show j - 1 + 1 = j by omega, shift_eq_swap arr key (by omega) hj2] at h1
      have h2 : RangePerm left (j + 1) (writeAt arr (j + 1) key)
          (swapAt (writeAt arr (j + 1) key) j (j + 1)) :=
        rangePerm_swapAt _ hl (by rw [length_writeAt]; omega) hc.1 (by omega) (by omega)
          (le_refl _)
      exact ⟨h2.trans (h1.mono (le_refl _) (by omega)), h3, by omega⟩
    · rw [if_neg hc]
      exact ⟨RangePerm.refl _ _ _, hj, le_refl _⟩

/-- The shifting loop started with `fuel = j - left + 1` stops because its
condition fails, never for lack of fuel. -/
theorem shiftLoop_exit (left key : Int) :
    ∀ (fuel : Nat) (arr : List Int) (j : Int), left - 1 ≤ j → j ≤ 2147483646 →
      -2147483647 ≤ left → j - left + 1 ≤ (fuel : Int) →
      ¬ ((shiftLoop left key fuel arr j).2 ≥ left ∧
        readAt (shiftLoop left key fuel arr j).1 (shiftLoop left key fuel arr j).2 > key) := by
  intro fuel
  induction fuel with
  | zero =>
    intro arr j hj _ _ hf
    rw [shiftLoop]
    intro h
    have := h.1
    simp only [] at this
    omega
  | succ f ih =>
    intro arr j hj hmax hmin hf
    rw [shiftLoop]
    by_cases hc : j ≥ left ∧ readAt arr j > key
    · rw [if_pos hc, toInt_of_range (show -2147483648 ≤ j + 1 by omega) (by omega),
        toInt_of_range (show -2147483648 ≤ j - 1 by omega) (by omega)]
      exact ih _ (j - 1) (by omega) (by omega) hmin (by push_cast at hf; omega)
    · rw [if_neg hc]
      exact hc

/-- `insertion_sort` only rearranges the elements at `[left, right]`. -/
theorem insertion_sort_rangePerm (arr : List Int) {left right : Int} (hl : 0 ≤ left)
    (hlr : left ≤ right) (hr : right < arr.length) (hmax : right ≤ 2147483646) :
    RangePerm left right arr (insertion_sort arr left right) := by
  unfold insertion_sort forInt
  rw [toInt_of_range (show -2147483648 ≤ left + 1 by omega) (by omega)]
  apply forLoop_induct (fun _ x => RangePerm left right arr x)
  · exact RangePerm.refl _ _ _
  · intro t x ht hx
    have hlen : x.length = arr.length := hx.length_eq
    simp only []
    rw [toInt_of_range (show -2147483648 ≤ left + 1 + (t : Int) - 1 by omega) (by omega)]
    obtain ⟨hs, hs2, hs3⟩ := shiftLoop_spec left (readAt x (left + 1 + (t : Int))) hl
      (left + 1 + (t : Int) - 1 - left + 1).toNat x (left + 1 + (t : Int) - 1) (by omega)
      (by omega) (by omega)
    rw [toInt_of_range (by omega) (by omega)]
    rw [show left + 1 + (t : Int) - 1 + 1 = left + 1 + (t : Int) by omega,
      writeAt_readAt_self] at hs
    exact hx.trans (hs.mono (le_refl _) (by omega))

theorem mem_segment_of_index (a : List Int) {l r x : Int} (h1 : l ≤ x) (h2 : x ≤ r) :
    readAt a x ∈ segment a l (r - l + 1).toNat := by
  rw [mem_segment]
  exact ⟨(x - l).toNat, by omega, by rw [show l + ((x - l).toNat : Int) = x by omega]⟩

theorem index_of_mem_segment (a : List Int) {l r v : Int}
    (h : v ∈ segment a l (r - l + 1).toNat) : ∃ x, l ≤ x ∧ x ≤ r ∧ readAt a x = v := by
  rw [mem_segment] at h
  obtain ⟨t, ht, hv⟩ := h
  exact ⟨l + (t : Int), by omega, by omega, hv⟩

/-- `find_and_move_median` only rearranges the elements at `[left, right]`, and
the value it returns is one of them. -/
theorem find_and_move_median_spec (arr : List Int) {left right : Int} (hl : 0 ≤ left)
    (hlr : left ≤ right) (hr : right < arr.length) (hmax : right ≤ 2147483646) :
    RangePerm left right arr (find_and_move_median arr left right).1 ∧
      (find_and_move_median arr left right).2
        ∈ segment (find_and_move_median arr left right).1 left (right - left + 1).toNat := by
  unfold find_and_move_median
  refine ⟨insertion_sort_rangePerm arr hl hlr hr hmax, ?_⟩
  have e : (right - left).tdiv 2 = (right - left) / 2 :=
    Int.tdiv_eq_ediv (by omega) (by omega)
  simp only []
  rw [toInt_of_range (show -2147483648 ≤ right - left by omega) (by omega), e,
    toInt_of_range (show -2147483648 ≤ left + (right - left) / 2 by omega) (by omega)]
  exact mem_segment_of_index _ (by omega) (by omega)

/-- The loop over the groups only rearranges the elements at `[left, right]`;
it collects one median per group, each an element at `[left, right]`. -/
theorem groupMedians_spec (arr : List Int) {left right g : Int} (hl : 0 ≤ left)
    (hlr : left ≤ right) (hr : right < arr.length) (hmax : right ≤ 2147483643)
    (hg : g * 5 ≤ right - left + 1 + 4) :
    RangePerm left right arr (groupMedians arr left right g).1 ∧
      (groupMedians arr left right g).2.length = g.toNat ∧
      ∀ x ∈ (groupMedians arr left right g).2,
        x ∈ segment (groupMedians arr left right g).1 left (right - left + 1).toNat := by
  unfold groupMedians forInt
  rw [show (g - 0).toNat = g.toNat by omega]
  apply forLoop_induct (fun t (s : List Int × List Int) =>
    RangePerm left right arr s.1 ∧ s.2.length = t ∧
      ∀ x ∈ s.2, x ∈ segment s.1 left (right - left + 1).toNat)
  · exact ⟨RangePerm.refl _ _ _, rfl, fun x hx => by cases hx⟩
  · intro t s ht ⟨h1, h2, h3⟩
    have hlen : s.1.length = arr.length := h1.length_eq
    have hgs : left + (0 + (t : Int)) * 5 ≤ right := by omega
    simp only []
    rw [toInt_of_range (show -2147483648 ≤ (0 + (t : Int)) * 5 by omega) (by omega),
      toInt_of_range (show -2147483648 ≤ left + (0 + (t : Int)) * 5 by omega) (by omega),
      toInt_of_range (show -2147483648 ≤ left + (0 + (t : Int)) * 5 + 4 by omega) (by omega)]
    have hge1 : left + (0 + (t : Int)) * 5 ≤ min (left + (0 + (t : Int)) * 5 + 4) right := by
      omega
    have hge2 : min (left + (0 + (t : Int)) * 5 + 4) right ≤ right := by omega
    obtain ⟨f1, f2⟩ := find_and_move_median_spec s.1 (show 0 ≤ left + (0 + (t : Int)) * 5 by omega)
      hge1 (by omega) (by omega)
    have f3 := f1.mono (show left ≤ left + (0 + (t : Int)) * 5 by omega) hge2
    refine ⟨h1.trans f3, by simp [h2], ?_⟩
    intro x hx
    rw [List.mem_append, List.mem_singleton] at hx
    rcases hx with hx | hx
    · exact (f3.segment_perm hl (by omega) (by omega)).mem_iff.1 (h3 x hx)
    · rw [hx]
      obtain ⟨y, hy1, hy2, hy3⟩ := index_of_mem_segment _ f2
      rw [← hy3]
      exact mem_segment_of_index _ (by omega) (by omega)

theorem findPivotIdx_spec (arr : List Int) (right pv : Int) (hmax : right ≤ 2147483646) :
    ∀ (fuel : Nat) (idx : Int), 0 ≤ idx → idx + (fuel : Int) = right + 1 →
      (∃ x, idx ≤ x ∧ x ≤ right ∧ readAt arr x = pv) →
      idx ≤ findPivotIdx arr right pv fuel idx ∧ findPivotIdx arr right pv fuel idx ≤ right ∧
        readAt arr (findPivotIdx arr right pv fuel idx) = pv := by
  intro fuel
  induction fuel with
  | zero =>
    rintro idx _ hf ⟨x, h1, h2, _⟩
    omega
  | succ f ih =>
    rintro idx h0 hf ⟨x, h1, h2, h3⟩
    rw [findPivotIdx, if_pos (by omega)]
    by_cases hc : readAt arr idx = pv
    · rw [if_pos hc]
      exact ⟨le_refl _, by omega, hc⟩
    · rw [if_neg hc, toInt_of_range (show -2147483648 ≤ idx + 1 by omega) (by omega)]
      have hx : idx ≠ x := fun e => hc (e ▸ h3)
      obtain ⟨i1, i2, i3⟩ := ih (idx + 1) (by omega) (by push_cast at hf; omega)
        ⟨x, by omega, h2, h3⟩
      exact ⟨by omega, i2, i3⟩

/-- The scan of `partition` (Lomuto) keeps `ScanState`. -/
theorem partition_scan (a : List Int) {left right pv : Int} (hl : 0 ≤ left)
    (hlr : left ≤ right) (hr : right < a.length) (hmax : right ≤ 2147483646)
    (hpv : readAt a right = pv) :
    ScanState left right pv a (right - left).toNat
      (forInt left right (fun j (s : List Int × Int) =>
        if readAt s.1 j ≤ pv then (swapAt s.1 (toInt (s.2 + 1)) j, toInt (s.2 + 1)) else s)
        (a, toInt (left - 1))) := by
  unfold forInt
  rw [toInt_of_range (show -2147483648 ≤ left - 1 by omega) (by omega)]
  apply forLoop_induct (ScanState left right pv a)
  · exact ⟨RangePerm.refl _ _ _, le_refl _, by simp only []; omega, hpv,
      fun x h1 h2 => by simp only [] at h2; omega,
      fun x h1 h2 => by simp only [] at h1; omega⟩
  · intro q s hq ⟨h1, h2, h3, h4, h5, h6⟩
    have hlen : s.1.length = a.length := h1.length_eq
    by_cases hc : readAt s.1 (left + (q : Int)) ≤ pv
    · simp only [hc, if_true]
      rw [toInt_of_range (show -2147483648 ≤ s.2 + 1 by omega) (by omega)]
      have rd : ∀ x, readAt (swapAt s.1 (s.2 + 1) (left + (q : Int))) x
          = if x = left + (q : Int) then readAt s.1 (s.2 + 1)
            else if x = s.2 + 1 then readAt s.1 (left + (q : Int)) else readAt s.1 x :=
        fun x => readAt_swapAt s.1 (by omega) (by omega) (by omega) (by omega) x
      refine ⟨h1.trans (rangePerm_swapAt s.1 hl (by omega) (by omega) (by omega) (by omega)
        (by omega)), by omega, by push_cast; omega, ?_, ?_, ?_⟩
      · rw [rd, if_neg (by omega), if_neg (by omega)]
        exact h4
      · intro x hx1 hx2
        rw [rd]
        by_cases e1 : x = left + (q : Int)
        · rw [if_pos e1]
          have : s.2 + 1 = left + (q : Int) := by omega
          rw [this]
          exact hc
        · rw [if_neg e1]
          by_cases e2 : x = s.2 + 1
          · rw [if_pos e2]
            exact hc
          · rw [if_neg e2]
            exact h5 x hx1 (by omega)
      · intro x hx1 hx2
        rw [rd]
        by_cases e1 : x = left + (q : Int)
        · rw [if_pos e1]
          exact h6 (s.2 + 1) (by omega) (by omega)
        · rw [if_neg e1, if_neg (by omega)]
          exact h6 x (by omega) (by push_cast at hx2; omega)
    · simp only [hc, if_false]
      refine ⟨h1, h2, by push_cast; omega, h4, h5, ?_⟩
      intro x hx1 hx2
      by_cases e1 : x = left + (q : Int)
      · rw [e1]
        omega
      · exact h6 x hx1 (by push_cast at hx2; omega)

/-- `partition` around a value found at `[left, right]`: it only rearranges the
elements at `[left, right]` and returns an index `p` there with `arr[p]` the
pivot, the elements before `p` at most the pivot and those after `p` above it. -/
theorem partition_spec (arr : List Int) {left right pv : Int} (hl : 0 ≤ left)
    (hlr : left ≤ right) (hr : right < arr.length) (hmax : right ≤ 2147483646)
    (hmem : pv ∈ segment arr left (right - left + 1).toNat) :
    RangePerm left right arr (partition arr left right pv).1 ∧
      left ≤ (partition arr left right pv).2 ∧ (partition arr left right pv).2 ≤ right ∧
      readAt (partition arr left right pv).1 (partition arr left right pv).2 = pv ∧
      (∀ x, left ≤ x → x < (partition arr left right pv).2 →
        readAt (partition arr left right pv).1 x ≤ pv) ∧
      (∀ x, (partition arr left right pv).2 < x → x ≤ right →
        pv < readAt (partition arr left right pv).1 x) := by
  obtain ⟨x0, hx1, hx2, hx3⟩ := index_of_mem_segment arr hmem
  obtain ⟨f1, f2, f3⟩ := findPivotIdx_spec arr right pv hmax (right - left + 1).toNat left
    hl (by omega) ⟨x0, hx1, hx2, hx3⟩
  unfold partition
  generalize findPivotIdx arr right pv (right - left + 1).toNat left = p0 at f1 f2 f3 ⊢
  have hswap : RangePerm left right arr (swapAt arr p0 right) :=
    rangePerm_swapAt arr hl hr f1 f2 hlr (le_refl _)
  have hpv : readAt (swapAt arr p0 right) right = pv := by
    rw [readAt_swapAt arr (by omega) (by omega) (by omega) hr, if_pos rfl]
    exact f3
  have hscan := partition_scan (swapAt arr p0 right) hl hlr
    (by rw [length_swapAt]; exact hr) hmax hpv
  simp only []
  generalize forInt left right (fun j (s : List Int × Int) =>
        if readAt s.1 j ≤ pv then (swapAt s.1 (toInt (s.2 + 1)) j, toInt (s.2 + 1)) else s)
      (swapAt arr p0 right, toInt (left - 1)) = s at hscan ⊢
  obtain ⟨h1, h2, h3, h4, h5, h6⟩ := hscan
  rw [toInt_of_range (show -2147483648 ≤ s.2 + 1 by omega) (by omega)]
  have hlen : s.1.length = arr.length := by rw [h1.length_eq, length_swapAt]
  have rd : ∀ x, readAt (swapAt s.1 (s.2 + 1) right) x
      = if x = right then readAt s.1 (s.2 + 1)
        else if x = s.2 + 1 then readAt s.1 right else readAt s.1 x :=
    fun x => readAt_swapAt s.1 (by omega) (by omega) (by omega) (by omega) x
  refine ⟨hswap.trans (h1.trans (rangePerm_swapAt s.1 hl (by omega) (by omega) (by omega)
    hlr (le_refl _))), by omega, by omega, ?_, ?_, ?_⟩
  · rw [rd]
    by_cases e : s.2 + 1 = right
    · rw [if_pos e, e]
      exact h4
    · rw [if_neg e, if_pos rfl]
      exact h4
  · intro x hx1 hx2
    rw [rd, if_neg (by omega), if_neg (by omega)]
    exact h5 x hx1 (by omega)
  · intro x hx1 hx2
    rw [rd]
    by_cases e : x = right
    · rw [if_pos e]
      exact h6 (s.2 + 1) (by omega) (by omega)
    · rw [if_neg e, if_neg (by omega)]
      exact h6 x (by omega) (by omega)

/-! ### Sorted lists and ranks -/

theorem sort_eq_of_perm {l1 l2 : List Int} (h : l1.Perm l2) :
    l1.insertionSort (· ≤ ·) = l2.insertionSort (· ≤ ·) := by
  apply List.eq_of_perm_of_sorted _ (List.sorted_insertionSort _ _)
    (List.sorted_insertionSort _ _)
  exact ((List.perm_insertionSort _ l1).trans h).trans (List.perm_insertionSort _ l2).symm

/-- Sorting a list split around a pivot sorts the two sides separately. -/
theorem sort_around_pivot (L R : List Int) (p : Int) (hL : ∀ x ∈ L, x ≤ p)
    (hR : ∀ x ∈ R, p < x) :
    (L ++ p :: R).insertionSort (· ≤ ·)
      = L.insertionSort (· ≤ ·) ++ p :: R.insertionSort (· ≤ ·) := by
  apply List.eq_of_perm_of_sorted _ (List.sorted_insertionSort _ _)
  · have sL := List.sorted_insertionSort (· ≤ ·) L
    have sR := List.sorted_insertionSort (· ≤ ·) R
    have pL := List.perm_insertionSort (· ≤ ·) L
    have pR := List.perm_insertionSort (· ≤ ·) R
    unfold List.Sorted at sL sR ⊢
    rw [List.pairwise_append]
    refine ⟨sL, ?_, ?_⟩
    · rw [List.pairwise_cons]
      exact ⟨fun x hx => le_of_lt (hR x (pR.mem_iff.1 hx)), sR⟩
    · intro x hx y hy
      have hxp := hL x (pL.mem_iff.1 hx)
      rw [List.mem_cons] at hy
      rcases hy with hy | hy
      · rw [hy]; exact hxp
      · exact le_trans hxp (le_of_lt (hR y (pR.mem_iff.1 hy)))
  · exact (List.perm_insertionSort _ _).trans
      ((List.perm_insertionSort _ L).symm.append
        ((List.perm_insertionSort _ R).symm.cons p))

theorem kthSmallest_mem (l : List Int) {k : Int} (h1 : 1 ≤ k) (h2 : k ≤ l.length) :
    kthSmallest l k ∈ l := by
  unfold kthSmallest
  have hlen : (l.insertionSort (· ≤ ·)).length = l.length := List.length_insertionSort _ _
  have hi : (k - 1).toNat < (l.insertionSort (· ≤ ·)).length := by omega
  rw [List.getD_eq_getElem _ _ hi]
  exact (List.perm_insertionSort _ l).mem_iff.1 (List.getElem_mem _)

/-- The rank of an element in a list split around a pivot: on the left side,
the pivot itself, or on the right side. -/
theorem kthSmallest_around_pivot (L R : List Int) (p : Int) (hL : ∀ x ∈ L, x ≤ p)
    (hR : ∀ x ∈ R, p < x) (k : Int) (hk : 1 ≤ k) :
    kthSmallest (L ++ p :: R) k
      = if k = (L.length : Int) + 1 then p
        else if k < (L.length : Int) + 1 then kthSmallest L k
        else kthSmallest R (k - ((L.length : Int) + 1)) := by
  unfold kthSmallest
  rw [sort_around_pivot L R p hL hR]
  have hlen : (L.insertionSort (· ≤ ·)).length = L.length := List.length_insertionSort _ _
  by_cases e1 : k = (L.length : Int) + 1
  · rw [if_pos e1, List.getD_append_right _ _ _ _ (by omega), hlen,
      show (k - 1).toNat - L.length = 0 by omega]
    rfl
  · rw [if_neg e1]
    by_cases e2 : k < (L.length : Int) + 1
    · rw [if_pos e2, List.getD_append _ _ _ _ (by omega)]
    · rw [if_neg e2, List.getD_append_right _ _ _ _ (by omega), hlen,
        show (k - 1).toNat - L.length = (k - ((L.length : Int) + 1) - 1).toNat + 1 by omega]
      rfl

theorem kthSmallest_perm {l1 l2 : List Int} (h : l1.Perm l2) (k : Int) :
    kthSmallest l1 k = kthSmallest l2 k := by
  unfold kthSmallest
  rw [sort_eq_of_perm h]

theorem segment_one (a : List Int) (l : Int) : segment a l 1 = [readAt a l] := by
  simp [segment, List.range_succ]

/-- The elements at `[l, r]` are those before `p`, then `a[p]`, then those after `p`. -/
theorem segment_split (a : List Int) {l p r : Int} (h1 : l ≤ p) (h2 : p ≤ r) :
    segment a l (r - l + 1).toNat
      = segment a l (p - l).toNat ++ readAt a p :: segment a (p + 1) (r - p).toNat := by
  rw [show (r - l + 1).toNat = (p - l).toNat + (1 + (r - p).toNat) by omega, segment_add,
    segment_add, segment_one, show l + ((p - l).toNat : Int) = p by omega]
  rfl

theorem kthSmallest_singleton (x : Int) : kthSmallest [x] 1 = x := by
  simp [kthSmallest]

/-- One call of `deterministic_select` with fuel left. -/
theorem deterministic_select_succ (fuel : Nat) (arr : List Int) (left right k : Int) :
    deterministic_select (fuel + 1) arr left right k =
    if left = right then Outcome.returns (readAt arr left)
    else
      let n := toInt (toInt (right - left) + 1)
      let num_groups := (toInt (n + 4)).tdiv 5
      if num_groups < 0 then Outcome.length_error
      else
        let g := groupMedians arr left right num_groups
        let medians := g.2
        let mom_rank_1based : Int := toInt (((medians.length + 1) / 2 : Nat) : Int)
        let mom :=
          if medians.length = 1 then Outcome.returns (readAt medians 0)
          else deterministic_select fuel medians 0 (toInt ((medians.length : Int) - 1))
            mom_rank_1based
        match mom with
        | Outcome.returns mom_pivot =>
          let p := partition g.1 left right mom_pivot
          let pivot_idx := p.2
          let pivot_rank := toInt (toInt (pivot_idx - left) + 1)
          if k = pivot_rank then Outcome.returns (readAt p.1 pivot_idx)
          else if k < pivot_rank then
            deterministic_select fuel p.1 left (toInt (pivot_idx - 1)) k
          else deterministic_select fuel p.1 (toInt (pivot_idx + 1)) right (toInt (k - pivot_rank))
        | other => other := rfl

/-- On a range `[left, right]` of `m` elements of a vector of at most
`2^31 - 5` elements, with recursion depth `m` allowed, `deterministic_select`
returns the `k`-th smallest of the elements at `[left, right]`. -/
theorem deterministic_select_range :
    ∀ (m fuel : Nat) (arr : List Int) (left right k : Int), 0 ≤ left →
      right < arr.length → arr.length ≤ 2147483643 → right - left + 1 = (m : Int) →
      1 ≤ k → k ≤ (m : Int) → m ≤ fuel →
      deterministic_select fuel arr left right k
        = Outcome.returns (kthSmallest (segment arr left m) k) := by
  intro m
  induction m using Nat.strong_induction_on with
  | _ m ih =>
    intro fuel arr left right k hl hr hmax hm hk1 hk2 hfuel
    obtain ⟨f, rfl⟩ : ∃ f, fuel = f + 1 := ⟨fuel - 1, by omega⟩
    rw [deterministic_select_succ]
    by_cases h1 : left = right
    · rw [if_pos h1]
      have hm1 : m = 1 := by omega
      have hk : k = 1 := by omega
      rw [hm1, hk, segment_one, kthSmallest_singleton]
    · rw [if_neg h1]
      have e1 : toInt (toInt (right - left) + 1) = (m : Int) := by
        rw [toInt_of_range (show -2147483648 ≤ right - left by omega) (by omega),
          toInt_of_range (show -2147483648 ≤ right - left + 1 by omega) (by omega), hm]
      have e2 : (toInt ((m : Int) + 4)).tdiv 5 = ((m : Int) + 4) / 5 := by
        rw [toInt_of_range (show -2147483648 ≤ (m : Int) + 4 by omega) (by omega)]
        exact Int.tdiv_eq_ediv (by omega) (by omega)
      simp only [e1, e2]
      rw [if_neg (by omega)]
      obtain ⟨g1, g2, g3⟩ := @groupMedians_spec arr left right (((m : Int) + 4) / 5) hl
        (by omega) hr (by omega) (by omega)
      generalize groupMedians arr left right (((m : Int) + 4) / 5) = G at g1 g2 g3 ⊢
      have hGlen : G.1.length = arr.length := g1.length_eq
      have hmed1 : 1 ≤ G.2.length := by omega
      have hmed2 : G.2.length < m := by omega
      -- the median of medians is returned, and it is one of the medians
      have hmom : ∃ pv, pv ∈ G.2 ∧
          (if G.2.length = 1 then Outcome.returns (readAt G.2 0)
            else deterministic_select f G.2 0 (toInt ((G.2.length : Int) - 1))
              (toInt (((G.2.length + 1) / 2 : Nat) : Int))) = Outcome.returns pv := by
        by_cases hone : G.2.length = 1
        · rw [if_pos hone]
          refine ⟨readAt G.2 0, ?_, rfl⟩
          have := @mem_segment_of_index G.2 0 0 0 (le_refl _) (le_refl _)
          rw [show ((0 : Int) - 0 + 1).toNat = G.2.length by omega, segment_full] at this
          exact this
        · rw [if_neg hone]
          have hr2 : toInt ((G.2.length : Int) - 1) = (G.2.length : Int) - 1 :=
            toInt_of_range (by omega) (by omega)
          have hk3 : toInt (((G.2.length + 1) / 2 : Nat) : Int)
              = (((G.2.length + 1) / 2 : Nat) : Int) :=
            toInt_of_range (by omega) (by omega)
          rw [hr2, hk3]
          have := ih G.2.length hmed2 f G.2 0 ((G.2.length : Int) - 1)
            (((G.2.length + 1) / 2 : Nat) : Int) (le_refl _) (by omega) (by omega) (by omega)
            (by omega) (by omega) (by omega)
          rw [segment_full] at this
          exact ⟨_, kthSmallest_mem G.2 (by omega) (by omega), this⟩
      obtain ⟨pv, hpv, hmom⟩ := hmom
      rw [hmom]
      simp only []
      obtain ⟨p1, p2, p3, p4, p5, p6⟩ := @partition_spec G.1 left right pv hl (by omega)
        (by omega) (by omega) (g3 pv hpv)
      generalize partition G.1 left right pv = P at p1 p2 p3 p4 p5 p6 ⊢
      have hPlen : P.1.length = arr.length := by rw [p1.length_eq, hGlen]
      have e3 : toInt (toInt (P.2 - left) + 1) = P.2 - left + 1 := by
        rw [toInt_of_range (show -2147483648 ≤ P.2 - left by omega) (by omega),
          toInt_of_range (show -2147483648 ≤ P.2 - left + 1 by omega) (by omega)]
      rw [e3]
      -- the rank of `k` among the elements at `[left, right]` after the partition
      have hperm : (segment arr left m).Perm (segment P.1 left m) := by
        have := (g1.trans p1).segment_perm hl hr (by omega)
        rw [hm] at this
        exact this
      have hsplit := segment_split P.1 p2 p3
      rw [hm] at hsplit
      simp only [Int.toNat_ofNat] at hsplit
      have hrank := kthSmallest_around_pivot (segment P.1 left (P.2 - left).toNat)
        (segment P.1 (P.2 + 1) (right - P.2).toNat) (readAt P.1 P.2)
        (by
          intro x hx
          rw [mem_segment] at hx
          obtain ⟨t, ht, rfl⟩ := hx
          rw [p4]
          exact p5 _ (by omega) (by omega))
        (by
          intro x hx
          rw [mem_segment] at hx
          obtain ⟨t, ht, rfl⟩ := hx
          rw [p4]
          exact p6 _ (by omega) (by omega)) k hk1
      rw [← hsplit, length_segment] at hrank
      rw [kthSmallest_perm hperm, hrank,
        show (((P.2 - left).toNat : Nat) : Int) + 1 = P.2 - left + 1 by omega]
      by_cases c1 : k = P.2 - left + 1
      · rw [if_pos c1, if_pos c1]
      · rw [if_neg c1, if_neg c1]
        by_cases c2 : k < P.2 - left + 1
        · rw [if_pos c2, if_pos c2,
            toInt_of_range (show -2147483648 ≤ P.2 - 1 by omega) (by omega)]
          exact ih (P.2 - left).toNat (by omega) f P.1 left (P.2 - 1) k hl (by omega)
            (by omega) (by omega) hk1 (by omega) (by omega)
        · rw [if_neg c2, if_neg c2,
            toInt_of_range (show -2147483648 ≤ P.2 + 1 by omega) (by omega),
            toInt_of_range (show -2147483648 ≤ k - (P.2 - left + 1) by omega) (by omega)]
          exact ih (right - P.2).toNat (by omega) f P.1 (P.2 + 1) right (k - (P.2 - left + 1))
            (by omega) (by omega) (by omega) (by omega) (by omega) (by omega) (by omega)

/-- On a range of `2^31 - 4` elements the computation of `num_groups`
overflows `int` and `medians.reserve` throws. -/
theorem deterministic_select_overflow (fuel : Nat) (arr : List Int) (k : Int) :
    deterministic_select (fuel + 1) arr 0 2147483643 k = Outcome.length_error := by
  rw [deterministic_select_succ]
  have h0 : ¬ ((0 : Int) = 2147483643) := by decide
  rw [if_neg h0]
  have e : (toInt (toInt (toInt (2147483643 - 0) + 1) + 4)).tdiv 5 = -429496729 := by
    unfold toInt
    norm_num
    rfl
  simp only [e]
  rfl

/-- C19 (as stated). The claim fails on a vector of `2^31 - 4 = 2147483644`
elements (here all `0`, rank `k = 1`): `n + 4` overflows `int`, `num_groups`
is `-429496729`, `medians.reserve(num_groups)` throws `std::length_error`, and
no value is returned, whatever the recursion depth allowed. -/
theorem deterministic_select_counterexample :
    (List.replicate 2147483644 (0 : Int)).length = 2147483644 ∧
      deterministic_select 1 (List.replicate 2147483644 0) 0 (2147483644 - 1) 1
        = Outcome.length_error ∧
      ∀ (fuel : Nat) (v : Int),
        deterministic_select fuel (List.replicate 2147483644 0) 0 (2147483644 - 1) 1
          ≠ Outcome.returns v := by
  refine ⟨List.length_replicate _ _, deterministic_select_overflow 0 _ 1, ?_⟩
  intro fuel v
  cases fuel with
  | zero =>
    intro h
    cases h
  | succ f =>
    intro h
    have h2 := deterministic_select_overflow f (List.replicate 2147483644 0) 1
    rw [show (2147483643 : Int) = 2147483644 - 1 by norm_num] at h2
    rw [h2] at h
    cases h

/-- C19 (amended). For every vector `arr` of `n ≤ 2^31 - 5 = 2147483643`
elements (duplicates allowed) and every rank `k` with `1 ≤ k ≤ n` (so `arr` is
not empty), `deterministic_select(arr, 0, n - 1, k)` returns the element at
index `k - 1` of `arr` sorted in non-decreasing order, within recursion depth
`n`; and `k = 3` on `{7, 10, 4, 3, 20, 15, 8, 11, 19, 1}` returns `4`. -/
theorem deterministic_select_kth_smallest (arr sorted : List Int) (k : Int) (fuel : Nat)
    (hmax : arr.length ≤ 2147483643) (hk1 : 1 ≤ k) (hk2 : k ≤ arr.length)
    (hperm : sorted.Perm arr) (hsorted : sorted.Sorted (· ≤ ·)) (hfuel : arr.length ≤ fuel) :
    deterministic_select fuel arr 0 ((arr.length : Int) - 1) k
        = Outcome.returns (readAt sorted (k - 1)) ∧
      deterministic_select 10 [7, 10, 4, 3, 20, 15, 8, 11, 19, 1] 0 9 3 = Outcome.returns 4 := by
  constructor
  · rw [deterministic_select_range arr.length fuel arr 0 ((arr.length : Int) - 1) k (le_refl _)
      (by omega) hmax (by omega) hk1 hk2 hfuel, segment_full]
    have hs : arr.insertionSort (· ≤ ·) = sorted :=
      List.eq_of_perm_of_sorted ((List.perm_insertionSort _ arr).trans hperm.symm)
        (List.sorted_insertionSort _ _) hsorted
    unfold kthSmallest
    rw [hs, readAt_nonneg _ (by omega)]
  · set_option maxRecDepth 100000 in decide

theorem deterministic_select_kth_smallest_witness :
    ([7, 10, 4, 3, 20, 15, 8, 11, 19, 1] : List Int).length ≤ 2147483643 ∧
      List.Perm [1, 3, 4, 7, 8, 10, 11, 15, 19, 20] [7, 10, 4, 3, 20, 15, 8, 11, 19, (1 : Int)] ∧
      List.Sorted (· ≤ ·) [1, 3, 4, 7, 8, 10, 11, 15, 19, (20 : Int)] ∧
      deterministic_select 10 [7, 10, 4, 3, 20, 15, 8, 11, 19, 1] 0
        ((([7, 10, 4, 3, 20, 15, 8, 11, 19, 1] : List Int).length : Int) - 1) 3
        = Outcome.returns (readAt [1, 3, 4, 7, 8, 10, 11, 15, 19, 20] (3 - 1)) ∧
      readAt [1, 3, 4, 7, 8, 10, 11, 15, 19, 20] (3 - 1) = 4 :=
  ⟨by decide, by decide, by decide,
    (deterministic_select_kth_smallest [7, 10, 4, 3, 20, 15, 8, 11, 19, 1]
      [1, 3, 4, 7, 8, 10, 11, 15, 19, 20] 3 10 (by decide) (by decide) (by decide) (by decide)
      (by decide) (by decide)).1, by decide⟩

end Selection

/-! ## Matrix chain order: proofs -/

namespace MatrixChain

open Strassen

theorem forRange_induct {σ : Type} (Inv : Nat → σ → Prop) (lo hi : Nat) (hle : lo ≤ hi)
    (body : Nat → σ → σ) (s : σ) (h0 : Inv lo s)
    (hstep : ∀ x t, lo ≤ x → x < hi → Inv x t → Inv (x + 1) (body x t)) :
    Inv hi (forRange lo hi body s) := by
  unfold forRange
  have key : ∀ m, m ≤ hi - lo → Inv (lo + m) (forLoop m (fun t => body (lo + t)) s) := by
    intro m
    induction m with
    | zero => intro _; exact h0
    | succ q ih =>
      intro hq
      rw [forLoop_succ]
      exact hstep (lo + q) _ (by omega) (by omega) (ih (by omega))
  have := key (hi - lo) (Nat.le_refl _)
  rw [show lo + (hi - lo) = hi by omega] at this
  exact this

theorem setEntry_setEntry (M : Matrix) (i j : Nat) (a b : Int) :
    setEntry (setEntry M i j a) i j b = setEntry M i j b := by
  unfold setEntry
  by_cases hi : i < M.length
  · have h1 : (M.set i ((M.getD i []).set j a)).getD i [] = (M.getD i []).set j a := by
      simp [List.getD_eq_getElem?_getD, hi]
    rw [h1, List.set_set, List.set_set]
  · have e : ∀ r : List Int, M.set i r = M := fun r => List.set_eq_of_length_le (by omega)
    simp only [e]

/-- The running minimum of the candidates: below every candidate, and either
the initial value or one of the candidates. -/
theorem runningMin_spec (c : Nat → Int) (init : Int) (m : Nat) :
    (∀ u, u < m → forLoop m (fun u b => min b (c u)) init ≤ c u) ∧
      forLoop m (fun u b => min b (c u)) init ≤ init ∧
      (forLoop m (fun u b => min b (c u)) init = init ∨
        ∃ u, u < m ∧ forLoop m (fun u b => min b (c u)) init = c u) := by
  induction m with
  | zero => exact ⟨fun u hu => by omega, le_refl _, Or.inl rfl⟩
  | succ q ih =>
    rw [forLoop_succ]
    obtain ⟨h1, h2, h3⟩ := ih
    refine ⟨fun u hu => ?_, le_trans (min_le_left _ _) h2, ?_⟩
    · by_cases e : u = q
      · subst e
        exact min_le_right _ _
      · exact le_trans (min_le_left _ _) (h1 u (by omega))
    · rcases le_total (forLoop q (fun u b => min b (c u)) init) (c q) with hle | hle
      · rw [min_eq_left hle]
        rcases h3 with h3 | ⟨u, hu, h3⟩
        · exact Or.inl h3
        · exact Or.inr ⟨u, by omega, h3⟩
      · rw [min_eq_right hle]
        exact Or.inr ⟨q, by omega, rfl⟩

/-- The candidate cost of the split at `k`, as the program computes it. -/
theorem inner_loop (P : List Int) {n : Nat} (dp : Matrix) (hdp : IsSquare n dp) {i j : Nat}
    (hi : i < n) (hj : j < n) (m : Nat) (hm : i + m ≤ j) :
    forLoop m (fun t dp =>
        setEntry dp i j (min (getEntry dp i j)
          (toLongLong (toLongLong (getEntry dp i (i + t) + getEntry dp (i + t + 1) j)
            + toLongLong (toLongLong (dim P (i - 1) * dim P (i + t)) * dim P j)))))
        (setEntry dp i j LLONG_MAX)
      = setEntry dp i j (forLoop m (fun t b => min b
          (toLongLong (toLongLong (getEntry dp i (i + t) + getEntry dp (i + t + 1) j)
            + toLongLong (toLongLong (dim P (i - 1) * dim P (i + t)) * dim P j))))
          LLONG_MAX) := by
  induction m with
  | zero => rfl
  | succ q ih =>
    rw [forLoop_succ, forLoop_succ, ih (by omega)]
    rw [getEntry_setEntry hdp hi hj, getEntry_setEntry hdp hi hj, getEntry_setEntry hdp hi hj,
      if_pos ⟨rfl, rfl⟩, if_neg (by omega), if_neg (by omega), setEntry_setEntry]

theorem Paren.count_pos (t : Paren) : 1 ≤ t.count := by
  induction t with
  | single => exact Nat.le_refl 1
  | mul l r ihl _ => unfold Paren.count; omega

theorem Paren.cost_nonneg (P : List Int) (hP : ∀ i, 0 ≤ dim P i) (t : Paren) :
    ∀ a, 0 ≤ t.cost P a := by
  induction t with
  | single => intro a; exact le_refl 0
  | mul l r ihl ihr =>
    intro a
    unfold Paren.cost
    have h1 := ihl a
    have h2 := ihr (a + l.count)
    have h3 : 0 ≤ dim P (a - 1) * dim P (a + l.count - 1)
        * dim P (a + l.count + r.count - 1) :=
      mul_nonneg (mul_nonneg (hP _) (hP _)) (hP _)
    omega

theorem isMinCost_single (P : List Int) (a : Nat) : IsMinCost P a a 0 := by
  refine ⟨⟨Paren.single, by simp [Paren.count], rfl⟩, ?_⟩
  intro t ht
  cases t with
  | single => exact le_refl 0
  | mul l r =>
    have h1 := l.count_pos
    have h2 := r.count_pos
    unfold Paren.count at ht
    omega

/-- The minimum over the split points of the costs built from minimal costs
of the two parts is the minimal cost of the chain. -/
theorem isMinCost_split (P : List Int) {i j : Nat} (hij : i < j) (c1 c2 : Nat → Int)
    (h1 : ∀ k, i ≤ k → k < j → IsMinCost P i k (c1 k))
    (h2 : ∀ k, i ≤ k → k < j → IsMinCost P (k + 1) j (c2 k))
    (v : Int)
    (hle : ∀ k, i ≤ k → k < j → v ≤ c1 k + c2 k + dim P (i - 1) * dim P k * dim P j)
    (hex : ∃ k, i ≤ k ∧ k < j ∧ v = c1 k + c2 k + dim P (i - 1) * dim P k * dim P j) :
    IsMinCost P i j v := by
  constructor
  · obtain ⟨k, hik, hkj, hv⟩ := hex
    obtain ⟨⟨t1, ht1, hc1⟩, _⟩ := h1 k hik hkj
    obtain ⟨⟨t2, ht2, hc2⟩, _⟩ := h2 k hik hkj
    refine ⟨Paren.mul t1 t2, by unfold Paren.count; omega, ?_⟩
    unfold Paren.cost
    rw [show i + t1.count = k + 1 by omega, show k + 1 - 1 = k by omega,
      show k + 1 + t2.count - 1 = j by omega, hc1, hc2, hv]
  · intro t ht
    cases t with
    | single =>
      unfold Paren.count at ht
      omega
    | mul l r =>
      have hl := l.count_pos
      have hr := r.count_pos
      unfold Paren.count at ht
      have hk1 : i ≤ i + l.count - 1 := by omega
      have hk2 : i + l.count - 1 < j := by omega
      have b1 := (h1 (i + l.count - 1) hk1 hk2).2 l (by omega)
      have b2 := (h2 (i + l.count - 1) hk1 hk2).2 r (by omega)
      have b3 := hle (i + l.count - 1) hk1 hk2
      unfold Paren.cost
      rw [show i + l.count - 1 + 1 = i + l.count by omega] at b2
      rw [show i + l.count + r.count - 1 = j by omega]
      omega

theorem dim_pos (P : List Int) (hpos : ∀ x ∈ P, 0 < x ∧ x ≤ 2147483647) {i : Nat}
    (hi : i < P.length) : 0 < dim P i ∧ dim P i ≤ 2147483647 := by
  unfold dim
  have : P.getD i 0 = P[i] := by simp [List.getD_eq_getElem?_getD, hi]
  rw [this]
  exact hpos _ (List.getElem_mem _)

theorem dim_nonneg (P : List Int) (hpos : ∀ x ∈ P, 0 < x ∧ x ≤ 2147483647) (i : Nat) :
    0 ≤ dim P i := by
  by_cases hi : i < P.length
  · exact le_of_lt (dim_pos P hpos hi).1
  · unfold dim
    rw [List.getD_eq_getElem?_getD, List.getElem?_eq_none (by omega)]
    rfl

/-- When no parenthesization cost leaves the `long long` range, the candidate
the program computes for a split is the exact cost. -/
theorem candidate_exact (P : List Int) (hpos : ∀ x ∈ P, 0 < x ∧ x ≤ 2147483647)
    (hfit : ∀ (t : Paren) (a : Nat), 1 ≤ a → a + t.count ≤ P.length →
      t.cost P a ≤ LLONG_MAX)
    {i k j : Nat} (hi : 1 ≤ i) (hik : i ≤ k) (hkj : k < j) (hj : j < P.length)
    {c1 c2 : Int} (h1 : IsMinCost P i k c1) (h2 : IsMinCost P (k + 1) j c2) :
    toLongLong (toLongLong (c1 + c2)
        + toLongLong (toLongLong (dim P (i - 1) * dim P k) * dim P j))
      = c1 + c2 + dim P (i - 1) * dim P k * dim P j ∧
    c1 + c2 + dim P (i - 1) * dim P k * dim P j ≤ LLONG_MAX := by
  obtain ⟨⟨t1, ht1, hc1⟩, _⟩ := h1
  obtain ⟨⟨t2, ht2, hc2⟩, _⟩ := h2
  have hn := dim_nonneg P hpos
  have n1 := Paren.cost_nonneg P hn t1 i
  have n2 := Paren.cost_nonneg P hn t2 (k + 1)
  have htot := hfit (Paren.mul t1 t2) i hi (by unfold Paren.count; omega)
  unfold Paren.cost at htot
  rw [show i + t1.count = k + 1 by omega, show k + 1 - 1 = k by omega,
    show k + 1 + t2.count - 1 = j by omega, hc1, hc2] at htot
  rw [hc1] at n1
  rw [hc2] at n2
  have dp := dim_pos P hpos (show i - 1 < P.length by omega)
  have dq := dim_pos P hpos (show k < P.length by omega)
  have dr := dim_pos P hpos hj
  have hpq : 0 ≤ dim P (i - 1) * dim P k ∧ dim P (i - 1) * dim P k ≤ 4611686014132420609 := by
    constructor
    · exact mul_nonneg (le_of_lt dp.1) (le_of_lt dq.1)
    · have := mul_le_mul dp.2 dq.2 (le_of_lt dq.1) (by norm_num : (0 : Int) ≤ 2147483647)
      norm_num at this
      exact this
  have hw : 0 ≤ dim P (i - 1) * dim P k * dim P j := mul_nonneg hpq.1 (le_of_lt dr.1)
  refine ⟨?_, htot⟩
  unfold LLONG_MAX at htot
  have e1 : toLongLong (dim P (i - 1) * dim P k) = dim P (i - 1) * dim P k :=
    toLongLong_of_fits ⟨by omega, by omega⟩
  rw [e1]
  generalize dim P (i - 1) * dim P k * dim P j = w at hw htot ⊢
  unfold toLongLong
  omega

/-- One iteration of the loop over `i`: the cell of the chain `M_i ... M_j`
receives its minimal cost. -/
theorem tableDone_step (P : List Int) (hpos : ∀ x ∈ P, 0 < x ∧ x ≤ 2147483647)
    (hfit : ∀ (t : Paren) (a : Nat), 1 ≤ a → a + t.count ≤ P.length →
      t.cost P a ≤ LLONG_MAX)
    {L i : Nat} (hL : 2 ≤ L) (hi : 1 ≤ i) (hiL : i + L ≤ P.length) (dp : Matrix)
    (hdp : TableDone P L i dp) :
    TableDone P L (i + 1)
      (forRange i (i + L - 1) (fun k dp =>
          setEntry dp i (i + L - 1) (min (getEntry dp i (i + L - 1))
            (toLongLong (toLongLong (getEntry dp i k + getEntry dp (k + 1) (i + L - 1))
              + toLongLong (toLongLong (dim P (i - 1) * dim P k) * dim P (i + L - 1))))))
        (setEntry dp i (i + L - 1) LLONG_MAX)) := by
  obtain ⟨hsq, hcells⟩ := hdp
  have hj : i + L - 1 < P.length := by omega
  have hloop := inner_loop P dp hsq (show i < P.length by omega) hj (i + L - 1 - i)
    (by omega)
  unfold forRange
  rw [hloop]
  refine ⟨isSquare_setEntry hsq _ _ _, ?_⟩
  intro a b ha hab hb hcase
  rw [getEntry_setEntry hsq (show i < P.length by omega) hj]
  by_cases hcell : a = i ∧ b = i + L - 1
  · rw [if_pos hcell]
    obtain ⟨rfl, rfl⟩ := hcell
    have hc1 : ∀ k, a ≤ k → k < a + L - 1 → IsMinCost P a k (getEntry dp a k) :=
      fun k h1 h2 => hcells a k ha h1 (by omega) (Or.inl (by omega))
    have hc2 : ∀ k, a ≤ k → k < a + L - 1 →
        IsMinCost P (k + 1) (a + L - 1) (getEntry dp (k + 1) (a + L - 1)) :=
      fun k h1 h2 => hcells (k + 1) (a + L - 1) (by omega) (by omega) hj (Or.inl (by omega))
    have hcand : ∀ k, a ≤ k → k < a + L - 1 →
        toLongLong (toLongLong (getEntry dp a k + getEntry dp (k + 1) (a + L - 1))
            + toLongLong (toLongLong (dim P (a - 1) * dim P k) * dim P (a + L - 1)))
          = getEntry dp a k + getEntry dp (k + 1) (a + L - 1)
            + dim P (a - 1) * dim P k * dim P (a + L - 1) ∧
        getEntry dp a k + getEntry dp (k + 1) (a + L - 1)
            + dim P (a - 1) * dim P k * dim P (a + L - 1) ≤ LLONG_MAX :=
      fun k h1 h2 => candidate_exact P hpos hfit ha h1 h2 hj (hc1 k h1 h2) (hc2 k h1 h2)
    obtain ⟨m1, m2, m3⟩ := runningMin_spec (fun t =>
      toLongLong (toLongLong (getEntry dp a (a + t) + getEntry dp (a + t + 1) (a + L - 1))
        + toLongLong (toLongLong (dim P (a - 1) * dim P (a + t)) * dim P (a + L - 1))))
      LLONG_MAX (a + L - 1 - a)
    apply isMinCost_split P (show a < a + L - 1 by omega) (fun k => getEntry dp a k)
      (fun k => getEntry dp (k + 1) (a + L - 1)) hc1 hc2
    · intro k h1 h2
      have := m1 (k - a) (by omega)
      simp only [show a + (k - a) = k by omega] at this
      rw [(hcand k h1 h2).1] at this
      exact this
    · rcases m3 with m3 | ⟨u, hu, m3⟩
      · refine ⟨a, le_refl a, by omega, ?_⟩
        have h0 := m1 0 (by omega)
        simp only [Nat.add_zero] at h0
        rw [(hcand a (le_refl a) (by omega)).1] at h0
        have h1 := (hcand a (le_refl a) (by omega)).2
        rw [m3] at h0 ⊢
        omega
      · refine ⟨a + u, by omega, by omega, ?_⟩
        rw [m3]
        exact (hcand (a + u) (by omega) (by omega)).1
  · rw [if_neg hcell]
    apply hcells a b ha hab hb
    rcases hcase with h | ⟨h1, h2⟩
    · exact Or.inl h
    · refine Or.inr ⟨h1, ?_⟩
      by_contra hc
      exact hcell ⟨by omega, by omega⟩

/-- The table after all the loops: the cell of every chain holds its minimal
cost. -/
theorem tableDone_final (P : List Int) (hpos : ∀ x ∈ P, 0 < x ∧ x ≤ 2147483647)
    (hfit : ∀ (t : Paren) (a : Nat), 1 ≤ a → a + t.count ≤ P.length →
      t.cost P a ≤ LLONG_MAX)
    (hn : 2 < P.length) :
    TableDone P P.length 1
      (forRange 2 P.length (fun L dp =>
        forRange 1 (P.length - L + 1) (fun i dp =>
          forRange i (i + L - 1) (fun k dp =>
            setEntry dp i (i + L - 1) (min (getEntry dp i (i + L - 1))
              (toLongLong (toLongLong (getEntry dp i k + getEntry dp (k + 1) (i + L - 1))
                + toLongLong (toLongLong (dim P (i - 1) * dim P k) * dim P (i + L - 1))))))
            (setEntry dp i (i + L - 1) LLONG_MAX)) dp)
        (newMatrix P.length 0)) := by
  apply forRange_induct (fun L dp => TableDone P L 1 dp) 2 P.length (by omega)
  · refine ⟨isSquare_newMatrix _ 0, ?_⟩
    intro a b ha hab hb hcase
    have e : a = b := by omega
    subst e
    rw [getEntry_newMatrix_zero]
    exact isMinCost_single P a
  · intro L dp hL2 hLn hdp
    have hmid := forRange_induct (fun i dp => TableDone P L i dp) 1 (P.length - L + 1)
      (by omega) (fun i dp =>
          forRange i (i + L - 1) (fun k dp =>
            setEntry dp i (i + L - 1) (min (getEntry dp i (i + L - 1))
              (toLongLong (toLongLong (getEntry dp i k + getEntry dp (k + 1) (i + L - 1))
                + toLongLong (toLongLong (dim P (i - 1) * dim P k) * dim P (i + L - 1))))))
            (setEntry dp i (i + L - 1) LLONG_MAX)) dp hdp
      (fun i t hi1 hi2 ht => tableDone_step P hpos hfit hL2 hi1 (by omega) t ht)
    refine ⟨hmid.1, ?_⟩
    intro a b ha hab hb hcase
    apply hmid.2 a b ha hab hb
    rcases hcase with h | ⟨h, h2⟩
    · by_cases hlt : b - a + 1 < L
      · exact Or.inl hlt
      · exact Or.inr ⟨by omega, by omega⟩
    · omega

theorem Paren.cost_le (P : List Int) (M : Int)
    (hM : ∀ i, 0 ≤ dim P i ∧ dim P i ≤ M) (t : Paren) :
    ∀ a, t.cost P a ≤ ((t.count : Int) - 1) * (M * M * M) := by
  have hM0 : 0 ≤ M := le_trans (hM 0).1 (hM 0).2
  induction t with
  | single => intro a; simp [Paren.cost, Paren.count]
  | mul l r ihl ihr =>
    intro a
    show l.cost P a + r.cost P (a + l.count)
        + dim P (a - 1) * dim P (a + l.count - 1) * dim P (a + l.count + r.count - 1)
      ≤ (((l.count + r.count : Nat) : Int) - 1) * (M * M * M)
    have h1 := ihl a
    have h2 := ihr (a + l.count)
    have h3 : dim P (a - 1) * dim P (a + l.count - 1) * dim P (a + l.count + r.count - 1)
        ≤ M * M * M :=
      mul_le_mul (mul_le_mul (hM _).2 (hM _).2 (hM _).1 hM0) (hM _).2 (hM _).1
        (mul_nonneg hM0 hM0)
    push_cast
    nlinarith

/-- A bound on the dimensions under which no parenthesization cost leaves the
`long long` range. -/
theorem fits_of_bound (P : List Int) (M : Int) (hM : ∀ x ∈ P, 0 < x ∧ x ≤ M)
    (hbound : (P.length : Int) * (M * M * M) ≤ LLONG_MAX) :
    ∀ (t : Paren) (a : Nat), 1 ≤ a → a + t.count ≤ P.length → t.cost P a ≤ LLONG_MAX := by
  intro t a ha hcount
  have hlen : 0 < P.length := by have := t.count_pos; omega
  have hM0 : 0 ≤ M := by
    have := hM (P[0]) (List.getElem_mem _)
    omega
  have hdim : ∀ i, 0 ≤ dim P i ∧ dim P i ≤ M := by
    intro i
    by_cases hi : i < P.length
    · unfold dim
      have : P.getD i 0 = P[i] := by simp [List.getD_eq_getElem?_getD, hi]
      rw [this]
      have := hM _ (List.getElem_mem (l := P) hi)
      omega
    · unfold dim
      rw [List.getD_eq_getElem?_getD, List.getElem?_eq_none (by omega)]
      exact ⟨le_refl 0, hM0⟩
  have h1 := Paren.cost_le P M hdim t a
  have h2 : ((t.count : Int) - 1) * (M * M * M) ≤ (P.length : Int) * (M * M * M) := by
    apply mul_le_mul_of_nonneg_right _ (mul_nonneg (mul_nonneg hM0 hM0) hM0)
    have : (t.count : Int) ≤ (P.length : Int) := by exact_mod_cast (by omega : t.count ≤ P.length)
    omega
  omega

/-- The claim C20 fails on `P = [2097152, 2097152, 2097152]` (two matrices of
size `2^21 x 2^21`): the only parenthesization costs `2^63`, which is not a
`long long`; the product computed in `long long` overflows and the program
returns `LLONG_MIN`, which is the cost of no parenthesization. -/
theorem matrixChainOrder_counterexample :
    matrixChainOrder [2097152, 2097152, 2097152] = -9223372036854775808 ∧
    (Paren.mul Paren.single Paren.single).cost [2097152, 2097152, 2097152] 1
      = 9223372036854775808 ∧
    ¬ IsMinCost [2097152, 2097152, 2097152] 1 2
      (matrixChainOrder [2097152, 2097152, 2097152]) := by
  have hval : matrixChainOrder [2097152, 2097152, 2097152] = -9223372036854775808 := by
    decide
  refine ⟨hval, by decide, ?_⟩
  rintro ⟨⟨t, _, hcost⟩, _⟩
  have hnn := Paren.cost_nonneg [2097152, 2097152, 2097152]
    (fun i => dim_nonneg _ (by decide) i) t 1
  rw [hcost, hval] at hnn
  omega

/-- C20 (amended). For every dimension array `P` of positive integers (matrix
`M_i` is `P[i-1] x P[i]`) for which no parenthesization of any part of the
chain costs more than `LLONG_MAX`, `matrixChainOrder P` returns the minimum,
over all full parenthesizations of the chain `M_1 ... M_{len(P)-1}`, of the total
number of scalar multiplications; it returns `0` when `P` has at most 2
entries; and `P = [5, 5, 10, 13, 10]` gives `1550`. -/
theorem matrixChainOrder_minimum (P : List Int) (hpos : ∀ x ∈ P, 0 < x ∧ x ≤ 2147483647)
    (hfit : ∀ (t : Paren) (a : Nat), 1 ≤ a → a + t.count ≤ P.length →
      t.cost P a ≤ LLONG_MAX) :
    (P.length ≤ 2 → matrixChainOrder P = 0) ∧
    (2 ≤ P.length → IsMinCost P 1 (P.length - 1) (matrixChainOrder P)) ∧
    matrixChainOrder [5, 5, 10, 13, 10] = 1550 := by
  refine ⟨fun h => ?_, fun h => ?_, by decide⟩
  · unfold matrixChainOrder
    simp only [h, if_true]
  · by_cases h2 : P.length ≤ 2
    · have e : P.length - 1 = 1 := by omega
      have : matrixChainOrder P = 0 := by
        unfold matrixChainOrder
        simp only [h2, if_true]
      rw [this, e]
      exact isMinCost_single P 1
    · have hfin := tableDone_final P hpos hfit (by omega)
      have hcell := hfin.2 1 (P.length - 1) (le_refl 1) (by omega) (by omega)
        (Or.inl (by omega))
      unfold matrixChainOrder
      simp only [h2, if_false]
      exact hcell

theorem matrixChainOrder_minimum_witness :
    (∀ x ∈ [5, 5, 10, 13, 10], (0 : Int) < x ∧ x ≤ 2147483647) ∧
    IsMinCost [5, 5, 10, 13, 10] 1 4 (matrixChainOrder [5, 5, 10, 13, 10]) :=
  ⟨by decide,
    (matrixChainOrder_minimum [5, 5, 10, 13, 10] (by decide)
      (fits_of_bound [5, 5, 10, 13, 10] 13 (by decide) (by decide))).2.1 (by decide)⟩

end MatrixChain

/-! ## 0/1 knapsack: proofs -/

namespace Knapsack

open Strassen MatrixChain

theorem isTable_replicate (rows cols : Nat) (v : Int) :
    IsTable rows cols (List.replicate rows (List.replicate cols v)) := by
  refine ⟨List.length_replicate _ _, ?_⟩
  intro row hrow
  rw [List.eq_of_mem_replicate hrow, List.length_replicate]

theorem getEntry_replicate_zero (rows cols r c : Nat) :
    getEntry (List.replicate rows (List.replicate cols 0)) r c = 0 := by
  unfold getEntry
  by_cases hr : r < rows
  · by_cases hc : c < cols
    · simp [List.getD_eq_getElem?_getD, hr, hc]
    · simp [List.getD_eq_getElem?_getD, hr, hc]
  · have e : (List.replicate rows (List.replicate cols (0 : Int))).getD r [] = [] := by
      rw [List.getD_eq_getElem?_getD, List.getElem?_eq_none (by simpa using hr)]
      rfl
    rw [e]
    rfl

theorem isTable_setEntry {rows cols : Nat} {M : Matrix} (h : IsTable rows cols M)
    (i j : Nat) (v : Int) : IsTable rows cols (setEntry M i j v) := by
  by_cases hi : i < M.length
  · refine ⟨by rw [setEntry_length, h.1], ?_⟩
    intro row hrow
    rcases List.mem_or_eq_of_mem_set hrow with hmem | heq
    · exact h.2 row hmem
    · rw [heq, List.length_set, getD_row M hi]
      exact h.2 _ (List.getElem_mem _)
  · rw [setEntry_of_le M j v (by omega)]
    exact h

theorem getEntry_setEntry_table {rows cols : Nat} {M : Matrix} (h : IsTable rows cols M)
    {i j : Nat} (hi : i < rows) (hj : j < cols) (v : Int) (r c : Nat) :
    getEntry (setEntry M i j v) r c = if r = i ∧ c = j then v else getEntry M r c := by
  have hi2 : i < M.length := by rw [h.1]; exact hi
  have hrow : (M[i]).length = cols := h.2 _ (List.getElem_mem _)
  unfold getEntry setEntry
  by_cases hr : r = i
  · subst hr
    by_cases hc : c = j
    · subst hc
      simp [List.getD_eq_getElem?_getD, List.getElem?_set, hi2, hrow, hj]
    · have hc2 : ¬ j = c := fun e => hc e.symm
      simp [List.getD_eq_getElem?_getD, List.getElem?_set, hi2, hc, hc2]
  · have hr2 : ¬ i = r := fun e => hr e.symm
    simp [List.getD_eq_getElem?_getD, List.getElem?_set, hr, hr2]

/-! ### Best selections -/

theorem totalValue_append (s t : List (Int × Int)) :
    totalValue (s ++ t) = totalValue s + totalValue t := by
  simp [totalValue]

theorem totalWeight_append (s t : List (Int × Int)) :
    totalWeight (s ++ t) = totalWeight s + totalWeight t := by
  simp [totalWeight]

theorem totalWeight_nonneg {s : List (Int × Int)} (h : ∀ b ∈ s, 0 ≤ b.2) :
    0 ≤ totalWeight s := by
  unfold totalWeight
  apply List.sum_nonneg
  intro x hx
  rw [List.mem_map] at hx
  obtain ⟨b, hb, rfl⟩ := hx
  exact h b hb

/-- With strictly positive weights only the empty selection weighs nothing. -/
theorem eq_nil_of_totalWeight_le_zero {s : List (Int × Int)} (h : ∀ b ∈ s, 0 < b.2)
    (hw : totalWeight s ≤ 0) : s = [] := by
  cases s with
  | nil => rfl
  | cons b t =>
    exfalso
    have h1 := h b (List.mem_cons_self _ _)
    have h2 : 0 ≤ totalWeight t :=
      totalWeight_nonneg (fun x hx => le_of_lt (h x (List.mem_cons_of_mem _ hx)))
    have h3 : totalWeight (b :: t) = b.2 + totalWeight t := by simp [totalWeight]
    omega

/-- A selection among `l ++ [b]` is a selection among `l`, with or without `b`. -/
theorem sublist_concat {s l : List (Int × Int)} {b : Int × Int} (h : s.Sublist (l ++ [b])) :
    s.Sublist l ∨ ∃ t, t.Sublist l ∧ s = t ++ [b] := by
  rw [List.sublist_append_iff] at h
  obtain ⟨k1, k2, rfl, h1, h2⟩ := h
  cases k2 with
  | nil => left; simpa using h1
  | cons x k3 =>
    right
    have hlen := h2.length_le
    have hk3 : k3 = [] := by
      cases k3 with
      | nil => rfl
      | cons y z => simp at hlen
    subst hk3
    have hx : x = b := by
      have := h2.subset (List.mem_cons_self _ _)
      simpa using this
    subst hx
    exact ⟨k1, h1, rfl⟩

theorem isMaxValue_nil {c : Int} (hc : 0 ≤ c) : IsMaxValue [] c 0 := by
  refine ⟨⟨[], List.Sublist.refl _, by simpa [totalWeight] using hc, rfl⟩, ?_⟩
  intro s hs _
  rw [List.sublist_nil.1 hs]
  exact le_refl _

/-- With capacity `0` and strictly positive weights nothing can be taken. -/
theorem isMaxValue_zero {l : List (Int × Int)} (h : ∀ b ∈ l, 0 < b.2) : IsMaxValue l 0 0 := by
  refine ⟨⟨[], List.nil_sublist _, by simp [totalWeight], rfl⟩, ?_⟩
  intro s hs hw
  rw [eq_nil_of_totalWeight_le_zero (fun b hb => h b (hs.subset hb)) hw]
  exact le_refl _

theorem isMaxValue_nonneg {l : List (Int × Int)} {c r : Int} (hc : 0 ≤ c)
    (h : IsMaxValue l c r) : 0 ≤ r :=
  h.2 [] (List.nil_sublist _) (by simpa [totalWeight] using hc)

/-- An item heavier than the capacity changes nothing. -/
theorem isMaxValue_skip {l : List (Int × Int)} {b : Int × Int} {c a : Int}
    (hl : ∀ x ∈ l, 0 ≤ x.2) (hb : c < b.2) (h : IsMaxValue l c a) :
    IsMaxValue (l ++ [b]) c a := by
  obtain ⟨⟨s, hs, hw, hv⟩, hmax⟩ := h
  refine ⟨⟨s, hs.trans (List.sublist_append_left _ _), hw, hv⟩, ?_⟩
  intro t ht htw
  rcases sublist_concat ht with h1 | ⟨u, hu, rfl⟩
  · exact hmax t h1 htw
  · exfalso
    rw [totalWeight_append] at htw
    have h2 : 0 ≤ totalWeight u := totalWeight_nonneg (fun x hx => hl x (hu.subset hx))
    have h3 : totalWeight [b] = b.2 := by simp [totalWeight]
    omega

/-- An item that fits is left out or taken, whichever is better. -/
theorem isMaxValue_take {l : List (Int × Int)} {b : Int × Int} {c a d : Int}
    (h : IsMaxValue l c a) (h2 : IsMaxValue l (c - b.2) d) :
    IsMaxValue (l ++ [b]) c (max a (b.1 + d)) := by
  obtain ⟨⟨s, hs, hw, hv⟩, hmax⟩ := h
  obtain ⟨⟨s2, hs2, hw2, hv2⟩, hmax2⟩ := h2
  have eb : totalWeight [b] = b.2 := by simp [totalWeight]
  have ev : totalValue [b] = b.1 := by simp [totalValue]
  constructor
  · by_cases hcmp : a ≤ b.1 + d
    · refine ⟨s2 ++ [b], List.Sublist.append hs2 (List.Sublist.refl _), ?_, ?_⟩
      · rw [totalWeight_append, eb]; omega
      · rw [totalValue_append, ev, hv2, max_eq_right hcmp]; omega
    · refine ⟨s, hs.trans (List.sublist_append_left _ _), hw, ?_⟩
      rw [hv, max_eq_left (by omega)]
  · intro t ht htw
    rcases sublist_concat ht with h1 | ⟨u, hu, rfl⟩
    · exact le_trans (hmax t h1 htw) (le_max_left _ _)
    · rw [totalWeight_append, eb] at htw
      rw [totalValue_append, ev]
      have := hmax2 u hu (by omega)
      exact le_trans (by omega) (le_max_right _ _)

theorem cellValue_congr (bricks : List (Int × Int)) {dp dp0 : Matrix} (i w : Nat)
    (h : ∀ c, getEntry dp (i - 1) c = getEntry dp0 (i - 1) c) :
    cellValue bricks dp i w = cellValue bricks dp0 i w := by
  unfold cellValue readCell
  simp only [h]

/-- The loop over `w` fills the cells `1 .. cap` of row `i` and nothing else. -/
theorem row_loop (bricks : List (Int × Int)) {rows cols : Nat} (dp0 : Matrix)
    (hdp : IsTable rows cols dp0) {i : Nat} (hi1 : 1 ≤ i) (hi : i < rows) (cap : Nat)
    (hcap : cap < cols) :
    IsTable rows cols (forRange 1 (cap + 1) (fun w dp =>
        if (brickAt bricks (i - 1)).2 > (w : Int) then setEntry dp i w (getEntry dp (i - 1) w)
        else
          setEntry dp i w (max (getEntry dp (i - 1) w)
            (toInt ((brickAt bricks (i - 1)).1
              + readCell dp (i - 1) (toInt ((w : Int) - (brickAt bricks (i - 1)).2))))))
        dp0) ∧
      ∀ r c, getEntry (forRange 1 (cap + 1) (fun w dp =>
        if (brickAt bricks (i - 1)).2 > (w : Int) then setEntry dp i w (getEntry dp (i - 1) w)
        else
          setEntry dp i w (max (getEntry dp (i - 1) w)
            (toInt ((brickAt bricks (i - 1)).1
              + readCell dp (i - 1) (toInt ((w : Int) - (brickAt bricks (i - 1)).2))))))
        dp0) r c
        = if r = i ∧ 1 ≤ c ∧ c < cap + 1 then cellValue bricks dp0 i c else getEntry dp0 r c := by
  apply forRange_induct (fun w0 dp => IsTable rows cols dp ∧
    ∀ r c, getEntry dp r c
      = if r = i ∧ 1 ≤ c ∧ c < w0 then cellValue bricks dp0 i c else getEntry dp0 r c)
    1 (cap + 1) (by omega)
  · refine ⟨hdp, fun r c => ?_⟩
    rw [if_neg (by omega)]
  · intro w dp hw1 hw2 ⟨ht, hcells⟩
    have hbody : (if (brickAt bricks (i - 1)).2 > (w : Int)
          then setEntry dp i w (getEntry dp (i - 1) w)
        else
          setEntry dp i w (max (getEntry dp (i - 1) w)
            (toInt ((brickAt bricks (i - 1)).1
              + readCell dp (i - 1) (toInt ((w : Int) - (brickAt bricks (i - 1)).2))))))
        = setEntry dp i w (cellValue bricks dp0 i w) := by
      rw [← @cellValue_congr bricks dp dp0 i w
        (fun c => by rw [hcells, if_neg (by omega)])]
      unfold cellValue
      split <;> rfl
    rw [hbody]
    refine ⟨isTable_setEntry ht _ _ _, fun r c => ?_⟩
    rw [getEntry_setEntry_table ht hi (by omega), hcells]
    by_cases h1 : r = i ∧ c = w
    · rw [if_pos h1, if_pos ⟨h1.1, by omega, by omega⟩, h1.2]
    · rw [if_neg h1]
      by_cases h2 : r = i ∧ 1 ≤ c ∧ c < w
      · rw [if_pos h2, if_pos ⟨h2.1, h2.2.1, by omega⟩]
      · rw [if_neg h2, if_neg (by omega)]

theorem take_succ_brickAt (bricks : List (Int × Int)) {i : Nat} (hi : i < bricks.length) :
    bricks.take (i + 1) = bricks.take i ++ [brickAt bricks i] := by
  rw [List.take_succ, List.getElem?_eq_getElem hi]
  unfold brickAt
  rw [List.getD_eq_getElem _ _ hi]
  rfl

/-- The cell the program computes for item `i` and capacity `c` is the best
value of a selection among the first `i` items, when row `i - 1` holds the
best values for the first `i - 1` items. -/
theorem cellValue_isMaxValue (bricks : List (Int × Int)) (cap : Nat)
    (hcapmax : cap ≤ 2147483646)
    (hint : ∀ b ∈ bricks, FitsInt b.1 ∧ FitsInt b.2) (hw : ∀ b ∈ bricks, 0 < b.2)
    (hfit : ∀ s : List (Int × Int), s.Sublist bricks → totalWeight s ≤ (cap : Int) →
      totalValue s ≤ 2147483647)
    (dp : Matrix) {i c : Nat} (hi1 : 1 ≤ i) (hi : i ≤ bricks.length) (hc : c ≤ cap)
    (hrow : ∀ c2, c2 ≤ cap → IsMaxValue (bricks.take (i - 1)) (c2 : Int) (getEntry dp (i - 1) c2)) :
    IsMaxValue (bricks.take i) (c : Int) (cellValue bricks dp i c) := by
  have htake : bricks.take i = bricks.take (i - 1) ++ [brickAt bricks (i - 1)] := by
    have := take_succ_brickAt bricks (show i - 1 < bricks.length by omega)
    rw [show i - 1 + 1 = i by omega] at this
    exact this
  have hmem : brickAt bricks (i - 1) ∈ bricks := by
    unfold brickAt
    rw [List.getD_eq_getElem _ _ (show i - 1 < bricks.length by omega)]
    exact List.getElem_mem _
  have hpos := hw _ hmem
  have hv := (hint _ hmem).1
  unfold FitsInt at hv
  rw [htake]
  unfold cellValue
  by_cases hgt : (brickAt bricks (i - 1)).2 > (c : Int)
  · rw [if_pos hgt]
    exact isMaxValue_skip
      (fun x hx => le_of_lt (hw x ((List.take_sublist _ _).subset hx))) hgt (hrow c hc)
  · rw [if_neg hgt]
    have hidx : toInt ((c : Int) - (brickAt bricks (i - 1)).2)
        = (c : Int) - (brickAt bricks (i - 1)).2 :=
      toInt_of_range (by omega) (by omega)
    have hnat : (((c : Int) - (brickAt bricks (i - 1)).2).toNat : Int)
        = (c : Int) - (brickAt bricks (i - 1)).2 := by omega
    have hd := hrow ((c : Int) - (brickAt bricks (i - 1)).2).toNat (by omega)
    rw [hnat] at hd
    have hread : readCell dp (i - 1) ((c : Int) - (brickAt bricks (i - 1)).2)
        = getEntry dp (i - 1) ((c : Int) - (brickAt bricks (i - 1)).2).toNat := by
      unfold readCell
      rw [if_neg (by omega)]
    rw [hidx, hread]
    have hd0 := isMaxValue_nonneg (by omega) hd
    obtain ⟨⟨s, hs, hsw, hsv⟩, _⟩ := hd
    have hup : (brickAt bricks (i - 1)).1
        + getEntry dp (i - 1) ((c : Int) - (brickAt bricks (i - 1)).2).toNat ≤ 2147483647 := by
      have hsub : (s ++ [brickAt bricks (i - 1)]).Sublist bricks := by
        have h1 : (List.take (i - 1) bricks ++ [brickAt bricks (i - 1)]).Sublist bricks := by
          rw [← htake]
          exact List.take_sublist _ _
        exact (List.Sublist.append hs (List.Sublist.refl _)).trans h1
      have := hfit _ hsub (by
        rw [totalWeight_append]
        have : totalWeight [brickAt bricks (i - 1)] = (brickAt bricks (i - 1)).2 := by
          simp [totalWeight]
        omega)
      rw [totalValue_append, hsv] at this
      have e : totalValue [brickAt bricks (i - 1)] = (brickAt bricks (i - 1)).1 := by
        simp [totalValue]
      omega
    rw [toInt_of_range (by omega) (by omega)]
    exact isMaxValue_take (hrow c hc) (by
      have hd := hrow ((c : Int) - (brickAt bricks (i - 1)).2).toNat (by omega)
      rw [hnat] at hd
      exact hd)

/-- One iteration of the loop over the items: row `i` receives the best
values for the first `i` items. -/
theorem rowsDone_step (bricks : List (Int × Int)) (cap : Nat) (hcapmax : cap ≤ 2147483646)
    (hint : ∀ b ∈ bricks, FitsInt b.1 ∧ FitsInt b.2) (hw : ∀ b ∈ bricks, 0 < b.2)
    (hfit : ∀ s : List (Int × Int), s.Sublist bricks → totalWeight s ≤ (cap : Int) →
      totalValue s ≤ 2147483647)
    {i : Nat} (hi1 : 1 ≤ i) (hi : i ≤ bricks.length) (dp : Matrix)
    (hdp : RowsDone bricks cap i dp) :
    RowsDone bricks cap (i + 1) (forRange 1 (cap + 1) (fun w dp =>
        if (brickAt bricks (i - 1)).2 > (w : Int) then setEntry dp i w (getEntry dp (i - 1) w)
        else
          setEntry dp i w (max (getEntry dp (i - 1) w)
            (toInt ((brickAt bricks (i - 1)).1
              + readCell dp (i - 1) (toInt ((w : Int) - (brickAt bricks (i - 1)).2))))))
        dp) := by
  obtain ⟨ht, hdone, hzero⟩ := hdp
  obtain ⟨l1, l2⟩ := row_loop bricks dp ht hi1 (show i < bricks.length + 1 by omega) cap
    (by omega)
  refine ⟨l1, ?_, ?_⟩
  · intro r c hr hc
    rw [l2]
    by_cases hri : r = i
    · subst hri
      by_cases hc1 : 1 ≤ c
      · rw [if_pos ⟨rfl, hc1, by omega⟩]
        exact cellValue_isMaxValue bricks cap hcapmax hint hw hfit dp hi1 hi hc
          (fun c2 hc2 => hdone (r - 1) c2 (by omega) hc2)
      · rw [if_neg (by omega), hzero r c (le_refl _), show c = 0 by omega]
        exact isMaxValue_zero (fun b hb => hw b ((List.take_sublist _ _).subset hb))
    · rw [if_neg (by omega)]
      exact hdone r c (by omega) hc
  · intro r c hr
    rw [l2, if_neg (by omega)]
    exact hzero r c (by omega)

/-- The table when the loop over the items has ended. -/
theorem rowsDone_final (bricks : List (Int × Int)) (cap : Nat) (hcapmax : cap ≤ 2147483646)
    (hint : ∀ b ∈ bricks, FitsInt b.1 ∧ FitsInt b.2) (hw : ∀ b ∈ bricks, 0 < b.2)
    (hfit : ∀ s : List (Int × Int), s.Sublist bricks → totalWeight s ≤ (cap : Int) →
      totalValue s ≤ 2147483647) :
    RowsDone bricks cap (bricks.length + 1)
      (forRange 1 (bricks.length + 1) (fun i dp =>
        forRange 1 (cap + 1) (fun w dp =>
          if (brickAt bricks (i - 1)).2 > (w : Int) then
            setEntry dp i w (getEntry dp (i - 1) w)
          else
            setEntry dp i w (max (getEntry dp (i - 1) w)
              (toInt ((brickAt bricks (i - 1)).1
                + readCell dp (i - 1) (toInt ((w : Int) - (brickAt bricks (i - 1)).2))))))
          dp)
        (List.replicate (bricks.length + 1) (List.replicate (cap + 1) 0))) := by
  apply forRange_induct (RowsDone bricks cap) 1 (bricks.length + 1) (by omega)
  · refine ⟨isTable_replicate _ _ _, ?_, fun r c _ => getEntry_replicate_zero _ _ _ _⟩
    intro r c hr hc
    rw [show r = 0 by omega, getEntry_replicate_zero, List.take_zero]
    exact isMaxValue_nil (by omega)
  · intro i dp hi1 hi hdp
    exact rowsDone_step bricks cap hcapmax hint hw hfit hi1 (by omega) dp hdp

/-- The function `knapsack` as one expression, when no size leaves the `int`
range. -/
theorem knapsack_eq (capacity : Int) (bricks : List (Int × Int)) (hcap : 0 ≤ capacity)
    (hcapmax : capacity ≤ 2147483646) (hn : bricks.length ≤ 2147483646) :
    knapsack capacity bricks = some (getEntry
      (forRange 1 (bricks.length + 1) (fun i dp =>
        forRange 1 (capacity.toNat + 1) (fun w dp =>
          if (brickAt bricks (i - 1)).2 > (w : Int) then
            setEntry dp i w (getEntry dp (i - 1) w)
          else
            setEntry dp i w (max (getEntry dp (i - 1) w)
              (toInt ((brickAt bricks (i - 1)).1
                + readCell dp (i - 1) (toInt ((w : Int) - (brickAt bricks (i - 1)).2))))))
          dp)
        (List.replicate (bricks.length + 1) (List.replicate (capacity.toNat + 1) 0)))
      bricks.length capacity.toNat) := by
  have e1 : toInt (bricks.length : Int) = (bricks.length : Int) :=
    toInt_of_range (by omega) (by omega)
  have e2 : toInt ((bricks.length : Int) + 1) = (bricks.length : Int) + 1 :=
    toInt_of_range (by omega) (by omega)
  have e3 : toInt (capacity + 1) = capacity + 1 := toInt_of_range (by omega) (by omega)
  have e4 : ((bricks.length : Int) + 1).toNat = bricks.length + 1 := by omega
  have e5 : (capacity + 1).toNat = capacity.toNat + 1 := by omega
  unfold knapsack
  simp only [e1, e2, e3, e4, e5, Int.toNat_ofNat]
  rw [if_neg (by omega)]
  unfold readCell
  rw [if_neg (by omega)]

/-- Among items of non-negative value no selection is worth more than all the
items together. -/
theorem totalValue_sublist_le {s l : List (Int × Int)} (hs : s.Sublist l)
    (hl : ∀ b ∈ l, 0 ≤ b.1) : totalValue s ≤ totalValue l := by
  induction hs with
  | slnil => exact le_refl _
  | @cons s l b _ ih =>
    have h1 := ih (fun x hx => hl x (List.mem_cons_of_mem _ hx))
    have h2 := hl b (List.mem_cons_self _ _)
    have e : totalValue (b :: l) = b.1 + totalValue l := by simp [totalValue]
    omega
  | @cons₂ s l b _ ih =>
    have h1 := ih (fun x hx => hl x (List.mem_cons_of_mem _ hx))
    have e : totalValue (b :: l) = b.1 + totalValue l := by simp [totalValue]
    have e2 : totalValue (b :: s) = b.1 + totalValue s := by simp [totalValue]
    omega

/-- C21 (as stated) fails where the `int` range is left. With capacity `2`
and the items `(2147483647, 1)`, `(1, 1)` both items fit and are worth `2^31`
together, but the sum overflows and `2147483647` is returned. With capacity
`2147483647` (and no item) the size `capacity + 1` of a row overflows, and
with `2147483647` items the number `n + 1` of rows does: the constructor of
the table throws. -/
theorem knapsack_counterexample :
    knapsack 2 [(2147483647, 1), (1, 1)] = some 2147483647 ∧
      totalWeight [(2147483647, 1), (1, 1)] ≤ 2 ∧
      totalValue [(2147483647, 1), (1, 1)] = 2147483648 ∧
      ¬ IsMaxValue [(2147483647, 1), (1, 1)] 2 2147483647 ∧
      knapsack 2147483647 [] = none ∧
      knapsack 0 (List.replicate 2147483647 (0, 1)) = none := by
  refine ⟨by decide, by decide, by decide, ?_, by decide, ?_⟩
  · intro h
    have := h.2 [(2147483647, 1), (1, 1)] (List.Sublist.refl _) (by decide)
    exact absurd this (by decide)
  · unfold knapsack
    simp only [List.length_replicate]
    have e : toInt (toInt ((2147483647 : Nat) : Int) + 1) = -2147483648 := by
      unfold toInt
      norm_num
    rw [e, if_pos (Or.inl (by decide))]

/-- C21 (amended). For every capacity with `0 ≤ capacity ≤ 2^31 - 2` and every
list of at most `2^31 - 2` items `(value, weight)` of type `int` whose weights
are all strictly positive, such that no subset of total weight at most
`capacity` has a total value above `INT_MAX`, `knapsack capacity bricks`
returns the maximum, over the subsets of the items of total weight at most
`capacity` (each item used at most once, the empty subset allowed), of the
total value of the subset. -/
theorem knapsack_maximum (capacity : Int) (bricks : List (Int × Int)) (hcap : 0 ≤ capacity)
    (hcapmax : capacity ≤ 2147483646) (hn : bricks.length ≤ 2147483646)
    (hint : ∀ b ∈ bricks, FitsInt b.1 ∧ FitsInt b.2) (hw : ∀ b ∈ bricks, 0 < b.2)
    (hfit : ∀ s : List (Int × Int), s.Sublist bricks → totalWeight s ≤ capacity →
      totalValue s ≤ 2147483647) :
    ∃ r, knapsack capacity bricks = some r ∧ IsMaxValue bricks capacity r := by
  have hc : ((capacity.toNat : Nat) : Int) = capacity := by omega
  refine ⟨_, knapsack_eq capacity bricks hcap hcapmax hn, ?_⟩
  have hdone := rowsDone_final bricks capacity.toNat (by omega) hint hw (by rw [hc]; exact hfit)
  have := hdone.2.1 bricks.length capacity.toNat (by omega) (le_refl _)
  rw [List.take_length, hc] at this
  exact this

theorem knapsack_maximum_witness :
    (∀ b ∈ [((60 : Int), (5 : Int)), (50, 3), (70, 4), (30, 2)], FitsInt b.1 ∧ FitsInt b.2) ∧
      (∀ b ∈ [((60 : Int), (5 : Int)), (50, 3), (70, 4), (30, 2)], 0 < b.2) ∧
      knapsack 10 [(60, 5), (50, 3), (70, 4), (30, 2)] = some 150 ∧
      IsMaxValue [(60, 5), (50, 3), (70, 4), (30, 2)] 10 150 := by
  have hfit : ∀ s : List (Int × Int), s.Sublist [(60, 5), (50, 3), (70, 4), (30, 2)] →
      totalWeight s ≤ 10 → totalValue s ≤ 2147483647 := by
    intro s hs _
    have := totalValue_sublist_le hs (by decide)
    have e : totalValue [(60, 5), (50, 3), (70, 4), (30, 2)] = 210 := by decide
    omega
  have hval : knapsack 10 [(60, 5), (50, 3), (70, 4), (30, 2)] = some 150 := by decide
  obtain ⟨r, h1, h2⟩ := knapsack_maximum 10 [(60, 5), (50, 3), (70, 4), (30, 2)] (by decide)
    (by decide) (by decide) (by simp [FitsInt]) (by decide) hfit
  rw [hval, Option.some.injEq] at h1
  rw [← h1] at h2
  exact ⟨by simp [FitsInt], by decide, hval, h2⟩

/-- C25. Zero-weight items are not handled: the loop over `w` starts at `1`,
so column `0` of the table never receives the value of a weightless item. With
capacity `1` and the items `(5, 0)`, `(3, 1)` both items fit, with total value
`8`, which is the maximum, and `knapsack` returns `5`; with capacity `0` and
the item `(5, 0)` the maximum is `5` and `knapsack` returns `0`. -/
theorem knapsack_zero_weight_divergence :
    knapsack 1 [(5, 0), (3, 1)] = some 5 ∧
      IsMaxValue [(5, 0), (3, 1)] 1 8 ∧
      ¬ IsMaxValue [(5, 0), (3, 1)] 1 5 ∧
      knapsack 0 [(5, 0)] = some 0 ∧
      IsMaxValue [(5, 0)] 0 5 ∧
      ¬ IsMaxValue [(5, 0)] 0 0 := by
  refine ⟨by decide, ⟨⟨_, List.Sublist.refl _, by decide, by decide⟩, ?_⟩, ?_, by decide,
    ⟨⟨_, List.Sublist.refl _, by decide, by decide⟩, ?_⟩, ?_⟩
  · intro s hs _
    exact totalValue_sublist_le hs (by decide)
  · intro h
    have := h.2 [(5, 0), (3, 1)] (List.Sublist.refl _) (by decide)
    exact absurd this (by decide)
  · intro s hs _
    exact totalValue_sublist_le hs (by decide)
  · intro h
    have := h.2 [(5, 0)] (List.Sublist.refl _) (by decide)
    exact absurd this (by decide)

end Knapsack
